import Mathlib

/-!
# Verification of the persistent index / metadata core of gsuneido

This file gives a shallow embedding, in Lean 4, of the components of the
repository that the specification's claims are about:

* the transaction checker (§4.5 of the spec; the implementation is not in
  the source snapshot, only its tests, so it is modelled from the spec and
  pinned down by the behaviour asserted in `database/db19/checker_test.go`);
* the index-key encoder `ixkey` (§3, §6; again only the tests are in the
  snapshot);
* the generic HAMT of `genny/hamt/hamt.go` (which is in the snapshot and is
  translated function by function);
* the chained HAMT persistence of `hamt.go` (`Write` / `ReadItemChain`),
  with the byte-level `stor` layer abstracted to structured chunks;
* the code generator's local-variable / constant index allocation
  (`cgen.name` / `cgen.value`);
* the persistent B-tree with its redirect layer (§4.2; only the tests are
  in the snapshot, so it is modelled from the spec).
-/

/-! ## Transaction checker (spec §4.5)

Modelled from the spec: the checker implementation (`Check`, `StartTran`,
`Write`, `Commit`, `Abort`) is not part of the source snapshot, only its test
`database/db19/checker_test.go`.  The model follows §4.5 of the spec (start
sequence, end sequence, per-table/per-index write key sets), with the conflict
rules pinned by the scripts of `TestCheckerActions`: a write that conflicts
with a transaction that *committed* after the writer started fails and removes
the writer; writes by two *live* transactions may overlap, and the first of
them to commit removes the other.  Empty keys are not recorded (the scripts
write `["", k]` for two indexes and never conflict on index 0). -/

namespace Checker

/-- One recorded write: a key for one index of one table. -/
structure WriteKey where
  table : String
  index : Nat
  key : String
deriving DecidableEq, Repr

/-- A tracked transaction: start sequence, end sequence (`none` while live)
and the set of keys it wrote. -/
structure CkTran where
  start : Nat
  endSeq : Option Nat
  writes : List WriteKey
deriving DecidableEq, Repr

/-- The checker state: sequence counter plus the tracked transactions,
keyed by transaction id. -/
structure Check where
  seq : Nat
  trans : List (Nat × CkTran)
deriving DecidableEq, Repr

/-- A fresh checker (`NewCheck`). -/
def NewCheck : Check := ⟨0, []⟩

/-- The per-index keys of a `Write` call, as `WriteKey`s; empty keys are
not recorded. -/
def toWriteKeys (table : String) (keys : List String) : List WriteKey :=
  keys.enum.filterMap fun ik =>
    if ik.2 = "" then none else some ⟨table, ik.1, ik.2⟩

/-- Go `StartTran` assigns the next sequence number as the transaction id and
registers the transaction as live. -/
def StartTran (ck : Check) : Nat × Check :=
  let id := ck.seq + 1
  (id, ⟨id, (id, ⟨id, none, []⟩) :: ck.trans⟩)

/-- Does transaction `t2` make `w` conflict for a transaction that started at
`start`?  Per §4.5 a conflict needs an overlapping key written by a
transaction that committed after this one started. -/
def conflictsEnded (start : Nat) (t2 : CkTran) (ws : List WriteKey) : Bool :=
  (match t2.endSeq with
   | some e => decide (start < e)
   | none => false) &&
  ws.any fun w => decide (w ∈ t2.writes)

/-- Go `Write(t, table, keys)`: fails if `t` is gone; fails — removing `t` — on a
conflict with a transaction that committed after `t` started; otherwise
records the keys. -/
def Write (ck : Check) (t : Nat) (table : String) (keys : List String) :
    Bool × Check :=
  match ck.trans.lookup t with
  | none => (false, ck)
  | some tn =>
    let ws := toWriteKeys table keys
    if ck.trans.any fun p => decide (p.1 ≠ t) && conflictsEnded tn.start p.2 ws then
      (false, { ck with trans := ck.trans.filter fun p => decide (p.1 ≠ t) })
    else
      (true, { ck with trans := ck.trans.map fun p =>
                if p.1 = t then (t, { tn with writes := tn.writes ++ ws }) else p })

/-- Go `Commit(t)`: freezes the end sequence of `t`, and removes ("aborts") every
other live transaction whose write set intersects `t`'s. -/
def Commit (ck : Check) (t : Nat) : Bool × Check :=
  match ck.trans.lookup t with
  | none => (false, ck)
  | some tn =>
    let e := ck.seq + 1
    let trans' := ck.trans.filterMap fun p =>
      if p.1 = t then some (t, { tn with endSeq := some e })
      else if p.2.endSeq = none && p.2.writes.any fun w => decide (w ∈ tn.writes) then
        none
      else some p
    (true, ⟨e, trans'⟩)

/-- Go `Abort(t)`: removes `t` immediately; fails if it is already gone. -/
def Abort (ck : Check) (t : Nat) : Bool × Check :=
  if (ck.trans.lookup t).isSome then
    (true, { ck with trans := ck.trans.filter fun p => decide (p.1 ≠ t) })
  else (false, ck)

/-! The scripts of `TestCheckerActions`, run against the model.  An action
is a write / commit / abort by transaction 1 or 2 together with the boolean
result the test expects. -/

/-- One step of a `TestCheckerActions` script: the operation, the acting
transaction and the result the test expects. -/
inductive Act where
  | w (t : Nat) (k : String) (expect : Bool)
  | c (t : Nat) (expect : Bool)
  | a (t : Nat) (expect : Bool)
deriving Repr

/-- Run a script from the state after two `StartTran`s, checking each
expected result; mirrors `script` in `checker_test.go` (writes use the key
list `["", k]`). -/
def runScript (ck : Check) : List Act → Bool
  | [] => true
  | Act.w t k e :: rest =>
    let r := Write ck t "mytable" ["", k]
    decide (r.1 = e) && runScript r.2 rest
  | Act.c t e :: rest =>
    let r := Commit ck t
    decide (r.1 = e) && runScript r.2 rest
  | Act.a t e :: rest =>
    let r := Abort ck t
    decide (r.1 = e) && runScript r.2 rest

/-- The checker state after `NewCheck` and two `StartTran`s (ids 1 and 2),
as at the start of each script. -/
def start2 : Check := (StartTran (StartTran NewCheck).2).2

/-- Shorthand for a whole script of `TestCheckerActions`. -/
def scriptOk (acts : List Act) : Bool := runScript start2 acts

end Checker

/-! ## Code generator index capacity (`cgen.name` / `cgen.value`)

Translated from the code generator in the source snapshot: `cgen.name`
returns the index of a local variable name, reusing an existing slot and
otherwise appending, and panics when the new index would exceed
`math.MaxUint8`; `cgen.value` does the same for constants (with
`Value.Equal` as the equality).  Every index either of them returns is
immediately emitted as an 8-bit operand through `cgen.emitUint8`
(`identifier` emits `LOAD`/`DYLOAD`, `lvalue` results flow into
`load`/`store`, constants are emitted by `emitValue` as `VALUE`), and
`emitUint8` itself asserts `verify.That(0 <= i && i < math.MaxUint8)`, so
index 255 already panics on emission.  The pools are modelled generically
over the element type with decidable equality; `none` models the panic; the
concrete byte values of the `op` package opcodes are irrelevant to the
claim and abstracted to distinct naturals. -/

namespace Codegen

/-- Go `cgen.name`: linear search for `s` in `names`; if absent, panic
(`none`) when the new index `names.length` exceeds `math.MaxUint8`,
otherwise append and return the new index. -/
def name {α : Type} [DecidableEq α] (names : List α) (s : α) :
    Option (Nat × List α) :=
  match names.findIdx? (fun s2 => decide (s = s2)) with
  | some i => some (i, names)
  | none =>
    if names.length > 255 then none else some (names.length, names ++ [s])

/-- Go `cgen.value`: same allocation discipline for the constant pool. -/
def value {α : Type} [DecidableEq α] (vals : List α) (v : α) :
    Option (Nat × List α) :=
  match vals.findIdx? (fun v2 => decide (v = v2)) with
  | some i => some (i, vals)
  | none =>
    if vals.length > 255 then none else some (vals.length, vals ++ [v])

/-- Go `cgen` compilation state, restricted to the parts the claim is
about: the local-name pool `Names`, the constant pool `Values`, and the
emitted `code`, modelled as (opcode, operand) pairs. -/
structure Cgen (α β : Type) where
  names : List α
  values : List β
  code : List (Nat × Nat)
  deriving DecidableEq, Repr

/-- Go `cgen` zero value: empty pools, no code. -/
def Cgen.empty {α β : Type} : Cgen α β := ⟨[], [], []⟩

/-- Byte value of `op.LOAD` (abstracted; `op.DYLOAD` only differs in this
byte, never in the operand). -/
def opLOAD : Nat := 0

/-- Byte value of `op.VALUE` (abstracted). -/
def opVALUE : Nat := 1

/-- Go `cgen.emitUint8`: `verify.That(0 <= i && i < math.MaxUint8)` — a
failed assertion panics (`none`) — then append the op byte and the operand
byte `byte(i)` to the code. -/
def emitUint8 (code : List (Nat × Nat)) (o i : Nat) :
    Option (List (Nat × Nat)) :=
  if 0 ≤ i ∧ i < 255 then some (code ++ [(o, i)]) else none

/-- Go `cgen.identifier` on a local variable: `i := cg.name(node.Name)`
then `cg.emitUint8(op.LOAD, i)` (or `op.DYLOAD` for a dynamic variable —
same operand, different op byte).  The same pattern covers `lvalue`
results, which flow into `load`/`store`, both of which end in
`emitUint8(_, ref)`. -/
def identifier {α β : Type} [DecidableEq α] (cg : Cgen α β) (s : α) :
    Option (Cgen α β) :=
  match name cg.names s with
  | none => none
  | some (i, ns) =>
    match emitUint8 cg.code opLOAD i with
    | none => none
    | some c2 => some { cg with names := ns, code := c2 }

/-- Go `cgen.emitValue` in the general case (a constant that is not one of
the specially encoded values): `cg.emitUint8(op.VALUE, cg.value(val))`. -/
def emitValue {α β : Type} [DecidableEq β] (cg : Cgen α β) (v : β) :
    Option (Cgen α β) :=
  match value cg.values v with
  | none => none
  | some (i, vs) =>
    match emitUint8 cg.code opVALUE i with
    | none => none
    | some c2 => some { cg with values := vs, code := c2 }

/-- Compile a body that references the given locals in order: each
reference goes through `identifier`, propagating the panic. -/
def emitIdents {α β : Type} [DecidableEq α] (cg : Cgen α β) :
    List α → Option (Cgen α β)
  | [] => some cg
  | s :: rest =>
    match identifier cg s with
    | none => none
    | some cg2 => emitIdents cg2 rest

/-- Compile a body that emits the given constants in order via
`emitValue`, propagating the panic. -/
def emitValues {α β : Type} [DecidableEq β] (cg : Cgen α β) :
    List β → Option (Cgen α β)
  | [] => some cg
  | v :: rest =>
    match emitValue cg v with
    | none => none
    | some cg2 => emitValues cg2 rest

end Codegen

/-! ## Index key encoding (`ixkey`, spec §3 / §6)

Modelled from the spec: the `ixkey` implementation (`Spec.Key`, `Encoder`)
is not part of the source snapshot, only its tests.  Per §3/§6 of the spec,
fields are joined by the separator `0x00 0x00` with embedded zero bytes
escaped as `0x00 0x01`, trailing empty fields are omitted, and a
single-field key is stored raw.  The tests pin down the remaining
behaviour: the raw single-field shortcut applies only when `Fields2` is
empty (`TestKeyBug`), and the `Fields2` fields are appended only when *all*
primary fields are empty (`TestKey`, lines 62–68). -/

namespace Ixkey

/-- A byte string, as a list of byte values. -/
abbrev Bytes := List Nat

/-- A record: the list of its raw field values (`RecordBuilder.AddRaw`). -/
abbrev Rec := List Bytes

/-- Go `Record.GetRaw`: a missing field reads as the empty string. -/
def getRaw (r : Rec) (i : Nat) : Bytes := (r.get? i).getD []

/-- Escape embedded zero bytes: `0x00 ↦ 0x00 0x01`. -/
def escape : Bytes → Bytes
  | [] => []
  | b :: bs => if b = 0 then 0 :: 1 :: escape bs else b :: escape bs

/-- Are all the fields empty? -/
def allEmpty (l : List Bytes) : Bool := l.all fun f => decide (f = [])

/-- Join escaped fields with the `0x00 0x00` separator, omitting trailing
empty fields. -/
def encodeFields : List Bytes → Bytes
  | [] => []
  | f :: t =>
    if allEmpty (f :: t) then []
    else escape f ++ (if allEmpty t then [] else 0 :: 0 :: encodeFields t)

/-- An index spec: primary fields and optional uniqueness fields. -/
structure Spec where
  Fields : List Nat
  Fields2 : List Nat
deriving DecidableEq, Repr

/-- Modelled from the spec: `ixkey.Spec.Key`.  A single primary field with no
`Fields2` is stored raw; otherwise the primary fields are encoded via
`encodeFields`, with the `Fields2` fields appended when every primary field
is empty (the uniqueness case pinned by `TestKey`/`TestKeyBug`). -/
def key (sp : Spec) (r : Rec) : Bytes :=
  match sp.Fields, sp.Fields2 with
  | [], _ => []
  | [f], [] => getRaw r f
  | fields, fields2 =>
    let use2 := decide (fields2 ≠ []) && allEmpty (fields.map (getRaw r))
    encodeFields ((if use2 then fields ++ fields2 else fields).map (getRaw r))

def lexLt : Bytes → Bytes → Bool
  | [], [] => false
  | [], _ :: _ => true
  | _ :: _, [] => false
  | a :: as, b :: bs => decide (a < b) || (decide (a = b) && lexLt as bs)

def fieldsLt : List Bytes → List Bytes → Bool
  | [], [] => false
  | [], _ :: _ => true
  | _ :: _, [] => false
  | f :: fs, g :: gs => if f = g then fieldsLt fs gs else lexLt f g

/-- rests that can follow an escaped field in an encoded key -/
def GoodRest (r : Bytes) : Prop := r = [] ∨ ∃ s, r = 0 :: 0 :: s

def recordLt : Rec → Rec → Bool
  | [], [] => false
  | [], _ :: _ => true
  | _ :: _, [] => false
  | a :: as, b :: bs => if a = b then recordLt as bs else lexLt a b

end Ixkey

namespace Hamt

/-- Go `bits.OnesCount32`: number of set bits of a 32-bit word. -/
def onesCount32 (n : Nat) : Nat := ((List.range 32).filter fun i => n.testBit i).length

/-- Number of set bits of `bm` strictly below position `j` (the rank used to
index the `vals`/`ptrs` slices). -/
def cnt (bm j : Nat) : Nat := ((List.range j).filter fun i => bm.testBit i).length

/-- Value stored at bitmap slot `j` of a packed `(bitmap, list)` pair. -/
def slotGet {β : Type} (bm : Nat) (l : List β) (j : Nat) : Option β :=
  if bm.testBit j then l[cnt bm j]? else none

/-- The HAMT node of `hamt.go`: generation tag, value/pointer bitmaps and
the packed `vals`/`ptrs` slices. -/
inductive HNode (α : Type) : Type where
  | mk (generation bmVal bmPtr : Nat) (vals : List α) (ptrs : List (HNode α))

/-- Go expression `1 << ((hash >> shift) & 0x1F)`, the bitmap bit for a hash at a level. -/
def hamtBit (hash shift : Nat) : Nat := 1 <<< ((hash >>> shift) &&& 31)

/-- The slot index selected by a hash at a level. -/
def slotOf (hash shift : Nat) : Nat := (hash >>> shift) &&& 31

/-- Go `bits.LeadingZeros32` (for nonzero arguments). -/
def leadingZeros32 (n : Nat) : Nat := 32 - (Nat.log2 n + 1)

/-- Go `clearHighestOneBit` from `hamt.go`: `n &^ (1 << (31 - LeadingZeros32(n)))`. -/
def clearHighestOneBit (n : Nat) : Nat :=
  Nat.ldiff n (1 <<< (31 - leadingZeros32 n))

section Ops

variable {α κ : Type} [DecidableEq κ]

/-- Translation of `ItemHamt.get` (the iterative 5-bits-per-level walk ending
in an overflow node's linear search). -/
def getH (keyf : α → κ) (k : κ) (hash : Nat) : Nat → HNode α → Option α
  | shift, .mk _ bv bp vs ps =>
    if 32 ≤ shift then vs.find? fun v => decide (keyf v = k)
    else
      let bit := hamtBit hash shift
      let iv := onesCount32 (bv &&& (bit - 1))
      if bv &&& bit ≠ 0 ∧ (vs[iv]?.any fun v => decide (keyf v = k)) = true then
        vs[iv]?
      else if bp &&& bit = 0 then none
      else
        match ps[onesCount32 (bp &&& (bit - 1))]? with
        | none => none
        | some c => getH keyf k hash (shift + 5) c
  termination_by shift _ => 32 - shift
  decreasing_by omega

/-- Translation of `nodeItem.with`.  The Go code path-copies a node whose
generation differs and then mutates in place, so on every path the result
node carries `gen`; the pure translation rebuilds the node with `gen`
directly. -/
def withH (keyf : α → κ) (gen : Nat) (item : α) (k : κ) (hash : Nat) :
    Nat → HNode α → HNode α
  | shift, .mk _ bv bp vs ps =>
    if 32 ≤ shift then
      match vs.findIdx? (fun v => decide (keyf v = k)) with
      | some i => .mk gen bv bp (vs.set i item) ps
      | none => .mk gen bv bp (vs ++ [item]) ps
    else
      let bit := hamtBit hash shift
      let iv := onesCount32 (bv &&& (bit - 1))
      if bv &&& bit = 0 then
        .mk gen (bv ||| bit) bp (vs.insertIdx iv item) ps
      else if (vs[iv]?.any fun v => decide (keyf v = k)) = true then
        .mk gen bv bp (vs.set iv item) ps
      else
        let ip := onesCount32 (bp &&& (bit - 1))
        if bp &&& bit ≠ 0 then
          match ps[ip]? with
          | some c =>
            .mk gen bv bp vs (ps.set ip (withH keyf gen item k hash (shift + 5) c))
          | none => .mk gen bv bp vs ps
        else
          .mk gen bv (bp ||| bit) vs
            (ps.insertIdx ip (withH keyf gen item k hash (shift + 5) (.mk gen 0 0 [] [])))
  termination_by shift _ => 32 - shift
  decreasing_by all_goals omega

/-- Translation of `nodeItem.pullUp`: take the rightmost item (rightmost
child first, else rightmost value); `none` as the second component models the
panic on an empty node, which well-formedness rules out. -/
def pullUpH (gen : Nat) : HNode α → Option (HNode α) × Option α
  | .mk _ bv bp vs ps =>
    if bp ≠ 0 then
      match hps : ps.getLast? with
      | none => (some (.mk gen bv bp vs ps), none)
      | some c =>
        let r := pullUpH gen c
        match r.1 with
        | some child =>
          (some (.mk gen bv bp vs (ps.set (ps.length - 1) child)), r.2)
        | none => (some (.mk gen bv (clearHighestOneBit bp) vs ps.dropLast), r.2)
    else
      match vs.getLast? with
      | none => (some (.mk gen bv bp vs ps), none)
      | some item =>
        if vs.length = 1 then (none, some item)
        else
          (some (.mk gen (if bv ≠ 0 then clearHighestOneBit bv else bv) bp
            vs.dropLast ps), some item)
  termination_by nd => sizeOf nd
  decreasing_by
    have hm := List.mem_of_mem_getLast? hps
    have := List.sizeOf_lt_of_mem hm
    simp only [HNode.mk.sizeOf_spec]
    omega

/-- Translation of `nodeItem.without`; `none` in the first component is the
Go `nil` result for an emptied node. -/
def withoutH (keyf : α → κ) (gen : Nat) (k : κ) (hash : Nat) :
    Nat → HNode α → Option (HNode α) × Bool
  | shift, .mk _ bv bp vs ps =>
    if 32 ≤ shift then
      match vs.findIdx? (fun v => decide (keyf v = k)) with
      | none => (some (.mk gen bv bp vs ps), false)
      | some i =>
        match vs.getLast? with
        | none => (some (.mk gen bv bp vs ps), false)
        | some lastv =>
          let vs' := (vs.set i lastv).dropLast
          if vs'.length = 0 then (none, true)
          else (some (.mk gen bv bp vs' ps), true)
    else
      let bit := hamtBit hash shift
      let iv := onesCount32 (bv &&& (bit - 1))
      if bv &&& bit ≠ 0 ∧ (vs[iv]?.any fun v => decide (keyf v = k)) = true then
        if bp &&& bit = 0 then
          let bv' := Nat.ldiff bv bit
          let vs' := vs.eraseIdx iv
          if bv' = 0 ∧ bp = 0 then (none, true)
          else (some (.mk gen bv' bp vs' ps), true)
        else
          let ip := onesCount32 (bp &&& (bit - 1))
          match ps[ip]? with
          | none => (some (.mk gen bv bp vs ps), true)
          | some c =>
            let r := pullUpH gen c
            match r.2 with
            | none => (some (.mk gen bv bp vs ps), true)
            | some item =>
              let vs' := vs.set iv item
              match r.1 with
              | some child => (some (.mk gen bv bp vs' (ps.set ip child)), true)
              | none =>
                (some (.mk gen bv (Nat.ldiff bp bit) vs' (ps.eraseIdx ip)), true)
      else
        if bp &&& bit = 0 then (some (.mk gen bv bp vs ps), false)
        else
          let ip := onesCount32 (bp &&& (bit - 1))
          match ps[ip]? with
          | none => (some (.mk gen bv bp vs ps), false)
          | some c =>
            let r := withoutH keyf gen k hash (shift + 5) c
            match r.1 with
            | some child => (some (.mk gen bv bp vs (ps.set ip child)), r.2)
            | none =>
              (some (.mk gen bv (Nat.ldiff bp bit) vs (ps.eraseIdx ip)), r.2)
  termination_by shift _ => 32 - shift
  decreasing_by omega

/-- Translation of `forEach`: values before children, left to right. -/
def toListH : HNode α → List α
  | .mk _ _ _ vs ps => vs ++ (ps.attach.map fun c => toListH c.1).join
  termination_by nd => sizeOf nd
  decreasing_by
    have := List.sizeOf_lt_of_mem c.2
    simp only [HNode.mk.sizeOf_spec]
    omega

end Ops

section WfSection

variable {α κ : Type} [DecidableEq κ] {keyf : α → κ} {hashf : κ → Nat}

/-- Well-formedness of a HAMT subtree: `shift` is the level's bit offset and
`P` is the hash path-condition accumulated from the root.  An overflow node
(`shift ≥ 32`) is a non-empty list of items with pairwise distinct keys; an
interior node has packed `vals`/`ptrs` slices indexed by bitmap ranks, every
inline item and every child hashing to its slot, non-empty children, and no
key both inline and in the same slot's child. -/
inductive Wf (keyf : α → κ) (hashf : κ → Nat) : Nat → (Nat → Prop) → HNode α → Prop where
  | over {shift : Nat} {P : Nat → Prop} {g : Nat} {vs : List α} :
      32 ≤ shift → vs ≠ [] →
      (∀ v ∈ vs, P (hashf (keyf v))) →
      (vs.map keyf).Nodup →
      Wf keyf hashf shift P (.mk g 0 0 vs [])
  | node {shift : Nat} {P : Nat → Prop} {g bv bp : Nat} {vs : List α}
      {ps : List (HNode α)} :
      shift < 32 → bv < 2 ^ 32 → bp < 2 ^ 32 →
      vs.length = onesCount32 bv → ps.length = onesCount32 bp →
      (∀ j v, slotGet bv vs j = some v →
        P (hashf (keyf v)) ∧ slotOf (hashf (keyf v)) shift = j) →
      (∀ j, bp.testBit j = true → bv.testBit j = true) →
      (∀ j c, slotGet bp ps j = some c →
        Wf keyf hashf (shift + 5) (fun h => P h ∧ slotOf h shift = j) c) →
      (∀ j c, slotGet bp ps j = some c → toListH c ≠ []) →
      (∀ j v c, slotGet bv vs j = some v → slotGet bp ps j = some c →
        keyf v ∉ (toListH c).map keyf) →
      Wf keyf hashf shift P (.mk g bv bp vs ps)

/-- Items of an optional node (`nil` is the empty tree). -/
def toListO : Option (HNode α) → List α
  | none => []
  | some nd => toListH nd

end WfSection

section Handle

variable {α κ : Type} [DecidableEq κ]

/-- The `ItemHamt` handle: root pointer (`none` is Go's nil), mutability flag
and current generation. -/
structure ItemHamt (α : Type) where
  root : Option (HNode α)
  mutable : Bool
  generation : Nat

/-- Go's zero value `ItemHamt{}`. -/
def zeroHamt : ItemHamt α := ⟨none, false, 0⟩

/-- Translation of `ItemHamt.Mutable`: bump the generation, materialise a nil
root as a fresh empty node, and shallow-copy the root with the new
generation. -/
def ItemHamt.Mutable (ht : ItemHamt α) : ItemHamt α :=
  let gen := ht.generation + 1
  let nd := match ht.root with
    | none => HNode.mk gen 0 0 ([] : List α) []
    | some nd => nd
  let nd2 := match nd with
    | .mk _ bv bp vs ps => HNode.mk gen bv bp vs ps
  ⟨some nd2, true, gen⟩

/-- Translation of `ItemHamt.Put`; `none` models the panic on an immutable
handle and the nil dereference of a nil root (a mutable handle always has a
root). -/
def ItemHamt.Put (keyf : α → κ) (hashf : κ → Nat) (ht : ItemHamt α)
    (item : α) : Option (ItemHamt α) :=
  if ht.mutable = false then none
  else match ht.root with
    | none => none
    | some r => some ⟨some (withH keyf ht.generation item (keyf item)
        (hashf (keyf item)) 0 r), ht.mutable, ht.generation⟩

/-- Translation of `ItemHamt.Delete`.  `without` mutates the mutable root in
place, so when it reports an emptied node (`nil`) the handle's root is the
in-place-emptied node — under the node invariants, the empty node. -/
def ItemHamt.Delete (keyf : α → κ) (hashf : κ → Nat) (ht : ItemHamt α)
    (k : κ) : Option (ItemHamt α × Bool) :=
  if ht.mutable = false then none
  else match ht.root with
    | none => none
    | some r =>
      let rr := withoutH keyf ht.generation k (hashf k) 0 r
      some (⟨some (match rr.1 with
          | some nd => nd
          | none => HNode.mk ht.generation 0 0 ([] : List α) []),
        ht.mutable, ht.generation⟩, rr.2)

/-- Translation of `ItemHamt.Freeze`. -/
def ItemHamt.Freeze (ht : ItemHamt α) : ItemHamt α :=
  ⟨ht.root, false, ht.generation⟩

/-- Translation of `ItemHamt.ForEach`, collecting the visited items in
order. -/
def ItemHamt.ForEach (ht : ItemHamt α) : List α :=
  match ht.root with
  | none => []
  | some nd => toListH nd

/-- Translation of `ItemHamt.Get`. -/
def ItemHamt.Get (keyf : α → κ) (hashf : κ → Nat) (ht : ItemHamt α)
    (k : κ) : Option α :=
  match ht.root with
  | none => none
  | some nd => getH keyf k (hashf k) 0 nd

/-- A `Put` or `Delete` step, for reasoning about operation sequences. -/
inductive HOp (α κ : Type) where
  | put (item : α)
  | del (k : κ)

/-- Run a sequence of operations left to right; `none` when any step
panics. -/
def applyOps (keyf : α → κ) (hashf : κ → Nat) :
    ItemHamt α → List (HOp α κ) → Option (ItemHamt α)
  | ht, [] => some ht
  | ht, .put item :: rest =>
    (ht.Put keyf hashf item).bind (fun ht2 => applyOps keyf hashf ht2 rest)
  | ht, .del k :: rest =>
    (ht.Delete keyf hashf k).bind (fun p => applyOps keyf hashf p.1 rest)

/-- Does an operation touch key `k`? -/
def opTouches (keyf : α → κ) (k : κ) : HOp α κ → Bool
  | .put item => decide (keyf item = k)
  | .del k2 => decide (k2 = k)

/-- The most recent operation of a sequence touching key `k`. -/
def lastKeyOp (keyf : α → κ) (k : κ) (ops : List (HOp α κ)) :
    Option (HOp α κ) :=
  (ops.filter (opTouches keyf k)).getLast?

/-- One step of `ItemHamt.read`: insert the decoded item only when its key is
not already present. -/
def readChunkStep (keyf : α → κ) (hashf : κ → Nat) (ht : ItemHamt α)
    (it : α) : Option (ItemHamt α) :=
  match ht.Get keyf hashf (keyf it) with
  | some _ => some ht
  | none => ht.Put keyf hashf it

/-- Translation of `ItemHamt.read` over one chunk, abstracting the byte layer
to the list of items the chunk decodes to. -/
def readChunk (keyf : α → κ) (hashf : κ → Nat) (ht : ItemHamt α)
    (items : List α) : Option (ItemHamt α) :=
  items.foldlM (readChunkStep keyf hashf) ht

/-- Translation of `ReadItemChain`: starting from `ItemHamt{}.Mutable()`, the
chunks are read newest-first following the `prevOff` links, and the result is
frozen. -/
def ReadItemChain (keyf : α → κ) (hashf : κ → Nat)
    (chain : List (List α)) : Option (ItemHamt α) :=
  (chain.foldlM (readChunk keyf hashf) ((zeroHamt (α := α)).Mutable)).map
    ItemHamt.Freeze

end Handle

end Hamt

namespace Btree

/-- Keys are byte strings. -/
abbrev BKey := List Nat

/-- Strict lexicographic byte order. -/
def lexLt : BKey → BKey → Bool
  | [], [] => false
  | [], _ :: _ => true
  | _ :: _, [] => false
  | a :: as, b :: bs => if a < b then true else if b < a then false else lexLt as bs

/-- Modelled from the spec: a B-tree node is a sequence of (stored key,
offset) entries; leaf offsets are value offsets, interior offsets are child
node offsets.  The on-disk prefix compression is abstracted: each entry
carries its full embedded (possibly shortened) key. -/
abbrev FNode := List (BKey × Nat)

/-- Modelled from the spec: the backing Stor as an append-only sequence of
nodes, addressed by index. -/
abbrev FStor := List FNode

/-- Modelled from the spec: a B-tree handle — backing store, root offset,
tree levels (height above the leaves) and the redirect map from node offset
to its fresh in-memory replacement. -/
structure Fbtree where
  store : FStor
  root : Nat
  treeLevels : Nat
  redirs : List (Nat × FNode)
  deriving DecidableEq, Repr

/-- Modelled from the spec: traversals consult the redirect map first, then
the store. -/
def resolve (store : FStor) (redirs : List (Nat × FNode)) (off : Nat) :
    Option FNode :=
  match redirs.lookup off with
  | some nd => some nd
  | none => store[off]?

/-- Modelled from the spec: in-order ascending iteration, collecting each
leaf entry's (embedded key, value offset); the level count bounds the
descent. -/
def iterL (store : FStor) (redirs : List (Nat × FNode)) :
    Nat → Nat → List (BKey × Nat)
  | 0, off => (resolve store redirs off).getD []
  | l + 1, off =>
    (((resolve store redirs off).getD []).map fun e =>
      iterL store redirs l e.2).flatten

/-- All node offsets reachable from `off` resolve (to the redirect map or to
an in-range store index). -/
def okTree (store : FStor) (redirs : List (Nat × FNode)) :
    Nat → Nat → Bool
  | 0, off => (resolve store redirs off).isSome
  | l + 1, off =>
    match resolve store redirs off with
    | none => false
    | some nd => nd.all fun e => okTree store redirs l e.2

/-- Serialize a node's children left to right, threading the growing store
and collecting the rewritten entries. -/
def saveKids (f : FStor → Nat → FStor × Nat) :
    FNode → FStor → FNode → FStor × FNode
  | [], store, acc => (store, acc)
  | e :: rest, store, acc =>
    let r := f store e.2
    saveKids f rest r.1 (acc ++ [(e.1, r.2)])

/-- Modelled from the spec: `save(flatten=false)` serializes each redirected
node to the store at a fresh offset and rewrites the parent entries that
referenced it; untouched subtrees keep their offsets. -/
def saveR (redirs : List (Nat × FNode)) :
    Nat → FStor → Nat → (FStor × Nat)
  | 0, store, off =>
    (match redirs.lookup off with
    | none => (store, off)
    | some nd => (store ++ [nd], store.length))
  | l + 1, store, off =>
    let nd := (resolve store redirs off).getD []
    let sc := saveKids (fun st o => saveR redirs l st o) nd store []
    if sc.2 = nd ∧ redirs.lookup off = none then (sc.1, off)
    else (sc.1 ++ [sc.2], sc.1.length)

/-- Modelled from the spec: `Save(flatten=false)` followed by `OpenFbtree`
from the saved root and tree levels; the reopened tree has an empty redirect
map. -/
def saveAndReopen (fb : Fbtree) : Fbtree :=
  let r := saveR fb.redirs fb.treeLevels fb.store fb.root
  ⟨r.1, r.2, fb.treeLevels, []⟩

/-- Modelled from the spec: insert an entry in sorted position. -/
def insertEntry (key : BKey) (voff : Nat) : FNode → FNode
  | [] => [(key, voff)]
  | e :: rest =>
    if lexLt key e.1 then (key, voff) :: e :: rest
    else e :: insertEntry key voff rest

/-- Update the redirect map at an offset, replacing any existing entry. -/
def updRedir : List (Nat × FNode) → Nat → FNode → List (Nat × FNode)
  | [], o, nd => [(o, nd)]
  | r :: rest, o, nd =>
    if r.1 = o then (o, nd) :: rest else r :: updRedir rest o nd

/-- Modelled from the spec: route to the child of the largest routing key
that is ≤ the search key (the first child when the key sorts before every
routing key). -/
def pickChild (key : BKey) : FNode → Option Nat
  | [] => none
  | [e] => some e.2
  | e1 :: e2 :: rest =>
    if lexLt key e2.1 then some e1.2 else pickChild key (e2 :: rest)

/-- Modelled from the spec: locate the leaf for `key` and record the updated
leaf in the redirect map (the no-split case; `none` models a missing node).
The ancestor path set is not tracked — it does not affect iteration. -/
def insertR (store : FStor) (key : BKey) (voff : Nat) :
    Nat → Nat → List (Nat × FNode) → Option (List (Nat × FNode))
  | 0, off, redirs =>
    match resolve store redirs off with
    | none => none
    | some leaf => some (updRedir redirs off (insertEntry key voff leaf))
  | l + 1, off, redirs =>
    match resolve store redirs off with
    | none => none
    | some nd =>
      match pickChild key nd with
      | none => none
      | some child => insertR store key voff l child redirs

/-- Modelled from the spec: `Insert` on a mutable tree mutates through the
redirect map only. -/
def Fbtree.Insert (fb : Fbtree) (key : BKey) (voff : Nat) : Option Fbtree :=
  (insertR fb.store key voff fb.treeLevels fb.root fb.redirs).map
    fun rd => ⟨fb.store, fb.root, fb.treeLevels, rd⟩

/-- Modelled from the spec: a freshly created tree is a single empty root
leaf held as an in-memory redirect (nothing written to the store yet). -/
def CreateFbtree : Fbtree := ⟨[], 0, 0, [(0, [])]⟩

/-- Modelled from the spec: the length of the common prefix of two keys. -/
def commonLen : BKey → BKey → Nat
  | a :: as2, b :: bs => if a = b then commonLen as2 bs + 1 else 0
  | _, _ => 0

/-- Modelled from the spec: the embedded key for an entry is the shortest
distinguishing prefix — one byte past the common prefix with the preceding
key. -/
def storedKey (prev cur : BKey) : BKey := cur.take (commonLen prev cur + 1)

/-- Shorten a sorted run of full keys to their embedded keys. -/
def shorten : BKey → List (BKey × Nat) → List (BKey × Nat)
  | _, [] => []
  | prev, (k, o) :: rest => (storedKey prev k, o) :: shorten k rest

/-- Split a list into consecutive nodes of `c + 2` entries (the last may be
shorter); the bound keeps every node non-empty and the node count strictly
shrinking. -/
def chunks {β : Type} (c : Nat) : List β → List (List β)
  | [] => []
  | x :: xs => (x :: xs.take (c + 1)) :: chunks c (xs.drop (c + 1))
  termination_by l => l.length
  decreasing_by
    simp only [List.length_drop, List.length_cons]
    omega

/-- Modelled from the spec: append each closed node to the store, collecting
the (routing key, node offset) references for the level above. -/
def writeAll : FStor → List FNode → FStor × List (BKey × Nat)
  | store, [] => (store, [])
  | store, g :: gs =>
    let r := writeAll (store ++ [g]) gs
    (r.1, ((g.head?.map Prod.fst).getD [], store.length) :: r.2)

/-- Modelled from the spec: close the partial nodes level by level until a
single root remains, emitting a new root per level. -/
def buildUp (c : Nat) (store : FStor) (refs : List (BKey × Nat)) (lv : Nat) :
    FStor × Nat × Nat :=
  if h : refs.length ≤ 1 then
    match refs with
    | [] => (store ++ [[]], store.length, lv)
    | r :: _ => (store, r.2, lv)
  else
    buildUp c (writeAll store (chunks c refs)).1
      (writeAll store (chunks c refs)).2 (lv + 1)
  termination_by refs.length
  decreasing_by
    have hwl : ∀ (gs : List FNode) (store : FStor),
        (writeAll store gs).2.length = gs.length := by
      intro gs
      induction gs with
      | nil => intro store; rfl
      | cons g gs ih =>
        intro store
        rw [writeAll]
        simp only [List.length_cons]
        rw [ih]
    have hcle : ∀ (l : List (BKey × Nat)), (chunks c l).length ≤ l.length := by
      intro l
      induction l using chunks.induct (c := c) with
      | case1 => rw [chunks]; rfl
      | case2 x xs ih =>
        rw [chunks]
        simp only [List.length_cons]
        have hd : (xs.drop (c + 1)).length = xs.length - (c + 1) :=
          List.length_drop _ _
        omega
    rw [hwl]
    cases refs with
    | nil => simp at h
    | cons x xs =>
      rw [chunks]
      simp only [List.length_cons] at h ⊢
      have hle := hcle (xs.drop (c + 1))
      have hd : (xs.drop (c + 1)).length = xs.length - (c + 1) :=
        List.length_drop _ _
      omega

/-- Modelled from the spec: the streaming builder — shorten the sorted keys,
chunk them into leaves, then build the interior levels bottom-up.  Returns
the store, root offset and tree levels. -/
def build (c : Nat) (pairs : List (BKey × Nat)) : FStor × Nat × Nat :=
  buildUp c (writeAll [] (chunks c (shorten [] pairs))).1
    (writeAll [] (chunks c (shorten [] pairs))).2 0

/-- Strictly sorted by full key. -/
def sortedStrict : List (BKey × Nat) → Bool
  | [] => true
  | [_] => true
  | a :: b :: rest => lexLt a.1 b.1 && sortedStrict (b :: rest)

end Btree

namespace Hamt

variable {α κ : Type} [DecidableEq κ]

/-- A `nodeItem` record as it sits in memory: generation tag, bitmaps,
inline values and child node pointers (heap addresses). -/
structure NodeR (α : Type) where
  generation : Nat
  bmVal : Nat
  bmPtr : Nat
  vals : List α
  ptrs : List Nat
  deriving DecidableEq, Repr

/-- The node heap: addresses are indices, allocation appends. -/
abbrev Heap (α : Type) := List (NodeR α)

/-- Pointer dereference. -/
def hget (H : Heap α) (a : Nat) : Option (NodeR α) := H[a]?

/-- Translation of `ItemHamt.get` reading nodes through the heap. -/
def getA (keyf : α → κ) (k : κ) (hash : Nat) (H : Heap α) :
    Nat → Nat → Option α
  | shift, a =>
    match hget H a with
    | none => none
    | some nd =>
      if 32 ≤ shift then nd.vals.find? fun v => decide (keyf v = k)
      else
        let bit := hamtBit hash shift
        let iv := onesCount32 (nd.bmVal &&& (bit - 1))
        if nd.bmVal &&& bit ≠ 0 ∧
            (nd.vals[iv]?.any fun v => decide (keyf v = k)) = true then
          nd.vals[iv]?
        else if nd.bmPtr &&& bit = 0 then none
        else
          match nd.ptrs[onesCount32 (nd.bmPtr &&& (bit - 1))]? with
          | none => none
          | some ca => getA keyf k hash H (shift + 5) ca
  termination_by shift _ => 32 - shift
  decreasing_by omega

/-- Path-copy step: a node of a foreign generation is duplicated into a
fresh address carrying the current generation (`nd.dup()` plus the
generation stamp); a current-generation node is mutated in place. -/
def dupFor (gen : Nat) (H : Heap α) (a : Nat) (nd0 : NodeR α) :
    Heap α × Nat × NodeR α :=
  if nd0.generation ≠ gen then
    (H ++ [{ nd0 with generation := gen }], H.length,
      { nd0 with generation := gen })
  else (H, a, nd0)

/-- Translation of `nodeItem.with` over the heap: returns the new heap and
the address of the (possibly copied) updated node. -/
def withA (keyf : α → κ) (gen : Nat) (item : α) (k : κ) (hash : Nat) :
    Nat → Heap α → Nat → (Heap α × Nat)
  | shift, H, a =>
    match hget H a with
    | none => (H, a)
    | some nd0 =>
      let d := dupFor gen H a nd0
      let H1 := d.1
      let a1 := d.2.1
      let nd := d.2.2
      if 32 ≤ shift then
        match nd.vals.findIdx? (fun v => decide (keyf v = k)) with
        | some i => (H1.set a1 { nd with vals := nd.vals.set i item }, a1)
        | none => (H1.set a1 { nd with vals := nd.vals ++ [item] }, a1)
      else
        let bit := hamtBit hash shift
        let iv := onesCount32 (nd.bmVal &&& (bit - 1))
        if nd.bmVal &&& bit = 0 then
          (H1.set a1 { nd with bmVal := nd.bmVal ||| bit
                               vals := nd.vals.insertIdx iv item }, a1)
        else if (nd.vals[iv]?.any fun v => decide (keyf v = k)) = true then
          (H1.set a1 { nd with vals := nd.vals.set iv item }, a1)
        else
          let ip := onesCount32 (nd.bmPtr &&& (bit - 1))
          if nd.bmPtr &&& bit ≠ 0 then
            match nd.ptrs[ip]? with
            | none => (H1, a1)
            | some ca =>
              let r := withA keyf gen item k hash (shift + 5) H1 ca
              (r.1.set a1 { nd with ptrs := nd.ptrs.set ip r.2 }, a1)
          else
            let H2 := H1 ++ [⟨gen, 0, 0, [], []⟩]
            let r := withA keyf gen item k hash (shift + 5) H2 H1.length
            (r.1.set a1 { nd with bmPtr := nd.bmPtr ||| bit
                                  ptrs := nd.ptrs.insertIdx ip r.2 }, a1)
  termination_by shift _ _ => 32 - shift
  decreasing_by all_goals omega

/-- Translation of `nodeItem.pullUp` over the heap; the fuel stands in for
the acyclicity of well-formed trees. -/
def pullUpA (gen : Nat) : Nat → Heap α → Nat → (Heap α × Option Nat × Option α)
  | 0, H, _ => (H, none, none)
  | fuel + 1, H, a =>
    match hget H a with
    | none => (H, none, none)
    | some nd0 =>
      let d := dupFor gen H a nd0
      let H1 := d.1
      let a1 := d.2.1
      let nd := d.2.2
      if nd.bmPtr ≠ 0 then
        match nd.ptrs.getLast? with
        | none => (H1, some a1, none)
        | some ca =>
          let r := pullUpA gen fuel H1 ca
          match r.2.1 with
          | some child =>
            (r.1.set a1 { nd with ptrs := nd.ptrs.set (nd.ptrs.length - 1) child },
              some a1, r.2.2)
          | none =>
            (r.1.set a1 { nd with bmPtr := clearHighestOneBit nd.bmPtr
                                  ptrs := nd.ptrs.dropLast }, some a1, r.2.2)
      else
        match nd.vals.getLast? with
        | none => (H1, some a1, none)
        | some item =>
          if nd.vals.length = 1 then (H1, none, some item)
          else
            (H1.set a1 { nd with
                         bmVal := if nd.bmVal ≠ 0 then clearHighestOneBit nd.bmVal
                           else nd.bmVal
                         vals := nd.vals.dropLast }, some a1, some item)

/-- Translation of `nodeItem.without` over the heap; `fuel` feeds `pullUp`. -/
def withoutA (keyf : α → κ) (gen : Nat) (k : κ) (hash fuel : Nat) :
    Nat → Heap α → Nat → (Heap α × Option Nat × Bool)
  | shift, H, a =>
    match hget H a with
    | none => (H, some a, false)
    | some nd0 =>
      let d := dupFor gen H a nd0
      let H1 := d.1
      let a1 := d.2.1
      let nd := d.2.2
      if 32 ≤ shift then
        match nd.vals.findIdx? (fun v => decide (keyf v = k)) with
        | none => (H1, some a1, false)
        | some i =>
          match nd.vals.getLast? with
          | none => (H1, some a1, false)
          | some lastv =>
            let vs2 := (nd.vals.set i lastv).dropLast
            if vs2.length = 0 then (H1, none, true)
            else (H1.set a1 { nd with vals := vs2 }, some a1, true)
      else
        let bit := hamtBit hash shift
        let iv := onesCount32 (nd.bmVal &&& (bit - 1))
        if nd.bmVal &&& bit ≠ 0 ∧
            (nd.vals[iv]?.any fun v => decide (keyf v = k)) = true then
          if nd.bmPtr &&& bit = 0 then
            let bv2 := Nat.ldiff nd.bmVal bit
            let vs2 := nd.vals.eraseIdx iv
            if bv2 = 0 ∧ nd.bmPtr = 0 then (H1, none, true)
            else (H1.set a1 { nd with bmVal := bv2
                                      vals := vs2 }, some a1, true)
          else
            let ip := onesCount32 (nd.bmPtr &&& (bit - 1))
            match nd.ptrs[ip]? with
            | none => (H1, some a1, true)
            | some ca =>
              let r := pullUpA gen fuel H1 ca
              match r.2.2 with
              | none => (r.1, some a1, true)
              | some item =>
                let vs2 := nd.vals.set iv item
                match r.2.1 with
                | some child =>
                  (r.1.set a1 { nd with vals := vs2
                                        ptrs := nd.ptrs.set ip child },
                    some a1, true)
                | none =>
                  (r.1.set a1 { nd with bmPtr := Nat.ldiff nd.bmPtr bit
                                        vals := vs2
                                        ptrs := nd.ptrs.eraseIdx ip },
                    some a1, true)
        else
          if nd.bmPtr &&& bit = 0 then (H1, some a1, false)
          else
            let ip := onesCount32 (nd.bmPtr &&& (bit - 1))
            match nd.ptrs[ip]? with
            | none => (H1, some a1, false)
            | some ca =>
              let r := withoutA keyf gen k hash fuel (shift + 5) H1 ca
              match r.2.1 with
              | some child =>
                (r.1.set a1 { nd with ptrs := nd.ptrs.set ip child },
                  some a1, r.2.2)
              | none =>
                (r.1.set a1 { nd with bmPtr := Nat.ldiff nd.bmPtr bit
                                      ptrs := nd.ptrs.eraseIdx ip },
                  some a1, r.2.2)
  termination_by shift _ _ => 32 - shift
  decreasing_by omega

/-- One mutable-operation heap transition: the heap only grows, nodes of
other generations are untouched, and every changed or new node carries the
current generation. -/
def HeapStep (gen : Nat) (H H2 : Heap α) : Prop :=
  H.length ≤ H2.length ∧
  (∀ a nd, hget H a = some nd → nd.generation ≠ gen → hget H2 a = some nd) ∧
  (∀ a nd2, hget H2 a = some nd2 → hget H a = some nd2 ∨ nd2.generation = gen)

/-- All nodes reachable from `a` resolve and belong to a generation other
than `gen` (the snapshot predicate). -/
def goodT (gen : Nat) (H : Heap α) : Nat → Nat → Bool
  | shift, a =>
    match hget H a with
    | none => false
    | some nd =>
      decide (nd.generation ≠ gen) &&
        (if 32 ≤ shift then true
         else nd.ptrs.all fun ca => goodT gen H (shift + 5) ca)
  termination_by shift _ => 32 - shift
  decreasing_by omega

/-- All nodes reachable from `a` resolve, checked to the given depth. -/
def reachOK (H : Heap α) : Nat → Nat → Nat → Bool
  | 0, _, _ => false
  | fuel + 1, shift, a =>
    match hget H a with
    | none => false
    | some nd =>
      if 32 ≤ shift then true
      else nd.ptrs.all fun ca => reachOK H fuel (shift + 5) ca

/-- Every node of the heap carries a generation at most `g`. -/
def heapLe (H : Heap α) (g : Nat) : Bool := H.all fun nd => nd.generation ≤ g

/-- The mutable handle: root address and working generation. -/
structure AHamt where
  root : Nat
  generation : Nat
  deriving DecidableEq, Repr

/-- Translation of `ItemHamt.Mutable` over the heap: bump the generation and
shallow-copy the root (a nil root becomes a fresh empty node). -/
def MutableA (H : Heap α) (g : Nat) (aS : Nat) : Heap α × AHamt :=
  match hget H aS with
  | none => (H ++ [⟨g + 1, 0, 0, [], []⟩], ⟨H.length, g + 1⟩)
  | some nd0 => (H ++ [{ nd0 with generation := g + 1 }], ⟨H.length, g + 1⟩)

/-- Go `Put` on the mutable handle: `with` from the handle's root. -/
def PutA (keyf : α → κ) (hashf : κ → Nat) (H : Heap α) (m : AHamt)
    (item : α) : Heap α :=
  (withA keyf m.generation item (keyf item) (hashf (keyf item)) 0 H m.root).1

/-- Go `Delete` on the mutable handle: `without` from the handle's root. -/
def DeleteA (keyf : α → κ) (hashf : κ → Nat) (H : Heap α) (m : AHamt)
    (k : κ) : Heap α :=
  (withoutA keyf m.generation k (hashf k) (H.length + 1) 0 H m.root).1

/-- A `Put` or `Delete` on the derived mutable handle. -/
inductive AOp (α κ : Type) where
  | put (item : α)
  | del (k : κ)

/-- Run a sequence of operations on the mutable handle, threading the
heap. -/
def applyOpsA (keyf : α → κ) (hashf : κ → Nat) :
    Heap α → AHamt → List (AOp α κ) → Heap α
  | H, _, [] => H
  | H, m, .put item :: rest => applyOpsA keyf hashf (PutA keyf hashf H m item) m rest
  | H, m, .del k :: rest => applyOpsA keyf hashf (DeleteA keyf hashf H m k) m rest

end Hamt

/-! ## Theorems -/

namespace Checker

/-- The model reproduces every script of `TestCheckerActions`
(`checker_test.go` lines 42–58). -/
theorem checker_model_matches_tests :
    (scriptOk [.w 1 "1" true, .w 2 "2" true, .c 1 true, .c 2 true]
    && scriptOk [.w 1 "4" true, .w 1 "5" true, .w 2 "6" true, .w 2 "7" true,
        .c 1 true, .c 2 true]
    && scriptOk [.w 1 "1" true, .w 2 "2" true, .c 1 true, .a 2 true]
    && scriptOk [.w 1 "1" true, .w 2 "2" true, .a 1 true, .c 2 true]
    && scriptOk [.w 1 "1" true, .w 2 "2" true, .a 1 true, .a 2 true]
    && scriptOk [.w 1 "1" true, .w 1 "2" true, .w 2 "3" true, .w 2 "1" true,
        .a 1 true, .a 2 true]
    && scriptOk [.w 1 "1" true, .w 2 "1" true, .a 1 true, .c 2 true]
    && scriptOk [.w 1 "1" true, .w 2 "1" true, .c 1 true, .c 2 false]
    && scriptOk [.w 1 "1" true, .w 2 "1" true, .c 1 true, .a 2 false]
    && scriptOk [.w 1 "4" true, .w 1 "5" true, .w 2 "3" true, .w 2 "5" true,
        .c 1 true, .a 2 false]
    && scriptOk [.w 1 "1" true, .c 1 true, .w 2 "1" false, .c 2 false]
    && scriptOk [.w 2 "1" true, .c 2 true, .w 1 "1" false, .c 1 false]) = true := by
  decide

end Checker

/-- C1: the claim states that with `t1`, `t2` both live and `t1` having
successfully written key `["", "a"]` of table `"T"`, a subsequent
`write(t2, "T", ["", "a"])` returns `false`.  In fact the write by the second
live transaction succeeds (`checker_test.go` line 52, script `1w1 2w1 1c 2C`,
expects `ok` for the second write), so the claim is false at this input. -/
theorem C1_counterexample :
    (Checker.Write (Checker.Write Checker.start2 1 "T" ["", "a"]).2
        2 "T" ["", "a"]).1 = true := by
  decide

/-- C1 (amended): in the scenario of spec S5 the second live write *succeeds*;
after `t1` commits, `commit(t2)` fails — not because the write marked `t2`
dirty, but because `t1`'s commit removed the conflicting live `t2` (so a
subsequent abort of `t2` fails too, `checker_test.go` lines 52–53). -/
theorem C1_amended_s5 :
    (let s1 := Checker.Write Checker.start2 1 "T" ["", "a"]
     let s2 := Checker.Write s1.2 2 "T" ["", "a"]
     let s3 := Checker.Commit s2.2 1
     s1.1 = true ∧ s2.1 = true ∧ s3.1 = true ∧
       (Checker.Commit s3.2 2).1 = false ∧ (Checker.Abort s3.2 2).1 = false) := by
  decide

/-- C10: for any table and any non-empty key, two live transactions may both
successfully `Write` the same key; when the first commits, the other is
removed, so its subsequent `Commit` returns `false` and its subsequent
`Abort` returns `false` as well. -/
theorem C10_live_write_overlap (tbl k : String) (hk : k ≠ "") :
    (let s1 := Checker.Write Checker.start2 1 tbl ["", k]
     let s2 := Checker.Write s1.2 2 tbl ["", k]
     let s3 := Checker.Commit s2.2 1
     s1.1 = true ∧ s2.1 = true ∧ s3.1 = true ∧
       (Checker.Commit s3.2 2).1 = false ∧ (Checker.Abort s3.2 2).1 = false) := by
  simp [Checker.Write, Checker.Commit, Checker.Abort, Checker.start2,
    Checker.StartTran, Checker.NewCheck, Checker.toWriteKeys,
    Checker.conflictsEnded, List.lookup, List.enum, hk]

/-- Witness for `C10_live_write_overlap` at table `"mytable"`, key `"1"`
(script `1w1 2w1 1c 2A` of the test). -/
theorem C10_live_write_overlap_witness :
    ("1" : String) ≠ "" ∧
    (let s1 := Checker.Write Checker.start2 1 "mytable" ["", "1"]
     let s2 := Checker.Write s1.2 2 "mytable" ["", "1"]
     let s3 := Checker.Commit s2.2 1
     s1.1 = true ∧ s2.1 = true ∧ s3.1 = true ∧
       (Checker.Commit s3.2 2).1 = false ∧ (Checker.Abort s3.2 2).1 = false) :=
  ⟨by decide, C10_live_write_overlap "mytable" "1" (by decide)⟩

namespace Codegen

end Codegen

/-- Helper: the index allocator returns `none` (panics) exactly when the
pool already has more than 255 entries and the element is new. -/
theorem Codegen.name_eq_none_iff {α : Type} [DecidableEq α]
    (names : List α) (s : α) :
    Codegen.name names s = none ↔ 255 < names.length ∧ s ∉ names := by
  unfold Codegen.name
  rcases hf : names.findIdx? (fun s2 => decide (s = s2)) with _ | i
  · rw [List.findIdx?_eq_none_iff] at hf
    simp only [hf]
    constructor
    · intro h
      split at h
      · next hlen => exact ⟨hlen, fun hmem => by simpa using hf s hmem⟩
      · simp at h
    · intro ⟨h1, _⟩
      simp [h1]
  · have hs : s ∈ names := by
      by_contra hns
      rw [List.findIdx?_eq_none_iff.2 (fun x hx => by
        simp only [decide_eq_false_iff_not]
        exact fun he => hns (he ▸ hx))] at hf
      exact Option.noConfusion hf
    simp [hs]

/-- Helper: same as `Codegen.name_eq_none_iff` for the constant pool. -/
theorem Codegen.value_eq_none_iff {α : Type} [DecidableEq α]
    (vals : List α) (v : α) :
    Codegen.value vals v = none ↔ 255 < vals.length ∧ v ∉ vals := by
  unfold Codegen.value
  rcases hf : vals.findIdx? (fun v2 => decide (v = v2)) with _ | i
  · rw [List.findIdx?_eq_none_iff] at hf
    simp only [hf]
    constructor
    · intro h
      split at h
      · next hlen => exact ⟨hlen, fun hmem => by simpa using hf v hmem⟩
      · simp at h
    · intro ⟨h1, _⟩
      simp [h1]
  · have hs : v ∈ vals := by
      by_contra hns
      rw [List.findIdx?_eq_none_iff.2 (fun x hx => by
        simp only [decide_eq_false_iff_not]
        exact fun he => hns (he ▸ hx))] at hf
      exact Option.noConfusion hf
    simp [hs]

/-- Helper: on a fresh name the allocator either panics (pool already past
255 entries) or appends the name at index `names.length`. -/
theorem Codegen.name_fresh {α : Type} [DecidableEq α] {names : List α}
    {s : α} (hs : s ∉ names) :
    Codegen.name names s =
      if names.length > 255 then none
      else some (names.length, names ++ [s]) := by
  unfold Codegen.name
  have hfi : names.findIdx? (fun s2 => decide (s = s2)) = none := by
    rw [List.findIdx?_eq_none_iff]
    intro x hx
    simp only [decide_eq_false_iff_not]
    intro he
    exact hs (he ▸ hx)
  rw [hfi]

/-- Helper: the constant-pool analogue of `Codegen.name_fresh`. -/
theorem Codegen.value_fresh {α : Type} [DecidableEq α] {vals : List α}
    {v : α} (hv : v ∉ vals) :
    Codegen.value vals v =
      if vals.length > 255 then none
      else some (vals.length, vals ++ [v]) := by
  unfold Codegen.value
  have hfi : vals.findIdx? (fun v2 => decide (v = v2)) = none := by
    rw [List.findIdx?_eq_none_iff]
    intro x hx
    simp only [decide_eq_false_iff_not]
    intro he
    exact hv (he ▸ hx)
  rw [hfi]

/-- Helper: a successful `emitUint8` appends exactly the checked pair, and
the assertion guarantees the operand fits in a byte. -/
theorem Codegen.emitUint8_some {code c2 : List (Nat × Nat)} {o i : Nat}
    (h : Codegen.emitUint8 code o i = some c2) :
    c2 = code ++ [(o, i)] ∧ i < 255 := by
  unfold Codegen.emitUint8 at h
  by_cases hc : 0 ≤ i ∧ i < 255
  · rw [if_pos hc] at h
    exact ⟨(Option.some.inj h).symm, hc.2⟩
  · rw [if_neg hc] at h
    exact absurd h (by simp)

/-- Helper: a successful `identifier` appends one `LOAD` with an operand
below 255 and leaves the rest of the state as updated by `name`. -/
theorem Codegen.identifier_code {α β : Type} [DecidableEq α]
    {cg cg2 : Codegen.Cgen α β} {s : α}
    (h : Codegen.identifier cg s = some cg2) :
    ∃ i, i < 255 ∧ cg2.code = cg.code ++ [(Codegen.opLOAD, i)] := by
  unfold Codegen.identifier at h
  cases hn : Codegen.name cg.names s with
  | none =>
    rw [hn] at h
    exact absurd h (by simp)
  | some p =>
    obtain ⟨i, ns⟩ := p
    rw [hn] at h
    dsimp only at h
    cases he : Codegen.emitUint8 cg.code Codegen.opLOAD i with
    | none =>
      rw [he] at h
      exact absurd h (by simp)
    | some c2 =>
      rw [he] at h
      dsimp only at h
      obtain ⟨hc2, hi⟩ := Codegen.emitUint8_some he
      have hcg2 := Option.some.inj h
      refine ⟨i, hi, ?_⟩
      rw [← hcg2]
      exact hc2

/-- Helper: a successful `emitValue` appends one `VALUE` with an operand
below 255. -/
theorem Codegen.emitValue_code {α β : Type} [DecidableEq β]
    {cg cg2 : Codegen.Cgen α β} {v : β}
    (h : Codegen.emitValue cg v = some cg2) :
    ∃ i, i < 255 ∧ cg2.code = cg.code ++ [(Codegen.opVALUE, i)] := by
  unfold Codegen.emitValue at h
  cases hn : Codegen.value cg.values v with
  | none =>
    rw [hn] at h
    exact absurd h (by simp)
  | some p =>
    obtain ⟨i, vs⟩ := p
    rw [hn] at h
    dsimp only at h
    cases he : Codegen.emitUint8 cg.code Codegen.opVALUE i with
    | none =>
      rw [he] at h
      exact absurd h (by simp)
    | some c2 =>
      rw [he] at h
      dsimp only at h
      obtain ⟨hc2, hi⟩ := Codegen.emitUint8_some he
      have hcg2 := Option.some.inj h
      refine ⟨i, hi, ?_⟩
      rw [← hcg2]
      exact hc2

/-- Helper: `identifier` on a fresh name succeeds exactly below the 255
boundary, appending the name and one `LOAD` of the new index. -/
theorem Codegen.identifier_fresh {α β : Type} [DecidableEq α]
    (cg : Codegen.Cgen α β) {s : α} (hs : s ∉ cg.names) :
    Codegen.identifier cg s =
      if cg.names.length < 255
      then some { cg with
                  names := cg.names ++ [s]
                  code := cg.code ++ [(Codegen.opLOAD, cg.names.length)] }
      else none := by
  unfold Codegen.identifier
  rw [Codegen.name_fresh hs]
  by_cases hlt : cg.names.length < 255
  · rw [if_pos hlt, if_neg (show ¬cg.names.length > 255 by omega)]
    dsimp only
    unfold Codegen.emitUint8
    rw [if_pos ⟨Nat.zero_le _, hlt⟩]
  · rw [if_neg hlt]
    by_cases hgt : cg.names.length > 255
    · rw [if_pos hgt]
    · rw [if_neg hgt]
      dsimp only
      unfold Codegen.emitUint8
      rw [if_neg (show ¬(0 ≤ cg.names.length ∧ cg.names.length < 255) by
        omega)]

/-- Helper: `emitValue` on a fresh constant succeeds exactly below the 255
boundary. -/
theorem Codegen.emitValue_fresh {α β : Type} [DecidableEq β]
    (cg : Codegen.Cgen α β) {v : β} (hv : v ∉ cg.values) :
    Codegen.emitValue cg v =
      if cg.values.length < 255
      then some { cg with
                  values := cg.values ++ [v]
                  code := cg.code ++ [(Codegen.opVALUE, cg.values.length)] }
      else none := by
  unfold Codegen.emitValue
  rw [Codegen.value_fresh hv]
  by_cases hlt : cg.values.length < 255
  · rw [if_pos hlt, if_neg (show ¬cg.values.length > 255 by omega)]
    dsimp only
    unfold Codegen.emitUint8
    rw [if_pos ⟨Nat.zero_le _, hlt⟩]
  · rw [if_neg hlt]
    by_cases hgt : cg.values.length > 255
    · rw [if_pos hgt]
    · rw [if_neg hgt]
      dsimp only
      unfold Codegen.emitUint8
      rw [if_neg (show ¬(0 ≤ cg.values.length ∧ cg.values.length < 255) by
        omega)]

/-- Helper: compiling distinct fresh locals succeeds exactly when the pool
stays within 255 entries, and panics as soon as it would pass 255. -/
theorem Codegen.emitIdents_fresh {α β : Type} [DecidableEq α] :
    ∀ (locals : List α) (cg : Codegen.Cgen α β), locals.Nodup →
    (∀ s ∈ locals, s ∉ cg.names) →
    (cg.names.length + locals.length ≤ 255 →
      ∃ cg2, Codegen.emitIdents cg locals = some cg2 ∧
        cg2.names = cg.names ++ locals) ∧
    (locals ≠ [] → 255 < cg.names.length + locals.length →
      Codegen.emitIdents cg locals = none) := by
  intro locals
  induction locals with
  | nil =>
    intro cg hnd hfresh
    constructor
    · intro hle
      exact ⟨cg, rfl, by simp⟩
    · intro hne
      exact absurd rfl hne
  | cons s rest ih =>
    intro cg hnd hfresh
    have hs : s ∉ cg.names := hfresh s (List.mem_cons_self s rest)
    obtain ⟨hnd1, hnd2⟩ := List.nodup_cons.1 hnd
    have hidf := Codegen.identifier_fresh cg hs
    by_cases hlt : cg.names.length < 255
    · have hid : Codegen.identifier cg s =
          some ⟨cg.names ++ [s], cg.values,
            cg.code ++ [(Codegen.opLOAD, cg.names.length)]⟩ := by
        rw [hidf, if_pos hlt]
      have hfresh2 : ∀ x ∈ rest,
          x ∉ (⟨cg.names ++ [s], cg.values,
            cg.code ++ [(Codegen.opLOAD, cg.names.length)]⟩ :
              Codegen.Cgen α β).names := by
        intro x hx
        rw [List.mem_append]
        rintro (hx1 | hx2)
        · exact hfresh x (List.mem_cons_of_mem s hx) hx1
        · simp only [List.mem_singleton] at hx2
          exact hnd1 (hx2 ▸ hx)
      have hih := ih ⟨cg.names ++ [s], cg.values,
        cg.code ++ [(Codegen.opLOAD, cg.names.length)]⟩ hnd2 hfresh2
      constructor
      · intro hle
        simp only [List.length_cons] at hle
        obtain ⟨cg2, hcg2, hnames⟩ := hih.1 (by
          simp only [List.length_append, List.length_singleton]
          omega)
        refine ⟨cg2, ?_, ?_⟩
        · show Codegen.emitIdents cg (s :: rest) = some cg2
          unfold Codegen.emitIdents
          rw [hid]
          exact hcg2
        · rw [hnames]
          simp only [List.append_assoc, List.singleton_append]
      · intro _ hgt
        simp only [List.length_cons] at hgt
        have hrestne : rest ≠ [] := by
          intro hr
          subst hr
          simp only [List.length_nil] at hgt
          omega
        show Codegen.emitIdents cg (s :: rest) = none
        unfold Codegen.emitIdents
        rw [hid]
        dsimp only
        refine hih.2 hrestne ?_
        simp only [List.length_append, List.length_singleton]
        omega
    · have hid : Codegen.identifier cg s = none := by
        rw [hidf, if_neg hlt]
      constructor
      · intro hle
        exfalso
        simp only [List.length_cons] at hle
        omega
      · intro _ _
        show Codegen.emitIdents cg (s :: rest) = none
        unfold Codegen.emitIdents
        rw [hid]

/-- Helper: the constant-pool analogue of `Codegen.emitIdents_fresh`. -/
theorem Codegen.emitValues_fresh {α β : Type} [DecidableEq β] :
    ∀ (consts : List β) (cg : Codegen.Cgen α β), consts.Nodup →
    (∀ v ∈ consts, v ∉ cg.values) →
    (cg.values.length + consts.length ≤ 255 →
      ∃ cg2, Codegen.emitValues cg consts = some cg2 ∧
        cg2.values = cg.values ++ consts) ∧
    (consts ≠ [] → 255 < cg.values.length + consts.length →
      Codegen.emitValues cg consts = none) := by
  intro consts
  induction consts with
  | nil =>
    intro cg hnd hfresh
    constructor
    · intro hle
      exact ⟨cg, rfl, by simp⟩
    · intro hne
      exact absurd rfl hne
  | cons v rest ih =>
    intro cg hnd hfresh
    have hv : v ∉ cg.values := hfresh v (List.mem_cons_self v rest)
    obtain ⟨hnd1, hnd2⟩ := List.nodup_cons.1 hnd
    have hidf := Codegen.emitValue_fresh cg hv
    by_cases hlt : cg.values.length < 255
    · have hid : Codegen.emitValue cg v =
          some ⟨cg.names, cg.values ++ [v],
            cg.code ++ [(Codegen.opVALUE, cg.values.length)]⟩ := by
        rw [hidf, if_pos hlt]
      have hfresh2 : ∀ x ∈ rest,
          x ∉ (⟨cg.names, cg.values ++ [v],
            cg.code ++ [(Codegen.opVALUE, cg.values.length)]⟩ :
              Codegen.Cgen α β).values := by
        intro x hx
        rw [List.mem_append]
        rintro (hx1 | hx2)
        · exact hfresh x (List.mem_cons_of_mem v hx) hx1
        · simp only [List.mem_singleton] at hx2
          exact hnd1 (hx2 ▸ hx)
      have hih := ih ⟨cg.names, cg.values ++ [v],
        cg.code ++ [(Codegen.opVALUE, cg.values.length)]⟩ hnd2 hfresh2
      constructor
      · intro hle
        simp only [List.length_cons] at hle
        obtain ⟨cg2, hcg2, hvals⟩ := hih.1 (by
          simp only [List.length_append, List.length_singleton]
          omega)
        refine ⟨cg2, ?_, ?_⟩
        · show Codegen.emitValues cg (v :: rest) = some cg2
          unfold Codegen.emitValues
          rw [hid]
          exact hcg2
        · rw [hvals]
          simp only [List.append_assoc, List.singleton_append]
      · intro _ hgt
        simp only [List.length_cons] at hgt
        have hrestne : rest ≠ [] := by
          intro hr
          subst hr
          simp only [List.length_nil] at hgt
          omega
        show Codegen.emitValues cg (v :: rest) = none
        unfold Codegen.emitValues
        rw [hid]
        dsimp only
        refine hih.2 hrestne ?_
        simp only [List.length_append, List.length_singleton]
        omega
    · have hid : Codegen.emitValue cg v = none := by
        rw [hidf, if_neg hlt]
      constructor
      · intro hle
        exfalso
        simp only [List.length_cons] at hle
        omega
      · intro _ _
        show Codegen.emitValues cg (v :: rest) = none
        unfold Codegen.emitValues
        rw [hid]

/-- Helper: whatever body is compiled, every operand byte that reaches the
code went through `emitUint8` and is therefore below 255. -/
theorem Codegen.emitIdents_bytes {α β : Type} [DecidableEq α] :
    ∀ (locals : List α) (cg cg2 : Codegen.Cgen α β),
    Codegen.emitIdents cg locals = some cg2 →
    (∀ p ∈ cg.code, p.2 < 255) → ∀ p ∈ cg2.code, p.2 < 255 := by
  intro locals
  induction locals with
  | nil =>
    intro cg cg2 h hin
    exact (Option.some.inj h) ▸ hin
  | cons s rest ih =>
    intro cg cg2 h hin
    unfold Codegen.emitIdents at h
    cases hid : Codegen.identifier cg s with
    | none =>
      rw [hid] at h
      exact absurd h (by simp)
    | some cgm =>
      rw [hid] at h
      dsimp only at h
      obtain ⟨i, hi, hcode⟩ := Codegen.identifier_code hid
      refine ih cgm cg2 h ?_
      intro p hp
      rw [hcode] at hp
      rcases List.mem_append.1 hp with hp1 | hp2
      · exact hin p hp1
      · simp only [List.mem_singleton] at hp2
        rw [hp2]
        exact hi

/-- Helper: the constant-pool analogue of `Codegen.emitIdents_bytes`. -/
theorem Codegen.emitValues_bytes {α β : Type} [DecidableEq β] :
    ∀ (consts : List β) (cg cg2 : Codegen.Cgen α β),
    Codegen.emitValues cg consts = some cg2 →
    (∀ p ∈ cg.code, p.2 < 255) → ∀ p ∈ cg2.code, p.2 < 255 := by
  intro consts
  induction consts with
  | nil =>
    intro cg cg2 h hin
    exact (Option.some.inj h) ▸ hin
  | cons v rest ih =>
    intro cg cg2 h hin
    unfold Codegen.emitValues at h
    cases hid : Codegen.emitValue cg v with
    | none =>
      rw [hid] at h
      exact absurd h (by simp)
    | some cgm =>
      rw [hid] at h
      dsimp only at h
      obtain ⟨i, hi, hcode⟩ := Codegen.emitValue_code hid
      refine ih cgm cg2 h ?_
      intro p hp
      rw [hcode] at hp
      rcases List.mem_append.1 hp with hp1 | hp2
      · exact hin p hp1
      · simp only [List.mem_singleton] at hp2
        rw [hp2]
        exact hi

/-- C8: compiling a function that references more than 255 distinct local
variables, or emits more than 255 distinct constants, panics at compile
time — the 256th local or constant gets index 255 from the allocator and
`emitUint8`'s assertion `i < math.MaxUint8` rejects it; conversely up to
255 locals or constants compile, and in every successful compilation every
emitted operand is below 255, so the 8-bit operand byte is never a
truncation. -/
theorem C8_capacity_panic {α β : Type} [DecidableEq α] [DecidableEq β] :
    (∀ locals : List α, locals.Nodup → 255 < locals.length →
      Codegen.emitIdents (Codegen.Cgen.empty : Codegen.Cgen α β) locals =
        none) ∧
    (∀ consts : List β, consts.Nodup → 255 < consts.length →
      Codegen.emitValues (Codegen.Cgen.empty : Codegen.Cgen α β) consts =
        none) ∧
    (∀ locals : List α, locals.Nodup → locals.length ≤ 255 →
      ∃ cg2, Codegen.emitIdents
          (Codegen.Cgen.empty : Codegen.Cgen α β) locals = some cg2 ∧
        cg2.names = locals) ∧
    (∀ (locals : List α) (cg2 : Codegen.Cgen α β),
      Codegen.emitIdents Codegen.Cgen.empty locals = some cg2 →
      ∀ p ∈ cg2.code, p.2 < 255) ∧
    (∀ (consts : List β) (cg2 : Codegen.Cgen α β),
      Codegen.emitValues Codegen.Cgen.empty consts = some cg2 →
      ∀ p ∈ cg2.code, p.2 < 255) := by
  refine ⟨?_, ?_, ?_, ?_, ?_⟩
  · intro locals hnd hgt
    refine (Codegen.emitIdents_fresh locals Codegen.Cgen.empty hnd
      (by intro s _; exact List.not_mem_nil s)).2 ?_ ?_
    · intro hl
      rw [hl] at hgt
      simp at hgt
    · simpa [Codegen.Cgen.empty] using hgt
  · intro consts hnd hgt
    refine (Codegen.emitValues_fresh consts Codegen.Cgen.empty hnd
      (by intro v _; exact List.not_mem_nil v)).2 ?_ ?_
    · intro hl
      rw [hl] at hgt
      simp at hgt
    · simpa [Codegen.Cgen.empty] using hgt
  · intro locals hnd hle
    obtain ⟨cg2, hcg2, hnames⟩ := (Codegen.emitIdents_fresh locals
      Codegen.Cgen.empty hnd (by intro s _; exact List.not_mem_nil s)).1
      (by simpa [Codegen.Cgen.empty] using hle)
    exact ⟨cg2, hcg2, by simpa [Codegen.Cgen.empty] using hnames⟩
  · intro locals cg2 h
    exact Codegen.emitIdents_bytes locals Codegen.Cgen.empty cg2 h
      (by intro p hp; exact absurd hp (List.not_mem_nil p))
  · intro consts cg2 h
    exact Codegen.emitValues_bytes consts Codegen.Cgen.empty cg2 h
      (by intro p hp; exact absurd hp (List.not_mem_nil p))

/-- Witness for C8: 256 distinct locals (or constants) panic, 255 compile. -/
theorem C8_capacity_panic_witness :
    Codegen.emitIdents (Codegen.Cgen.empty : Codegen.Cgen Nat Nat)
        (List.range 256) = none ∧
    Codegen.emitValues (Codegen.Cgen.empty : Codegen.Cgen Nat Nat)
        (List.range 256) = none ∧
    ∃ cg2, Codegen.emitIdents (Codegen.Cgen.empty : Codegen.Cgen Nat Nat)
        (List.range 255) = some cg2 ∧ cg2.names = List.range 255 :=
  ⟨(@C8_capacity_panic Nat Nat _ _).1 (List.range 256) (List.nodup_range 256)
      (by simp),
    (@C8_capacity_panic Nat Nat _ _).2.1 (List.range 256)
      (List.nodup_range 256) (by simp),
    (@C8_capacity_panic Nat Nat _ _).2.2.1 (List.range 255)
      (List.nodup_range 255) (by simp)⟩

namespace Ixkey

/-- The model reproduces every assertion of `TestKey` and `TestKeyBug`
(`ixkey` test file).  Byte values: `a=97 b=98 c=99 x=120 f=102 o=111`. -/
theorem ixkey_model_matches_tests :
    -- no escape for single field
    key ⟨[0], []⟩ [[97, 0, 98]] = [97, 0, 98] ∧
    -- with flds2 = [] and flds2 = [1,2]
    (∀ f2 ∈ [([] : List Nat), [1, 2]],
      key ⟨[], f2⟩ [[97], [98]] = [] ∧
      key ⟨[0], f2⟩ [[97], [98]] = [97] ∧
      key ⟨[1], f2⟩ [[97], [98]] = [98] ∧
      key ⟨[0, 1], f2⟩ [[97], [98]] = [97, 0, 0, 98] ∧
      key ⟨[1, 0], f2⟩ [[97], [98]] = [98, 0, 0, 97] ∧
      -- omit trailing empty fields
      key ⟨[0, 1, 2], f2⟩ [[97], [98], [99]] = [97, 0, 0, 98, 0, 0, 99] ∧
      key ⟨[0, 1, 2], f2⟩ [[97], [], [99]] = [97, 0, 0, 0, 0, 99] ∧
      key ⟨[0, 1, 2], f2⟩ [[], [], [99]] = [0, 0, 0, 0, 99] ∧
      key ⟨[0, 1, 2], f2⟩ [[97], [98], []] = [97, 0, 0, 98] ∧
      key ⟨[0, 1, 2], f2⟩ [[97], [], []] = [97] ∧
      -- escaping
      key ⟨[0, 1], f2⟩ [[97, 98]] = [97, 98] ∧
      key ⟨[0, 1], f2⟩ [[97, 0, 98]] = [97, 0, 1, 98] ∧
      key ⟨[0, 1], f2⟩ [[0, 97, 98]] = [0, 1, 97, 98] ∧
      key ⟨[0, 1], f2⟩ [[97, 0, 0, 98]] = [97, 0, 1, 0, 1, 98] ∧
      key ⟨[0, 1], f2⟩ [[97, 0, 1, 98]] = [97, 0, 1, 1, 98] ∧
      key ⟨[0, 1], f2⟩ [[97, 98, 0]] = [97, 98, 0, 1] ∧
      key ⟨[0, 1], f2⟩ [[97, 98, 0, 0]] = [97, 98, 0, 1, 0, 1]) ∧
    -- fields2
    key ⟨[0, 1, 2], []⟩ [[], [], []] = [] ∧
    key ⟨[0, 1, 2], [3, 4]⟩ [[], [], [], [97], [98]] =
      [0, 0, 0, 0, 0, 0, 97, 0, 0, 98] ∧
    key ⟨[0, 1, 2], [3, 4]⟩ [[120], [], [], [97], [98]] = [120] ∧
    -- TestKeyBug
    key ⟨[0], [1]⟩ [[], [102, 111, 111]] ≠ key ⟨[0], [1]⟩ [[0, 0, 102, 111, 111]] := by
  decide

@[simp] theorem lexLt_nil_nil : lexLt [] [] = false := rfl

@[simp] theorem lexLt_nil_cons (b : Nat) (bs : Bytes) : lexLt [] (b :: bs) = true := rfl

@[simp] theorem lexLt_cons_nil (a : Nat) (as : Bytes) : lexLt (a :: as) [] = false := rfl

theorem lexLt_cons_cons (a b : Nat) (as bs : Bytes) :
    lexLt (a :: as) (b :: bs) = (decide (a < b) || (decide (a = b) && lexLt as bs)) := rfl

theorem lexLt_irrefl (x : Bytes) : lexLt x x = false := by
  induction x with
  | nil => rfl
  | cons a as ih => simp [lexLt_cons_cons, ih]

theorem lexLt_eq_of_not_lt {x y : Bytes} (hxy : lexLt x y = false)
    (hyx : lexLt y x = false) : x = y := by
  induction x generalizing y with
  | nil => cases y with
    | nil => rfl
    | cons b bs => simp at hxy
  | cons a as ih =>
    cases y with
    | nil => simp at hyx
    | cons b bs =>
      rw [lexLt_cons_cons, Bool.or_eq_false_iff, Bool.and_eq_false_iff] at hxy hyx
      simp only [decide_eq_false_iff_not] at hxy hyx
      have hab : a = b := by omega
      subst hab
      rcases hxy.2 with h | h
      · omega
      · rcases hyx.2 with h' | h'
        · omega
        · exact congrArg (a :: ·) (ih h h')

theorem escape_cons_zero (bs : Bytes) : escape (0 :: bs) = 0 :: 1 :: escape bs := by
  simp [escape]

theorem escape_cons_ne {b : Nat} (hb : b ≠ 0) (bs : Bytes) :
    escape (b :: bs) = b :: escape bs := by
  simp [escape, hb]

theorem escape_append_lexLt (x : Bytes) : ∀ (y : Bytes) (r1 r2 : Bytes),
    GoodRest r1 → GoodRest r2 →
    lexLt (escape x ++ r1) (escape y ++ r2) =
      if x = y then lexLt r1 r2 else lexLt x y := by
  induction x with
  | nil =>
    intro y r1 r2 h1 h2
    cases y with
    | nil => simp [escape]
    | cons b ys =>
      rw [if_neg (by simp)]
      rw [show escape ([] : Bytes) = [] from rfl, List.nil_append, lexLt_nil_cons]
      rcases h1 with rfl | ⟨s, rfl⟩
      · by_cases hb : b = 0
        · subst hb
          rw [escape_cons_zero, List.cons_append, lexLt_nil_cons]
        · rw [escape_cons_ne hb, List.cons_append, lexLt_nil_cons]
      · by_cases hb : b = 0
        · subst hb
          rw [escape_cons_zero]
          simp [lexLt_cons_cons]
        · rw [escape_cons_ne hb]
          simp [lexLt_cons_cons, Nat.pos_of_ne_zero hb]
  | cons a as ih =>
    intro y r1 r2 h1 h2
    cases y with
    | nil =>
      rw [if_neg (by simp)]
      rw [show escape ([] : Bytes) = [] from rfl, List.nil_append, lexLt_cons_nil]
      rcases h2 with rfl | ⟨s, rfl⟩
      · by_cases ha : a = 0
        · subst ha
          rw [escape_cons_zero, List.cons_append, lexLt_cons_nil]
        · rw [escape_cons_ne ha, List.cons_append, lexLt_cons_nil]
      · by_cases ha : a = 0
        · subst ha
          rw [escape_cons_zero]
          simp [lexLt_cons_cons]
        · rw [escape_cons_ne ha]
          simp [lexLt_cons_cons, Nat.le_zero, ha]
    | cons b ys =>
      by_cases hab : a = b
      · subst hab
        by_cases ha : a = 0
        · subst ha
          rw [escape_cons_zero, escape_cons_zero]
          simp only [List.cons_append]
          rw [lexLt_cons_cons, lexLt_cons_cons, ih ys r1 r2 h1 h2]
          by_cases h : as = ys <;> simp [h, lexLt_cons_cons]
        · rw [escape_cons_ne ha, escape_cons_ne ha]
          simp only [List.cons_append]
          rw [lexLt_cons_cons, ih ys r1 r2 h1 h2]
          by_cases h : as = ys <;> simp [h, lexLt_cons_cons]
      · rw [if_neg (by simp [hab])]
        rw [show lexLt (a :: as) (b :: ys) = decide (a < b) by
          simp [lexLt_cons_cons, hab]]
        by_cases ha : a = 0
        · subst ha
          have hb : b ≠ 0 := fun h => hab h.symm
          rw [escape_cons_zero, escape_cons_ne hb]
          simp only [List.cons_append]
          simp [lexLt_cons_cons, Nat.pos_of_ne_zero hb]
        · by_cases hb : b = 0
          · subst hb
            rw [escape_cons_ne ha, escape_cons_zero]
            simp only [List.cons_append]
            simp [lexLt_cons_cons, Nat.le_zero, ha]
          · rw [escape_cons_ne ha, escape_cons_ne hb]
            simp only [List.cons_append]
            simp [lexLt_cons_cons, hab]

theorem lexLt_nil_right (x : Bytes) : lexLt x [] = false := by
  cases x <;> rfl

theorem allEmpty_cons (f : Bytes) (t : List Bytes) :
    allEmpty (f :: t) = (decide (f = []) && allEmpty t) := by
  simp [allEmpty]

theorem fieldsLt_of_allEmpty : ∀ {l1 l2 : List Bytes}, l1.length = l2.length →
    allEmpty l1 = true → allEmpty l2 = true → fieldsLt l1 l2 = false := by
  intro l1
  induction l1 with
  | nil => intro l2 hl _ _; cases l2 with
    | nil => rfl
    | cons g gs => simp at hl
  | cons f fs ih =>
    intro l2 hl h1 h2
    cases l2 with
    | nil => simp at hl
    | cons g gs =>
      rw [allEmpty_cons, Bool.and_eq_true] at h1 h2
      have hf : f = [] := by simpa using h1.1
      have hg : g = [] := by simpa using h2.1
      subst hf; subst hg
      show fieldsLt ([] :: fs) ([] :: gs) = false
      rw [show fieldsLt ([] :: fs) ([] :: gs) = fieldsLt fs gs from by
        simp [fieldsLt]]
      exact ih (by simpa using hl) h1.2 h2.2

theorem fieldsLt_allEmpty_left : ∀ {l1 l2 : List Bytes}, l1.length = l2.length →
    allEmpty l1 = true → allEmpty l2 = false → fieldsLt l1 l2 = true := by
  intro l1
  induction l1 with
  | nil => intro l2 hl _ h2; cases l2 with
    | nil => simp [allEmpty] at h2
    | cons g gs => simp at hl
  | cons f fs ih =>
    intro l2 hl h1 h2
    cases l2 with
    | nil => simp at hl
    | cons g gs =>
      rw [allEmpty_cons, Bool.and_eq_true] at h1
      have hf : f = [] := by simpa using h1.1
      subst hf
      rw [allEmpty_cons] at h2
      by_cases hg : g = []
      · subst hg
        rw [show fieldsLt ([] :: fs) ([] :: gs) = fieldsLt fs gs from by
          simp [fieldsLt]]
        exact ih (by simpa using hl) h1.2 (by simpa using h2)
      · rw [show fieldsLt ([] :: fs) (g :: gs) = lexLt [] g from by
          simp [fieldsLt, Ne.symm hg]]
        cases g with
        | nil => exact absurd rfl hg
        | cons b bs => exact lexLt_nil_cons b bs

theorem fieldsLt_allEmpty_right : ∀ {l1 l2 : List Bytes}, l1.length = l2.length →
    allEmpty l1 = false → allEmpty l2 = true → fieldsLt l1 l2 = false := by
  intro l1
  induction l1 with
  | nil => intro l2 hl h1 _; simp [allEmpty] at h1
  | cons f fs ih =>
    intro l2 hl h1 h2
    cases l2 with
    | nil => simp at hl
    | cons g gs =>
      rw [allEmpty_cons, Bool.and_eq_true] at h2
      have hg : g = [] := by simpa using h2.1
      subst hg
      rw [allEmpty_cons] at h1
      by_cases hf : f = []
      · subst hf
        rw [show fieldsLt ([] :: fs) ([] :: gs) = fieldsLt fs gs from by
          simp [fieldsLt]]
        exact ih (by simpa using hl) (by simpa using h1) h2.2
      · rw [show fieldsLt (f :: fs) ([] :: gs) = lexLt f [] from by
          simp [fieldsLt, hf]]
        exact lexLt_nil_right f

theorem encodeFields_ne_nil : ∀ {l : List Bytes}, allEmpty l = false →
    encodeFields l ≠ [] := by
  intro l h
  cases l with
  | nil => simp [allEmpty] at h
  | cons f t =>
    rw [show encodeFields (f :: t) =
        (if allEmpty (f :: t) then []
         else escape f ++ (if allEmpty t then [] else 0 :: 0 :: encodeFields t))
      from rfl, if_neg (by simp [h])]
    rw [allEmpty_cons] at h
    by_cases hf : f = []
    · subst hf
      have ht : allEmpty t = false := by simpa using h
      simp [ht, escape]
    · cases f with
      | nil => exact absurd rfl hf
      | cons b bs =>
        by_cases hb : b = 0
        · subst hb; rw [escape_cons_zero]; simp
        · rw [escape_cons_ne hb]; simp

theorem encodeFields_order : ∀ (l1 l2 : List Bytes), l1.length = l2.length →
    lexLt (encodeFields l1) (encodeFields l2) = fieldsLt l1 l2 := by
  intro l1
  induction l1 with
  | nil =>
    intro l2 hl
    cases l2 with
    | nil => rfl
    | cons g gs => simp at hl
  | cons f fs ih =>
    intro l2 hl
    cases l2 with
    | nil => simp at hl
    | cons g gs =>
      have hlen : fs.length = gs.length := by simpa using hl
      rw [show encodeFields (f :: fs) =
          (if allEmpty (f :: fs) then []
           else escape f ++ (if allEmpty fs then [] else 0 :: 0 :: encodeFields fs))
        from rfl]
      rw [show encodeFields (g :: gs) =
          (if allEmpty (g :: gs) then []
           else escape g ++ (if allEmpty gs then [] else 0 :: 0 :: encodeFields gs))
        from rfl]
      by_cases h1 : allEmpty (f :: fs) = true
      · rw [if_pos h1]
        by_cases h2 : allEmpty (g :: gs) = true
        · rw [if_pos h2, lexLt_nil_nil,
            fieldsLt_of_allEmpty (by simpa using hl) h1 h2]
        · rw [if_neg h2]
          have hne := encodeFields_ne_nil (l := g :: gs) (by simpa using h2)
          rw [show encodeFields (g :: gs) =
              (if allEmpty (g :: gs) then []
               else escape g ++ (if allEmpty gs then [] else 0 :: 0 :: encodeFields gs))
            from rfl, if_neg h2] at hne
          rcases he : escape g ++ (if allEmpty gs then [] else 0 :: 0 :: encodeFields gs) with _ | ⟨c, cs⟩
          · exact absurd he hne
          · rw [lexLt_nil_cons,
              fieldsLt_allEmpty_left (by simpa using hl) h1 (by simpa using h2)]
      · rw [if_neg h1]
        by_cases h2 : allEmpty (g :: gs) = true
        · rw [if_pos h2, lexLt_nil_right,
            fieldsLt_allEmpty_right (by simpa using hl) (by simpa using h1) h2]
        · rw [if_neg h2]
          have good1 : GoodRest (if allEmpty fs then [] else 0 :: 0 :: encodeFields fs) := by
            by_cases h : allEmpty fs = true
            · rw [if_pos h]; exact Or.inl rfl
            · rw [if_neg h]; exact Or.inr ⟨_, rfl⟩
          have good2 : GoodRest (if allEmpty gs then [] else 0 :: 0 :: encodeFields gs) := by
            by_cases h : allEmpty gs = true
            · rw [if_pos h]; exact Or.inl rfl
            · rw [if_neg h]; exact Or.inr ⟨_, rfl⟩
          rw [escape_append_lexLt f g _ _ good1 good2]
          rw [show fieldsLt (f :: fs) (g :: gs) =
              (if f = g then fieldsLt fs gs else lexLt f g) from rfl]
          by_cases hfg : f = g
          · rw [if_pos hfg, if_pos hfg]
            by_cases hf : allEmpty fs = true
            · rw [if_pos hf]
              by_cases hg : allEmpty gs = true
              · rw [if_pos hg, lexLt_nil_nil, fieldsLt_of_allEmpty hlen hf hg]
              · rw [if_neg hg, lexLt_nil_cons,
                  fieldsLt_allEmpty_left hlen hf (by simpa using hg)]
            · rw [if_neg hf]
              by_cases hg : allEmpty gs = true
              · rw [if_pos hg, lexLt_nil_right,
                  fieldsLt_allEmpty_right hlen (by simpa using hf) hg]
              · rw [if_neg hg, lexLt_cons_cons, lexLt_cons_cons, ih gs hlen]
                simp
          · rw [if_neg hfg, if_neg hfg]

theorem fieldsLt_eq_of_not_lt : ∀ {l1 l2 : List Bytes}, l1.length = l2.length →
    fieldsLt l1 l2 = false → fieldsLt l2 l1 = false → l1 = l2 := by
  intro l1
  induction l1 with
  | nil => intro l2 hl _ _; cases l2 with
    | nil => rfl
    | cons g gs => simp at hl
  | cons f fs ih =>
    intro l2 hl h12 h21
    cases l2 with
    | nil => simp at hl
    | cons g gs =>
      by_cases hfg : f = g
      · subst hfg
        rw [show fieldsLt (f :: fs) (f :: gs) = fieldsLt fs gs from by
          simp [fieldsLt]] at h12
        rw [show fieldsLt (f :: gs) (f :: fs) = fieldsLt gs fs from by
          simp [fieldsLt]] at h21
        rw [ih (by simpa using hl) h12 h21]
      · rw [show fieldsLt (f :: fs) (g :: gs) = lexLt f g from by
          simp [fieldsLt, hfg]] at h12
        rw [show fieldsLt (g :: gs) (f :: fs) = lexLt g f from by
          simp [fieldsLt, Ne.symm hfg]] at h21
        exact absurd (lexLt_eq_of_not_lt h12 h21) hfg

theorem encodeFields_inj {l1 l2 : List Bytes} (hl : l1.length = l2.length)
    (he : encodeFields l1 = encodeFields l2) : l1 = l2 := by
  by_contra hne
  by_cases h12 : fieldsLt l1 l2 = true
  · rw [← encodeFields_order l1 l2 hl, he, lexLt_irrefl] at h12
    exact Bool.noConfusion h12
  · by_cases h21 : fieldsLt l2 l1 = true
    · rw [← encodeFields_order l2 l1 hl.symm, he, lexLt_irrefl] at h21
      exact Bool.noConfusion h21
    · exact hne (fieldsLt_eq_of_not_lt hl
        (Bool.not_eq_true _ ▸ h12) (Bool.not_eq_true _ ▸ h21))

theorem key_order (fields : List Nat) (r1 r2 : Rec) :
    lexLt (key ⟨fields, []⟩ r1) (key ⟨fields, []⟩ r2) =
      fieldsLt (fields.map (getRaw r1)) (fields.map (getRaw r2)) := by
  match fields with
  | [] => rfl
  | [f] =>
    show lexLt (getRaw r1 f) (getRaw r2 f) =
      fieldsLt [getRaw r1 f] [getRaw r2 f]
    by_cases h : getRaw r1 f = getRaw r2 f
    · rw [h, lexLt_irrefl,
        show fieldsLt [getRaw r2 f] [getRaw r2 f] = false from by simp [fieldsLt]]
    · rw [show fieldsLt [getRaw r1 f] [getRaw r2 f] = lexLt (getRaw r1 f) (getRaw r2 f)
        from by simp [fieldsLt, h]]
  | f1 :: f2 :: fs =>
    show lexLt (encodeFields _) (encodeFields _) = _
    rw [show (decide (([] : List Nat) ≠ []) && allEmpty ((f1 :: f2 :: fs).map (getRaw r1))) = false
      from by simp]
    rw [show (decide (([] : List Nat) ≠ []) && allEmpty ((f1 :: f2 :: fs).map (getRaw r2))) = false
      from by simp]
    exact encodeFields_order _ _ (by simp)

theorem key_cons_cons (f : Nat) (fs : List Nat) (g : Nat) (gs : List Nat) (r : Rec) :
    key ⟨f :: fs, g :: gs⟩ r =
      encodeFields ((if decide ((g :: gs) ≠ []) && allEmpty ((f :: fs).map (getRaw r))
        then (f :: fs) ++ (g :: gs) else (f :: fs)).map (getRaw r)) := by
  cases fs <;> rfl

theorem key_fields2_unique (fields fields2 : List Nat) (r1 r2 : Rec)
    (hf : fields ≠ []) (hf2 : fields2 ≠ [])
    (he1 : allEmpty (fields.map (getRaw r1)) = true)
    (he2 : allEmpty (fields.map (getRaw r2)) = true)
    (hne : fields2.map (getRaw r1) ≠ fields2.map (getRaw r2)) :
    key ⟨fields, fields2⟩ r1 ≠ key ⟨fields, fields2⟩ r2 := by
  cases fields with
  | nil => exact absurd rfl hf
  | cons f fs =>
    cases fields2 with
    | nil => exact absurd rfl hf2
    | cons g gs =>
      rw [key_cons_cons, key_cons_cons,
        if_pos (by simp only [he1, ne_eq, Bool.and_true]; simp),
        if_pos (by simp only [he2, ne_eq, Bool.and_true]; simp)]
      intro heq
      have hinj := encodeFields_inj (by simp) heq
      rw [List.map_append, List.map_append] at hinj
      have := List.append_inj_right hinj (by simp)
      exact hne this

end Ixkey

/-- C2: the claim states that whenever `Fields2` is non-empty the secondary
fields are appended to the encoded key, so rows equal on the primary fields
but different on `Fields2` get different keys.  In fact `Fields2` is used
only when *all* primary fields are empty (`TestKey` lines 67–68: the record
`("x","","","a","b")` with fields `[0,1,2]`, fields2 `[3,4]` encodes to just
`"x"`), so two rows with primary `("x","","")` and different `Fields2`
values share one key. -/
theorem C2_counterexample :
    [0, 1, 2].map (Ixkey.getRaw [[120], [], [], [97], [98]]) =
        [0, 1, 2].map (Ixkey.getRaw [[120], [], [], [99], [100]]) ∧
      [3, 4].map (Ixkey.getRaw [[120], [], [], [97], [98]]) ≠
        [3, 4].map (Ixkey.getRaw [[120], [], [], [99], [100]]) ∧
      Ixkey.key ⟨[0, 1, 2], [3, 4]⟩ [[120], [], [], [97], [98]] =
        Ixkey.key ⟨[0, 1, 2], [3, 4]⟩ [[120], [], [], [99], [100]] := by
  decide

/-- C2 (amended): when every primary field of a record is empty, the
`Fields2` fields are appended to the encoded key after the primary fields,
and two such rows that differ on their `Fields2` values encode to different
keys. -/
theorem C2_amended (fields fields2 : List Nat) (r1 r2 : Ixkey.Rec)
    (hf : fields ≠ []) (hf2 : fields2 ≠ [])
    (he1 : Ixkey.allEmpty (fields.map (Ixkey.getRaw r1)) = true)
    (he2 : Ixkey.allEmpty (fields.map (Ixkey.getRaw r2)) = true)
    (hne : fields2.map (Ixkey.getRaw r1) ≠ fields2.map (Ixkey.getRaw r2)) :
    Ixkey.key ⟨fields, fields2⟩ r1 ≠ Ixkey.key ⟨fields, fields2⟩ r2 :=
  Ixkey.key_fields2_unique fields fields2 r1 r2 hf hf2 he1 he2 hne

/-- Witness for `C2_amended`: the `TestKeyBug` configuration, records
`("", "a")` and `("", "b")` with fields `[0]`, fields2 `[1]`. -/
theorem C2_amended_witness :
    ([0] : List Nat) ≠ [] ∧ ([1] : List Nat) ≠ [] ∧
      Ixkey.allEmpty ([0].map (Ixkey.getRaw [[], [97]])) = true ∧
      Ixkey.allEmpty ([0].map (Ixkey.getRaw [[], [98]])) = true ∧
      [1].map (Ixkey.getRaw [[], [97]]) ≠ [1].map (Ixkey.getRaw [[], [98]]) ∧
      Ixkey.key ⟨[0], [1]⟩ [[], [97]] ≠ Ixkey.key ⟨[0], [1]⟩ [[], [98]] :=
  ⟨by decide, by decide, by decide, by decide, by decide,
    C2_amended [0] [1] [[], [97]] [[], [98]] (by decide) (by decide)
      (by decide) (by decide) (by decide)⟩

/-- C6: the claim compares encoded keys against "field-wise lexicographic
comparison of the records themselves" (the test's `lt`, which orders a
shorter record before a longer one on a tie).  Records `("a")` and
`("a", "")` are strictly ordered as records, yet their encoded keys under
fields `[0,1,2]` are both `"a"`, so sorting the records and sorting the
encoded keys do not produce the same order. -/
theorem C6_counterexample :
    Ixkey.recordLt [[97]] [[97], []] = true ∧
      Ixkey.key ⟨[0, 1, 2], []⟩ [[97]] = Ixkey.key ⟨[0, 1, 2], []⟩ [[97], []] := by
  decide

/-- C6 (amended): for every pair of records and every index spec (with no
`Fields2`), lexicographic byte comparison of the encoded keys coincides with
lexicographic comparison of the tuples of indexed field values; records that
differ only outside the indexed fields may tie. -/
theorem C6_amended (fields : List Nat) (r1 r2 : Ixkey.Rec) :
    Ixkey.lexLt (Ixkey.key ⟨fields, []⟩ r1) (Ixkey.key ⟨fields, []⟩ r2) =
      Ixkey.fieldsLt (fields.map (Ixkey.getRaw r1)) (fields.map (Ixkey.getRaw r2)) :=
  Ixkey.key_order fields r1 r2

namespace Hamt

theorem onesCount32_eq_cnt (bm : Nat) : onesCount32 bm = cnt bm 32 := rfl

theorem cnt_zero (bm : Nat) : cnt bm 0 = 0 := rfl

theorem cnt_succ (bm j : Nat) :
    cnt bm (j + 1) = cnt bm j + (if bm.testBit j then 1 else 0) := by
  unfold cnt
  rw [List.range_succ, List.filter_append]
  cases h : bm.testBit j <;> simp [h]

theorem cnt_mono (bm : Nat) {i j : Nat} (hij : i ≤ j) : cnt bm i ≤ cnt bm j := by
  induction j, hij using Nat.le_induction with
  | base => exact Nat.le_refl _
  | succ j hij ih =>
    rw [cnt_succ]
    split <;> omega

theorem cnt_lt_of_testBit (bm : Nat) {i j : Nat} (hij : i < j)
    (hb : bm.testBit i = true) : cnt bm i < cnt bm j := by
  have h1 : cnt bm (i + 1) = cnt bm i + 1 := by rw [cnt_succ, hb]; simp
  have h2 := cnt_mono bm (j := j) (i := i + 1) (by omega)
  omega

theorem cnt_congr {bm bm' : Nat} (j : Nat)
    (h : ∀ x, x < j → bm.testBit x = bm'.testBit x) : cnt bm j = cnt bm' j := by
  induction j with
  | zero => rfl
  | succ j ih =>
    rw [cnt_succ, cnt_succ, h j (by omega), ih fun x hx => h x (by omega)]

theorem cnt_eq_of_high_false {bm : Nat} {j m : Nat} (hjm : j ≤ m)
    (h : ∀ x, j ≤ x → bm.testBit x = false) : cnt bm m = cnt bm j := by
  induction m with
  | zero =>
    have : j = 0 := by omega
    rw [this]
  | succ m ih =>
    rcases Nat.lt_or_ge j (m + 1) with hc | hc
    · rw [cnt_succ, h m (by omega), ih (by omega)]
      simp
    · have : j = m + 1 := by omega
      rw [this]

/-- The rank expression used in the source, `OnesCount32(bm & (bit-1))`
with `bit = 2^j`, equals the number of set bits below `j`. -/
theorem onesCount32_and_sub_one {bm j : Nat} (hj : j ≤ 32) :
    onesCount32 (bm &&& (2 ^ j - 1)) = cnt bm j := by
  rw [onesCount32_eq_cnt]
  have hhigh : ∀ x, j ≤ x → (bm &&& (2 ^ j - 1)).testBit x = false := by
    intro x hx
    rw [Nat.testBit_and, Nat.testBit_two_pow_sub_one]
    simp [Nat.not_lt.2 hx]
  rw [cnt_eq_of_high_false hj hhigh]
  exact cnt_congr j fun x hx => by
    rw [Nat.testBit_and, Nat.testBit_two_pow_sub_one]
    simp [hx]

theorem cnt_or_two_pow {bm j : Nat} (hb : bm.testBit j = false) (i : Nat) :
    cnt (bm ||| 2 ^ j) i = cnt bm i + (if j < i then 1 else 0) := by
  induction i with
  | zero => simp [cnt_zero]
  | succ i ih =>
    rw [cnt_succ, cnt_succ, ih, Nat.testBit_or, Nat.testBit_two_pow]
    by_cases hij : j = i
    · subst hij
      rw [hb]
      simp [Nat.lt_irrefl]
    · rw [decide_eq_false hij]
      have hor : (bm.testBit i || false) = bm.testBit i := by simp
      rw [hor]
      cases hbi : bm.testBit i <;> simp [hbi] <;> split_ifs <;> omega

theorem cnt_ldiff_two_pow {bm j : Nat} (hb : bm.testBit j = true) (i : Nat) :
    cnt bm i = cnt (Nat.ldiff bm (2 ^ j)) i + (if j < i then 1 else 0) := by
  induction i with
  | zero => simp [cnt_zero]
  | succ i ih =>
    rw [cnt_succ, cnt_succ, ih, Nat.testBit_ldiff, Nat.testBit_two_pow]
    by_cases hij : j = i
    · subst hij
      rw [hb]
      simp [Nat.lt_irrefl]
    · rw [decide_eq_false hij]
      have hand : (bm.testBit i && !false) = bm.testBit i := by simp
      rw [hand]
      cases hbi : bm.testBit i <;> simp [hbi] <;> split_ifs <;> omega

theorem testBit_false_of_ge_32 {bm : Nat} (hbm : bm < 2 ^ 32) {x : Nat}
    (hx : 32 ≤ x) : bm.testBit x = false :=
  Nat.testBit_lt_two_pow (Nat.lt_of_lt_of_le hbm (Nat.pow_le_pow_right (by omega) hx))

/-- The n-th set bit exists: any rank below the total count is realised. -/
theorem exists_testBit_cnt {bm : Nat} (m : Nat) :
    ∀ n, n < cnt bm m → ∃ j, j < m ∧ bm.testBit j = true ∧ cnt bm j = n := by
  induction m with
  | zero => intro n hn; simp [cnt_zero] at hn
  | succ m ih =>
    intro n hn
    rw [cnt_succ] at hn
    rcases Nat.lt_or_ge n (cnt bm m) with h | h
    · obtain ⟨j, hj, hb, hc⟩ := ih n h
      exact ⟨j, by omega, hb, hc⟩
    · by_cases hb : bm.testBit m = true
      · refine ⟨m, by omega, hb, ?_⟩
        rw [hb] at hn
        simp at hn
        omega
      · rw [Bool.not_eq_true] at hb
        rw [hb] at hn
        simp at hn
        omega

/-- Reading `getElem?` through `insertIdx`. -/
theorem getElem?_insertIdx' {β : Type} (l : List β) (x : β) :
    ∀ (n : Nat), n ≤ l.length → ∀ j,
      (l.insertIdx n x)[j]? =
        if j < n then l[j]? else if j = n then some x else l[j - 1]? := by
  induction l with
  | nil =>
    intro n hn j
    have : n = 0 := by simp at hn; omega
    subst this
    simp only [List.insertIdx_zero]
    cases j with
    | zero => simp
    | succ j => simp
  | cons a as ih =>
    intro n hn j
    cases n with
    | zero =>
      simp only [List.insertIdx_zero]
      cases j with
      | zero => simp
      | succ j => simp
    | succ n =>
      rw [List.insertIdx_succ_cons]
      cases j with
      | zero => simp
      | succ j =>
        have hlen : n ≤ as.length := by simp at hn; omega
        simp only [List.getElem?_cons_succ]
        rw [ih n hlen j]
        by_cases h1 : j < n
        · rw [if_pos h1, if_pos (show j + 1 < n + 1 by omega)]
        · rw [if_neg h1, if_neg (show ¬(j + 1 < n + 1) by omega)]
          by_cases h2 : j = n
          · rw [if_pos h2, if_pos (show j + 1 = n + 1 by omega)]
          · rw [if_neg h2, if_neg (show ¬(j + 1 = n + 1) by omega)]
            rw [show j + 1 - 1 = j by omega]
            cases j with
            | zero => omega
            | succ j => simp

theorem slotGet_insert {β : Type} {bm j : Nat} {l : List β} {x : β}
    (hj : j < 32) (hb : bm.testBit j = false) (hbm : bm < 2 ^ 32)
    (hlen : l.length = onesCount32 bm) (i : Nat) :
    slotGet (bm ||| 2 ^ j) (l.insertIdx (cnt bm j) x) i =
      if i = j then some x else slotGet bm l i := by
  have hcle : cnt bm j ≤ l.length := by
    rw [hlen, onesCount32_eq_cnt]
    exact cnt_mono bm (by omega)
  have htb : ∀ x, (bm ||| 2 ^ j).testBit x = (bm.testBit x || decide (j = x)) := by
    intro x
    rw [Nat.testBit_or, Nat.testBit_two_pow]
  by_cases hij : i = j
  · subst hij
    rw [if_pos rfl]
    unfold slotGet
    rw [htb, if_pos (show (bm.testBit i || decide (i = i)) = true by simp),
      cnt_or_two_pow hb, if_neg (Nat.lt_irrefl i), Nat.add_zero,
      getElem?_insertIdx' l x (cnt bm i) hcle,
      if_neg (Nat.lt_irrefl (cnt bm i)), if_pos rfl]
  · rw [if_neg hij]
    unfold slotGet
    rw [htb, decide_eq_false (Ne.symm hij)]
    by_cases hbi : bm.testBit i = true
    · rw [hbi, if_pos (show ((true || false) = true) by simp),
        if_pos (show (true = true) from rfl), cnt_or_two_pow hb]
      by_cases hji : j < i
      · have hmono : cnt bm j ≤ cnt bm i := cnt_mono bm (by omega)
        rw [if_pos hji, getElem?_insertIdx' l x (cnt bm j) hcle,
          if_neg (show ¬(cnt bm i + 1 < cnt bm j) by omega),
          if_neg (show ¬(cnt bm i + 1 = cnt bm j) by omega),
          show cnt bm i + 1 - 1 = cnt bm i by omega]
      · rw [if_neg hji, Nat.add_zero, getElem?_insertIdx' l x (cnt bm j) hcle,
          if_pos (cnt_lt_of_testBit bm (show i < j by omega) hbi)]
    · have hbi' : bm.testBit i = false := by
        cases h : bm.testBit i
        · rfl
        · exact absurd h hbi
      rw [hbi', if_neg (show ¬((false || false) = true) by simp),
        if_neg (show ¬(false = true) by simp)]

theorem slotGet_set {β : Type} {bm j : Nat} {l : List β} {x : β}
    (hj : j < 32) (hb : bm.testBit j = true) (hbm : bm < 2 ^ 32)
    (hlen : l.length = onesCount32 bm) (i : Nat) :
    slotGet bm (l.set (cnt bm j) x) i =
      if i = j then some x else slotGet bm l i := by
  have hclt : cnt bm j < l.length := by
    rw [hlen, onesCount32_eq_cnt]
    exact cnt_lt_of_testBit bm (by omega) hb
  by_cases hij : i = j
  · subst hij
    rw [if_pos rfl]
    unfold slotGet
    rw [if_pos hb, List.getElem?_set_self hclt]
  · rw [if_neg hij]
    unfold slotGet
    by_cases hbi : bm.testBit i = true
    · rw [if_pos hbi, if_pos hbi]
      have hne : cnt bm j ≠ cnt bm i := by
        rcases Nat.lt_or_ge i j with h | h
        · exact fun he => absurd (cnt_lt_of_testBit bm h hbi) (by omega)
        · have : j < i := by omega
          exact fun he => absurd (cnt_lt_of_testBit bm this hb) (by omega)
      rw [List.getElem?_set_ne hne]
    · rw [Bool.not_eq_true] at hbi
      rw [hbi]
      simp

theorem slotGet_erase {β : Type} {bm j : Nat} {l : List β}
    (hj : j < 32) (hb : bm.testBit j = true) (hbm : bm < 2 ^ 32)
    (hlen : l.length = onesCount32 bm) (i : Nat) :
    slotGet (Nat.ldiff bm (2 ^ j)) (l.eraseIdx (cnt bm j)) i =
      if i = j then none else slotGet bm l i := by
  have htb : ∀ x, (Nat.ldiff bm (2 ^ j)).testBit x =
      (bm.testBit x && !decide (j = x)) := by
    intro x
    rw [Nat.testBit_ldiff, Nat.testBit_two_pow]
  by_cases hij : i = j
  · subst hij
    rw [if_pos rfl]
    unfold slotGet
    rw [htb]
    simp
  · rw [if_neg hij]
    unfold slotGet
    rw [htb, decide_eq_false (Ne.symm hij)]
    simp only [Bool.not_false, Bool.and_true]
    by_cases hbi : bm.testBit i = true
    · rw [if_pos hbi, if_pos hbi]
      rw [List.getElem?_eraseIdx]
      have hcnt : cnt (Nat.ldiff bm (2 ^ j)) i =
          cnt bm i - (if j < i then 1 else 0) := by
        have := cnt_ldiff_two_pow hb i
        omega
      by_cases hji : j < i
      · have hstrict : cnt bm j < cnt bm i := cnt_lt_of_testBit bm hji hb
        rw [hcnt, if_pos hji, if_neg (by omega)]
        congr 1
        omega
      · have hij' : i < j := by omega
        have hstrict : cnt bm i < cnt bm j := cnt_lt_of_testBit bm hij' hbi
        rw [hcnt, if_neg hji, Nat.sub_zero, if_pos hstrict]
    · rw [Bool.not_eq_true] at hbi
      rw [hbi]
      simp

theorem mem_iff_slotGet {β : Type} {bm : Nat} {l : List β}
    (hbm : bm < 2 ^ 32) (hlen : l.length = onesCount32 bm) (x : β) :
    x ∈ l ↔ ∃ j, slotGet bm l j = some x := by
  constructor
  · intro hx
    obtain ⟨n, hn⟩ := List.mem_iff_getElem?.1 hx
    have hlt : n < l.length := (List.getElem?_eq_some_iff.1 hn).1
    rw [hlen, onesCount32_eq_cnt] at hlt
    obtain ⟨j, hj32, hb, hc⟩ := exists_testBit_cnt 32 n hlt
    refine ⟨j, ?_⟩
    unfold slotGet
    rw [if_pos hb, hc, hn]
  · intro ⟨j, hj⟩
    unfold slotGet at hj
    split at hj
    · obtain ⟨hlt, heq⟩ := List.getElem?_eq_some_iff.1 hj
      exact heq ▸ l.getElem_mem hlt
    · exact Option.noConfusion hj

theorem onesCount32_or {bm j : Nat} (hj : j < 32) (hb : bm.testBit j = false) :
    onesCount32 (bm ||| 2 ^ j) = onesCount32 bm + 1 := by
  rw [onesCount32_eq_cnt, onesCount32_eq_cnt, cnt_or_two_pow hb, if_pos (by omega)]

theorem onesCount32_ldiff {bm j : Nat} (hj : j < 32) (hb : bm.testBit j = true) :
    onesCount32 bm = onesCount32 (Nat.ldiff bm (2 ^ j)) + 1 := by
  rw [onesCount32_eq_cnt, onesCount32_eq_cnt, cnt_ldiff_two_pow hb 32,
    if_pos (by omega)]

theorem or_two_pow_lt {bm j : Nat} (hj : j < 32) (hbm : bm < 2 ^ 32) :
    bm ||| 2 ^ j < 2 ^ 32 := by
  have h1 : 2 ^ j < 2 ^ 32 := Nat.pow_lt_pow_right (by omega) hj
  exact Nat.or_lt_two_pow hbm h1

theorem ldiff_lt {bm j : Nat} (hbm : bm < 2 ^ 32) :
    Nat.ldiff bm (2 ^ j) < 2 ^ 32 := by
  by_contra h
  push_neg at h
  obtain ⟨i, hi, hb⟩ := Nat.ge_two_pow_implies_high_bit_true h
  rw [Nat.testBit_ldiff] at hb
  have hbm' : bm.testBit i = true := by
    cases hx : bm.testBit i
    · rw [hx] at hb; simp at hb
    · rfl
  have h1 := Nat.testBit_implies_ge hbm'
  have h2 : (2 : Nat) ^ 32 ≤ 2 ^ i := Nat.pow_le_pow_right (by omega) hi
  omega

theorem hamtBit_eq (hash shift : Nat) : hamtBit hash shift = 2 ^ slotOf hash shift := by
  unfold hamtBit slotOf
  rw [Nat.shiftLeft_eq, one_mul]

theorem slotOf_lt (hash shift : Nat) : slotOf hash shift < 32 :=
  Nat.lt_of_le_of_lt Nat.and_le_right (by norm_num)

theorem clearHighestOneBit_eq {n : Nat} (h0 : n ≠ 0) (h32 : n < 2 ^ 32) :
    clearHighestOneBit n = Nat.ldiff n (2 ^ Nat.log2 n) := by
  have hl : Nat.log2 n < 32 := (Nat.log2_lt h0).2 h32
  unfold clearHighestOneBit
  have he : 31 - leadingZeros32 n = Nat.log2 n := by
    unfold leadingZeros32
    omega
  rw [he, Nat.shiftLeft_eq, one_mul]

section Ops

variable {α κ : Type} [DecidableEq κ]

end Ops

section WfSection

variable {α κ : Type} [DecidableEq κ] {keyf : α → κ} {hashf : κ → Nat}

theorem toListH_mk {g bv bp : Nat} {vs : List α} {ps : List (HNode α)} :
    toListH (.mk g bv bp vs ps) = vs ++ (ps.map toListH).join := by
  rw [toListH]
  congr 1
  rw [show (fun (c : {x // x ∈ ps}) => toListH c.1) = toListH ∘ Subtype.val from rfl,
    ← List.map_map, List.attach_map_subtype_val]

theorem mem_toListH_mk {g bv bp : Nat} {vs : List α} {ps : List (HNode α)}
    {x : α} :
    x ∈ toListH (.mk g bv bp vs ps) ↔ x ∈ vs ∨ ∃ c ∈ ps, x ∈ toListH c := by
  rw [toListH_mk, List.mem_append, List.mem_join]
  constructor
  · rintro (h | ⟨l, hl, hx⟩)
    · exact Or.inl h
    · obtain ⟨c, hc, rfl⟩ := List.mem_map.1 hl
      exact Or.inr ⟨c, hc, hx⟩
  · rintro (h | ⟨c, hc, hx⟩)
    · exact Or.inl h
    · exact Or.inr ⟨toListH c, List.mem_map_of_mem toListH hc, hx⟩

/-- Every item in a well-formed subtree satisfies the path condition. -/
theorem toListH_pred {shift : Nat} {P : Nat → Prop} {nd : HNode α}
    (hwf : Wf keyf hashf shift P nd) :
    ∀ x ∈ toListH nd, P (hashf (keyf x)) := by
  induction hwf with
  | over h32 hne hP hnd =>
    intro x hx
    rw [mem_toListH_mk] at hx
    rcases hx with hx | ⟨c, hc, _⟩
    · exact hP x hx
    · simp at hc
  | node hs hbv hbp hlv hlp hslot hpv hchild hcne hdisj ihc =>
    intro x hx
    rw [mem_toListH_mk] at hx
    rcases hx with hx | ⟨c, hc, hxc⟩
    · obtain ⟨j, hj⟩ := (mem_iff_slotGet hbv hlv x).1 hx
      exact (hslot j x hj).1
    · obtain ⟨j, hj⟩ := (mem_iff_slotGet hbp hlp c).1 hc
      exact (ihc j c hj x hxc).1

/-- Every item in the child at slot `j` hashes to slot `j` at this level. -/
theorem toListH_child_slot {shift : Nat} {P : Nat → Prop} {j : Nat}
    {c : HNode α}
    (hwf : Wf keyf hashf (shift + 5) (fun h => P h ∧ slotOf h shift = j) c) :
    ∀ x ∈ toListH c, slotOf (hashf (keyf x)) shift = j := fun x hx =>
  (toListH_pred hwf x hx).2

theorem slotGet_getElem {β : Type} {bv : Nat} {vs : List β} (hbv : bv < 2 ^ 32)
    (hlen : vs.length = onesCount32 bv) {n : Nat} (hn : n < vs.length) :
    ∃ j, bv.testBit j = true ∧ cnt bv j = n ∧ slotGet bv vs j = some vs[n] := by
  have hn' : n < cnt bv 32 := by
    rw [← onesCount32_eq_cnt, ← hlen]
    exact hn
  obtain ⟨j, hj32, hb, hc⟩ := exists_testBit_cnt 32 n hn'
  refine ⟨j, hb, hc, ?_⟩
  unfold slotGet
  rw [if_pos hb, hc, List.getElem?_eq_getElem hn]

theorem cnt_inj {bv : Nat} {j1 j2 : Nat} (h1 : bv.testBit j1 = true)
    (h2 : bv.testBit j2 = true) (he : cnt bv j1 = cnt bv j2) : j1 = j2 := by
  rcases Nat.lt_trichotomy j1 j2 with h | h | h
  · exact absurd (cnt_lt_of_testBit bv h h1) (by omega)
  · exact h
  · exact absurd (cnt_lt_of_testBit bv h h2) (by omega)

/-- The keys of a well-formed subtree are pairwise distinct, in `forEach`
order. -/
theorem toListH_keys_nodup {shift : Nat} {P : Nat → Prop} {nd : HNode α}
    (hwf : Wf keyf hashf shift P nd) : ((toListH nd).map keyf).Nodup := by
  induction hwf with
  | over h32 hne hP hnd =>
    rw [toListH_mk]
    simpa using hnd
  | node hs hbv hbp hlv hlp hslot hpv hchild hcne hdisj ihc =>
    rename_i shift P g bv bp vs ps
    rw [toListH_mk, List.map_append, List.nodup_append]
    refine ⟨?_, ?_, ?_⟩
    · show List.Pairwise _ _
      rw [List.pairwise_iff_getElem]
      intro i j hi hj hij
      rw [List.getElem_map, List.getElem_map]
      intro hkeq
      have hi' : i < vs.length := by simpa using hi
      have hj' : j < vs.length := by simpa using hj
      obtain ⟨j1, hb1, hc1, hs1⟩ := slotGet_getElem hbv hlv hi'
      obtain ⟨j2, hb2, hc2, hs2⟩ := slotGet_getElem hbv hlv hj'
      have e1 := (hslot j1 _ hs1).2
      have e2 := (hslot j2 _ hs2).2
      rw [hkeq, e2] at e1
      subst e1
      omega
    · rw [List.map_flatten, List.nodup_flatten]
      constructor
      · intro l hl
        obtain ⟨lc, hlc, rfl⟩ := List.mem_map.1 hl
        obtain ⟨c, hc, rfl⟩ := List.mem_map.1 hlc
        obtain ⟨j, hj⟩ := (mem_iff_slotGet hbp hlp c).1 hc
        exact ihc j c hj
      · rw [List.map_map, List.pairwise_iff_getElem]
        intro i j hi hj hij
        have hi' : i < ps.length := by simpa using hi
        have hj' : j < ps.length := by simpa using hj
        rw [List.getElem_map, List.getElem_map]
        obtain ⟨j1, hb1, hc1, hs1⟩ := slotGet_getElem hbp hlp hi'
        obtain ⟨j2, hb2, hc2, hs2⟩ := slotGet_getElem hbp hlp hj'
        intro k hk1 hk2
        simp only [Function.comp_apply] at hk1 hk2
        obtain ⟨x1, hx1, hkx1⟩ := List.mem_map.1 hk1
        obtain ⟨x2, hx2, hkx2⟩ := List.mem_map.1 hk2
        have e1 := toListH_child_slot (hchild j1 _ hs1) x1 hx1
        have e2 := toListH_child_slot (hchild j2 _ hs2) x2 hx2
        rw [hkx1] at e1
        rw [hkx2] at e2
        rw [e2] at e1
        subst e1
        omega
    · intro k hk1 hk2
      obtain ⟨v, hv, hkv⟩ := List.mem_map.1 hk1
      rw [List.map_flatten] at hk2
      obtain ⟨l, hl, hkl⟩ := List.mem_flatten.1 hk2
      rw [List.map_map] at hl
      obtain ⟨c, hc, rfl⟩ := List.mem_map.1 hl
      simp only [Function.comp_apply] at hkl
      obtain ⟨x, hx, hkx⟩ := List.mem_map.1 hkl
      obtain ⟨j1, hs1⟩ := (mem_iff_slotGet hbv hlv v).1 hv
      obtain ⟨j2, hs2⟩ := (mem_iff_slotGet hbp hlp c).1 hc
      have e1 := (hslot j1 _ hs1).2
      have e2 := toListH_child_slot (hchild j2 _ hs2) x hx
      rw [hkx, ← hkv] at e2
      rw [e2] at e1
      subst e1
      exact hdisj _ v c hs1 hs2 (hkv ▸ (hkx ▸ List.mem_map_of_mem keyf hx))

theorem and_two_pow_ne_zero_iff {bm j : Nat} : (bm &&& 2 ^ j ≠ 0) ↔ bm.testBit j = true := by
  rw [Nat.and_two_pow]
  cases h : bm.testBit j <;> simp [h] <;> positivity

/-- Membership in a well-formed interior node, slot by slot. -/
theorem mem_toListH_slots {g bv bp : Nat} {vs : List α} {ps : List (HNode α)}
    (hbv : bv < 2 ^ 32) (hbp : bp < 2 ^ 32)
    (hlv : vs.length = onesCount32 bv) (hlp : ps.length = onesCount32 bp)
    {x : α} :
    x ∈ toListH (.mk g bv bp vs ps) ↔
      (∃ j, slotGet bv vs j = some x) ∨
      (∃ j c, slotGet bp ps j = some c ∧ x ∈ toListH c) := by
  rw [mem_toListH_mk]
  constructor
  · rintro (h | ⟨c, hc, hx⟩)
    · exact Or.inl ((mem_iff_slotGet hbv hlv x).1 h)
    · obtain ⟨j, hj⟩ := (mem_iff_slotGet hbp hlp c).1 hc
      exact Or.inr ⟨j, c, hj, hx⟩
  · rintro (⟨j, hj⟩ | ⟨j, c, hj, hx⟩)
    · exact Or.inl ((mem_iff_slotGet hbv hlv x).2 ⟨j, hj⟩)
    · exact Or.inr ⟨c, (mem_iff_slotGet hbp hlp c).2 ⟨j, hj⟩, hx⟩

/-- Go `get` returns exactly the unique item of the subtree carrying the key. -/
theorem getH_spec {shift : Nat} {P : Nat → Prop} {nd : HNode α}
    (hwf : Wf keyf hashf shift P nd) (k : κ) (v : α) :
    getH keyf k (hashf k) shift nd = some v ↔ v ∈ toListH nd ∧ keyf v = k := by
  induction hwf with
  | over h32 hne hP hnd =>
    rename_i shift P g vs
    rw [getH, if_pos h32]
    constructor
    · intro h
      have hm := List.mem_of_find?_eq_some h
      have hp := List.find?_some h
      rw [decide_eq_true_eq] at hp
      exact ⟨mem_toListH_mk.2 (Or.inl hm), hp⟩
    · rintro ⟨hm, hk⟩
      have hm' : v ∈ vs := by
        rcases mem_toListH_mk.1 hm with h | ⟨c, hc, _⟩
        · exact h
        · simp at hc
      have hsome : (vs.find? fun v => decide (keyf v = k)).isSome := by
        rw [List.find?_isSome]
        exact ⟨v, hm', by simpa using hk⟩
      obtain ⟨w, hw⟩ := Option.isSome_iff_exists.1 hsome
      have hwm := List.mem_of_find?_eq_some hw
      have hwp := List.find?_some hw
      rw [decide_eq_true_eq] at hwp
      have : w = v := by
        have hinj := List.inj_on_of_nodup_map hnd
        exact hinj hwm hm' (by rw [hwp, hk])
      rw [hw, this]
  | node hs hbv hbp hlv hlp hslot hpv hchild hcne hdisj ihc =>
    rename_i shift P g bv bp vs ps
    rw [getH, if_neg (by omega)]
    have hbit : hamtBit (hashf k) shift = 2 ^ slotOf (hashf k) shift := hamtBit_eq _ _
    have hj0 : slotOf (hashf k) shift < 32 := slotOf_lt _ _
    set j0 := slotOf (hashf k) shift with hj0def
    have hiv : onesCount32 (bv &&& (hamtBit (hashf k) shift - 1)) = cnt bv j0 := by
      rw [hbit]
      exact onesCount32_and_sub_one (by omega)
    have hip : onesCount32 (bp &&& (hamtBit (hashf k) shift - 1)) = cnt bp j0 := by
      rw [hbit]
      exact onesCount32_and_sub_one (by omega)
    -- the key fact: an item with key k can only live at slot j0
    have hkey_slot : ∀ x, x ∈ toListH (.mk g bv bp vs ps) → keyf x = k →
        ((∃ w, slotGet bv vs j0 = some w ∧ w = x) ∨
         (∃ c, slotGet bp ps j0 = some c ∧ x ∈ toListH c)) := by
      intro x hx hkx
      rcases (mem_toListH_slots hbv hbp hlv hlp).1 hx with ⟨j, hj⟩ | ⟨j, c, hj, hxc⟩
      · have hsl := (hslot j x hj).2
        rw [hkx] at hsl
        rw [← hsl] at hj
        exact Or.inl ⟨x, hj, rfl⟩
      · have hsl := toListH_child_slot (hchild j c hj) x hxc
        rw [hkx] at hsl
        rw [← hsl] at hj
        exact Or.inr ⟨c, hj, hxc⟩
    by_cases hcond : bv &&& hamtBit (hashf k) shift ≠ 0 ∧
        ((vs[onesCount32 (bv &&& (hamtBit (hashf k) shift - 1))]?.any
          fun v => decide (keyf v = k)) = true)
    · rw [if_pos hcond]
      obtain ⟨hne0, hany⟩ := hcond
      have htb : bv.testBit j0 = true := by
        rw [hbit] at hne0
        exact and_two_pow_ne_zero_iff.1 hne0
      have hivlt : cnt bv j0 < vs.length := by
        rw [hlv, onesCount32_eq_cnt]
        exact cnt_lt_of_testBit bv (by omega) htb
      rw [hiv] at hany ⊢
      rw [List.getElem?_eq_getElem hivlt] at hany ⊢
      simp only [Option.any_some, decide_eq_true_eq] at hany
      have hsg : slotGet bv vs j0 = some vs[cnt bv j0] := by
        unfold slotGet
        rw [if_pos htb, List.getElem?_eq_getElem hivlt]
      constructor
      · intro h
        have hv : vs[cnt bv j0] = v := by simpa using h
        subst hv
        exact ⟨mem_toListH_mk.2 (Or.inl (vs.getElem_mem hivlt)), hany⟩
      · rintro ⟨hm, hk⟩
        rcases hkey_slot v hm hk with ⟨w, hw, rfl⟩ | ⟨c, hc, hvc⟩
        · rw [hsg] at hw
          exact hw
        · exfalso
          have hnin := hdisj j0 _ c hsg hc
          rw [hany, ← hk] at hnin
          exact hnin (List.mem_map_of_mem keyf hvc)
    · rw [if_neg hcond]
      push_neg at hcond
      by_cases hbp0 : bp &&& hamtBit (hashf k) shift = 0
      · rw [if_pos hbp0]
        constructor
        · intro h
          exact Option.noConfusion h
        · rintro ⟨hm, hk⟩
          exfalso
          rcases hkey_slot v hm hk with ⟨w, hw, rfl⟩ | ⟨c, hc, hvc⟩
          · have htb : bv.testBit j0 = true := by
              unfold slotGet at hw
              by_contra hb
              rw [if_neg hb] at hw
              exact Option.noConfusion hw
            have hne0 : bv &&& hamtBit (hashf k) shift ≠ 0 := by
              rw [hbit]
              exact and_two_pow_ne_zero_iff.2 htb
            have hany := hcond hne0
            rw [hiv] at hany
            unfold slotGet at hw
            rw [if_pos htb] at hw
            rw [hw] at hany
            simp at hany
            exact hany hk
          · have htb : bp.testBit j0 = true := by
              unfold slotGet at hc
              by_contra hb
              rw [if_neg hb] at hc
              exact Option.noConfusion hc
            have hne : bp &&& hamtBit (hashf k) shift ≠ 0 := by
              rw [hbit]
              exact and_two_pow_ne_zero_iff.2 htb
            exact hne hbp0
      · rw [if_neg hbp0]
        have htbp : bp.testBit j0 = true := by
          rw [hbit] at hbp0
          exact and_two_pow_ne_zero_iff.1 hbp0
        have hiplt : cnt bp j0 < ps.length := by
          rw [hlp, onesCount32_eq_cnt]
          exact cnt_lt_of_testBit bp (by omega) htbp
        rw [hip, List.getElem?_eq_getElem hiplt]
        have hsg : slotGet bp ps j0 = some ps[cnt bp j0] := by
          unfold slotGet
          rw [if_pos htbp, List.getElem?_eq_getElem hiplt]
        rw [ihc j0 _ hsg]
        constructor
        · rintro ⟨hm, hk⟩
          exact ⟨mem_toListH_mk.2 (Or.inr ⟨_, ps.getElem_mem hiplt, hm⟩), hk⟩
        · rintro ⟨hm, hk⟩
          refine ⟨?_, hk⟩
          rcases hkey_slot v hm hk with ⟨w, hw, rfl⟩ | ⟨c, hc, hvc⟩
          · exfalso
            have htb : bv.testBit j0 = true := by
              unfold slotGet at hw
              by_contra hb
              rw [if_neg hb] at hw
              exact Option.noConfusion hw
            have hne0 : bv &&& hamtBit (hashf k) shift ≠ 0 := by
              rw [hbit]
              exact and_two_pow_ne_zero_iff.2 htb
            have hany := hcond hne0
            rw [hiv] at hany
            unfold slotGet at hw
            rw [if_pos htb] at hw
            rw [hw] at hany
            simp at hany
            exact hany hk
          · rw [hsg] at hc
            injection hc with hc
            rw [← hc] at hvc
            exact hvc

theorem slotGet_eq_getElem? {β : Type} {bv : Nat} (vs : List β) {j : Nat}
    (htb : bv.testBit j = true) : slotGet bv vs j = vs[cnt bv j]? := by
  unfold slotGet
  rw [if_pos htb]

theorem onesCount32_zero : onesCount32 0 = 0 := by
  unfold onesCount32
  simp

theorem cnt_zero_left (j : Nat) : cnt 0 j = 0 := by
  unfold cnt
  simp

/-- The keys of the inline values of a well-formed interior node are
pairwise distinct. -/
theorem vals_map_nodup {shift bv : Nat} {vs : List α} {P : Nat → Prop}
    (hbv : bv < 2 ^ 32) (hlv : vs.length = onesCount32 bv)
    (hslot : ∀ j v, slotGet bv vs j = some v →
      P (hashf (keyf v)) ∧ slotOf (hashf (keyf v)) shift = j) :
    (vs.map keyf).Nodup := by
  show List.Pairwise _ _
  rw [List.pairwise_iff_getElem]
  intro i j hi hj hij
  rw [List.getElem_map, List.getElem_map]
  intro hkeq
  have hi' : i < vs.length := by simpa using hi
  have hj' : j < vs.length := by simpa using hj
  obtain ⟨j1, hb1, hc1, hs1⟩ := slotGet_getElem hbv hlv hi'
  obtain ⟨j2, hb2, hc2, hs2⟩ := slotGet_getElem hbv hlv hj'
  have e1 := (hslot j1 _ hs1).2
  have e2 := (hslot j2 _ hs2).2
  rw [hkeq, e2] at e1
  subst e1
  omega

/-- If the hash slot of `k` has no inline value, no item of the node has
key `k` (children imply inline values). -/
theorem key_absent_of_no_inline {shift : Nat} {P : Nat → Prop}
    {g bv bp : Nat} {vs : List α} {ps : List (HNode α)} {k : κ}
    (hbv : bv < 2 ^ 32) (hbp : bp < 2 ^ 32)
    (hlv : vs.length = onesCount32 bv) (hlp : ps.length = onesCount32 bp)
    (hslot : ∀ j v, slotGet bv vs j = some v →
      P (hashf (keyf v)) ∧ slotOf (hashf (keyf v)) shift = j)
    (hpv : ∀ j, bp.testBit j = true → bv.testBit j = true)
    (hchild : ∀ j c, slotGet bp ps j = some c →
      Wf keyf hashf (shift + 5) (fun h => P h ∧ slotOf h shift = j) c)
    (htb : bv.testBit (slotOf (hashf k) shift) = false) :
    ∀ x ∈ toListH (.mk g bv bp vs ps), keyf x ≠ k := by
  intro x hx hkx
  rcases (mem_toListH_slots hbv hbp hlv hlp).1 hx with ⟨j, hj⟩ | ⟨j, c, hj, hxc⟩
  · have hsl := (hslot j x hj).2
    rw [hkx] at hsl
    unfold slotGet at hj
    rw [← hsl, htb] at hj
    simp at hj
  · have hsl := toListH_child_slot (hchild j c hj) x hxc
    rw [hkx] at hsl
    have htbp : bp.testBit j = true := by
      unfold slotGet at hj
      by_contra hb
      rw [if_neg hb] at hj
      exact Option.noConfusion hj
    have := hpv j htbp
    rw [← hsl, htb] at this
    exact Bool.noConfusion this

/-- Membership through `List.set` when the replaced slot holds the same
key as the new item and keys are distinct. -/
theorem mem_set_of_key {vs : List α} {item : α}
    (hnd : (vs.map keyf).Nodup) {i : Nat} (hi : i < vs.length)
    (hkey : keyf vs[i] = keyf item) (x : α) :
    x ∈ vs.set i item ↔ x = item ∨ (x ∈ vs ∧ keyf x ≠ keyf item) := by
  have hkne : ∀ (n : Nat) (hn : n < vs.length), n ≠ i → keyf vs[n] ≠ keyf vs[i] := by
    intro n hn hni he
    have hp := List.pairwise_iff_getElem.1 hnd
    rcases Nat.lt_or_ge n i with h | h
    · exact hp n i (by simpa using hn) (by simpa using hi) h
        (by simpa only [List.getElem_map] using he)
    · have hlt : i < n := by omega
      exact hp i n (by simpa using hi) (by simpa using hn) hlt
        (by simpa only [List.getElem_map] using he.symm)
  constructor
  · intro hx
    obtain ⟨n, hn⟩ := List.mem_iff_getElem?.1 hx
    rw [List.getElem?_set] at hn
    by_cases hni : i = n
    · rw [if_pos hni, if_pos (hni ▸ hi)] at hn
      exact Or.inl (Option.some.inj hn).symm
    · rw [if_neg hni] at hn
      obtain ⟨hnlt, hxn⟩ := List.getElem?_eq_some_iff.1 hn
      refine Or.inr ⟨List.mem_iff_getElem?.2 ⟨n, hn⟩, ?_⟩
      rw [← hxn, ← hkey]
      exact hkne n hnlt (Ne.symm hni)
  · rintro (rfl | ⟨hx, hkx⟩)
    · exact List.mem_iff_getElem?.2 ⟨i, by
        rw [List.getElem?_set, if_pos rfl, if_pos hi]⟩
    · obtain ⟨n, hn⟩ := List.mem_iff_getElem?.1 hx
      obtain ⟨hnlt, hxn⟩ := List.getElem?_eq_some_iff.1 hn
      have hni : n ≠ i := by
        intro he
        subst he
        rw [hxn] at hkey
        exact hkx hkey
      exact List.mem_iff_getElem?.2 ⟨n, by
        rw [List.getElem?_set, if_neg (Ne.symm hni)]
        exact hn⟩

/-- Inserting into a fresh empty node produces a well-formed singleton. -/
theorem withH_empty {s : Nat} {P : Nat → Prop} {item : α} {g0 gen : Nat}
    (hP : P (hashf (keyf item))) :
    Wf keyf hashf s P
        (withH keyf gen item (keyf item) (hashf (keyf item)) s (.mk g0 0 0 [] [])) ∧
      toListH
        (withH keyf gen item (keyf item) (hashf (keyf item)) s (.mk g0 0 0 [] [])) =
        [item] := by
  by_cases h32 : 32 ≤ s
  · rw [withH, if_pos h32]
    simp only [List.findIdx?_nil]
    constructor
    · exact Wf.over h32 (by simp) (by
        intro v hv
        simp at hv
        rw [hv]
        exact hP) (by simp)
    · rw [toListH_mk]
      simp
  · rw [withH, if_neg h32]
    have hz : (0 : Nat) &&& hamtBit (hashf (keyf item)) s = 0 := by
      simp [Nat.zero_and]
    rw [if_pos hz]
    have hz2 : (0 : Nat) &&& (hamtBit (hashf (keyf item)) s - 1) = 0 := by
      simp [Nat.zero_and]
    rw [hz2, onesCount32_zero]
    set j0 := slotOf (hashf (keyf item)) s with hj0
    have hj0lt : j0 < 32 := slotOf_lt _ _
    have hbit : hamtBit (hashf (keyf item)) s = 2 ^ j0 := hamtBit_eq _ _
    rw [hbit]
    have hcnt0 : ∀ j, cnt (0 ||| 2 ^ j0) j = cnt (2 ^ j0) j := by
      intro j
      rw [Nat.zero_or]
    have htb : ∀ j, (0 ||| 2 ^ j0 : Nat).testBit j = decide (j0 = j) := by
      intro j
      rw [Nat.zero_or, Nat.testBit_two_pow]
    have hone : onesCount32 (0 ||| 2 ^ j0) = 1 := by
      rw [onesCount32_or hj0lt (by simp), onesCount32_zero]
    have hsg : ∀ j x, slotGet (0 ||| 2 ^ j0) (List.insertIdx 0 item []) j = some x ↔
        j = j0 ∧ x = item := by
      intro j x
      have := @slotGet_insert _ 0 _ [] item
        hj0lt (by simp) (by norm_num) (by rw [onesCount32_zero]; rfl) j
      rw [cnt_zero_left] at this
      rw [Nat.zero_or] at this ⊢
      rw [this]
      by_cases hj : j = j0
      · rw [if_pos hj]
        constructor
        · intro h
          exact ⟨hj, (Option.some.inj h).symm⟩
        · rintro ⟨_, rfl⟩
          rfl
      · rw [if_neg hj]
        unfold slotGet
        rw [if_neg (by simp [Nat.zero_testBit])]
        constructor
        · intro h
          exact Option.noConfusion h
        · rintro ⟨h, _⟩
          exact absurd h hj
    constructor
    · refine Wf.node (by omega) (or_two_pow_lt hj0lt (by norm_num))
        (by norm_num) ?_ ?_ ?_ ?_ ?_ ?_ ?_
      · rw [hone]
        simp
      · rw [onesCount32_zero]
        rfl
      · intro j v hv
        obtain ⟨rfl, rfl⟩ := (hsg j v).1 hv
        exact ⟨hP, rfl⟩
      · intro j hb
        rw [Nat.zero_testBit] at hb
        exact Bool.noConfusion hb
      · intro j c hc
        unfold slotGet at hc
        rw [if_neg (by simp [Nat.zero_testBit])] at hc
        exact Option.noConfusion hc
      · intro j c hc
        unfold slotGet at hc
        rw [if_neg (by simp [Nat.zero_testBit])] at hc
        exact Option.noConfusion hc
      · intro j v c _ hc
        unfold slotGet at hc
        rw [if_neg (by simp [Nat.zero_testBit])] at hc
        exact Option.noConfusion hc
    · rw [toListH_mk]
      simp

theorem set_getElem_self {β : Type} (l : List β) (i : Nat) (h : i < l.length) :
    l.set i l[i] = l := by
  apply List.ext_getElem?
  intro n
  rw [List.getElem?_set]
  by_cases hin : i = n
  · subst hin
    rw [if_pos rfl, if_pos h, List.getElem?_eq_getElem h]
  · rw [if_neg hin]

/-- Go `put` (= `with`) preserves well-formedness and replaces exactly the items
carrying the new item's key. -/
theorem withH_spec {shift : Nat} {P : Nat → Prop} {nd : HNode α} {gen : Nat}
    {item : α} (hwf : Wf keyf hashf shift P nd) (hP : P (hashf (keyf item))) :
    Wf keyf hashf shift P
        (withH keyf gen item (keyf item) (hashf (keyf item)) shift nd) ∧
      ∀ x, x ∈ toListH (withH keyf gen item (keyf item) (hashf (keyf item)) shift nd) ↔
        (x = item ∨ (x ∈ toListH nd ∧ keyf x ≠ keyf item)) := by
  induction hwf with
  | over h32 hne hPl hnd =>
    rename_i shift P g vs
    rw [withH, if_pos h32]
    cases hf : vs.findIdx? (fun v => decide (keyf v = keyf item)) with
    | none =>
      have habs : ∀ v ∈ vs, keyf v ≠ keyf item := by
        intro v hv he
        rw [List.findIdx?_eq_none_iff] at hf
        have := hf v hv
        simp [he] at this
      constructor
      · refine Wf.over h32 (by simp) ?_ ?_
        · intro v hv
          rcases List.mem_append.1 hv with h | h
          · exact hPl v h
          · simp at h
            rw [h]
            exact hP
        · rw [List.map_append, List.nodup_append]
          refine ⟨hnd, by simp, ?_⟩
          intro a ha hb
          simp at hb
          subst hb
          obtain ⟨v, hv, hkv⟩ := List.mem_map.1 ha
          exact habs v hv hkv
      · intro x
        rw [toListH_mk, toListH_mk]
        simp only [List.map_nil, List.flatten_nil, List.append_nil]
        rw [List.mem_append]
        constructor
        · rintro (h | h)
          · exact Or.inr ⟨h, habs x h⟩
          · simp at h
            exact Or.inl h
        · rintro (rfl | ⟨hm, _⟩)
          · simp
          · exact Or.inl hm
    | some i =>
      obtain ⟨hilt, hfi⟩ := List.findIdx?_eq_some_iff_findIdx_eq.1 hf
      have hki : keyf vs[i] = keyf item := by
        have := @List.findIdx_getElem _ (fun v => decide (keyf v = keyf item))
          vs (hfi ▸ hilt)
        simpa [hfi] using this
      have hmemset := fun x => mem_set_of_key hnd hilt hki x
      constructor
      · refine Wf.over h32 ?_ ?_ ?_
        · intro he
          rw [he] at hmemset
          have := (hmemset item).2 (Or.inl rfl)
          simp at this
        · intro v hv
          rcases (hmemset v).1 hv with rfl | ⟨hm, _⟩
          · exact hP
          · exact hPl v hm
        · have hmk : (vs.set i item).map keyf = (vs.map keyf).set i (keyf item) := by
            rw [List.map_set]
          have him : i < (List.map keyf vs).length := by simpa using hilt
          rw [hmk, ← hki]
          have hrw : (vs.map keyf).set i (keyf vs[i]) = vs.map keyf := by
            have hgm : (List.map keyf vs)[i] = keyf vs[i] := List.getElem_map keyf
            rw [← hgm, set_getElem_self]
          rw [hrw]
          exact hnd
      · intro x
        rw [toListH_mk, toListH_mk]
        simp only [List.map_nil, List.flatten_nil, List.append_nil]
        exact hmemset x
  | node hs hbv hbp hlv hlp hslot hpv hchild hcne hdisj ihc =>
    rename_i shift P g bv bp vs ps
    rw [withH, if_neg (by omega)]
    have hbit : hamtBit (hashf (keyf item)) shift =
        2 ^ slotOf (hashf (keyf item)) shift := hamtBit_eq _ _
    set j0 := slotOf (hashf (keyf item)) shift with hj0def
    have hj0 : j0 < 32 := slotOf_lt _ _
    have hiv : onesCount32 (bv &&& (hamtBit (hashf (keyf item)) shift - 1)) =
        cnt bv j0 := by
      rw [hbit]
      exact onesCount32_and_sub_one (by omega)
    have hip : onesCount32 (bp &&& (hamtBit (hashf (keyf item)) shift - 1)) =
        cnt bp j0 := by
      rw [hbit]
      exact onesCount32_and_sub_one (by omega)
    by_cases hbv0 : bv &&& hamtBit (hashf (keyf item)) shift = 0
    · -- slot empty: insert the item inline
      rw [if_pos hbv0, hiv, hbit]
      have htb : bv.testBit j0 = false := by
        rw [hbit] at hbv0
        by_contra hb
        rw [Bool.not_eq_false] at hb
        exact (and_two_pow_ne_zero_iff.2 hb) hbv0
      have habs := key_absent_of_no_inline (g := g) (k := keyf item)
        hbv hbp hlv hlp hslot hpv hchild htb
      have hcle : cnt bv j0 ≤ vs.length := by
        rw [hlv, onesCount32_eq_cnt]
        exact cnt_mono bv (by omega)
      have hsg := fun i => slotGet_insert (x := item) hj0 htb hbv hlv i
      have hvlen : (vs.insertIdx (cnt bv j0) item).length =
          onesCount32 (bv ||| 2 ^ j0) := by
        rw [List.length_insertIdx _ _ hcle, hlv, onesCount32_or hj0 htb]
      constructor
      · refine Wf.node hs (or_two_pow_lt hj0 hbv) hbp hvlen hlp ?_ ?_ ?_ ?_ ?_
        · intro j v hv
          rw [hsg j] at hv
          by_cases hj : j = j0
          · rw [if_pos hj] at hv
            obtain rfl := (Option.some.inj hv).symm
            exact ⟨hP, by rw [hj]⟩
          · rw [if_neg hj] at hv
            exact hslot j v hv
        · intro j hb
          rw [Nat.testBit_or, hpv j hb]
          simp
        · exact hchild
        · exact hcne
        · intro j v c hv hc
          by_cases hj : j = j0
          · exfalso
            subst hj
            have htbp : bp.testBit j0 = true := by
              unfold slotGet at hc
              by_contra hb
              rw [if_neg hb] at hc
              exact Option.noConfusion hc
            have := hpv j0 htbp
            rw [htb] at this
            exact Bool.noConfusion this
          · rw [hsg j, if_neg hj] at hv
            exact hdisj j v c hv hc
      · intro x
        rw [mem_toListH_mk, mem_toListH_mk, List.mem_insertIdx hcle]
        constructor
        · rintro ((rfl | h) | h)
          · exact Or.inl rfl
          · exact Or.inr ⟨Or.inl h, habs x (mem_toListH_mk.2 (Or.inl h))⟩
          · exact Or.inr ⟨Or.inr h, habs x (mem_toListH_mk.2 (Or.inr h))⟩
        · rintro (rfl | ⟨hm | hm, _⟩)
          · exact Or.inl (Or.inl rfl)
          · exact Or.inl (Or.inr hm)
          · exact Or.inr hm
    · rw [if_neg hbv0]
      have htb : bv.testBit j0 = true := by
        rw [hbit] at hbv0
        exact and_two_pow_ne_zero_iff.1 hbv0
      have hivlt : cnt bv j0 < vs.length := by
        rw [hlv, onesCount32_eq_cnt]
        exact cnt_lt_of_testBit bv (by omega) htb
      have hsg0 : slotGet bv vs j0 = some vs[cnt bv j0] := by
        unfold slotGet
        rw [if_pos htb, List.getElem?_eq_getElem hivlt]
      have hvnd : (vs.map keyf).Nodup := vals_map_nodup hbv hlv hslot
      by_cases hmatch : ((vs[onesCount32 (bv &&& (hamtBit (hashf (keyf item)) shift - 1))]?.any
          fun v => decide (keyf v = keyf item)) = true)
      · -- inline slot holds the same key: overwrite it
        rw [if_pos hmatch]
        rw [hiv] at hmatch ⊢
        rw [List.getElem?_eq_getElem hivlt] at hmatch
        simp only [Option.any_some, decide_eq_true_eq] at hmatch
        have hmemset := fun x => mem_set_of_key hvnd hivlt hmatch x
        have hsgset := fun i => slotGet_set (x := item) hj0 htb hbv hlv i
        constructor
        · refine Wf.node hs hbv hbp (by rw [List.length_set, hlv]) hlp ?_ hpv
            hchild hcne ?_
          · intro j v hv
            rw [hsgset j] at hv
            by_cases hj : j = j0
            · rw [if_pos hj] at hv
              obtain rfl := (Option.some.inj hv).symm
              exact ⟨hP, by rw [hj]⟩
            · rw [if_neg hj] at hv
              exact hslot j v hv
          · intro j v c hv hc
            rw [hsgset j] at hv
            by_cases hj : j = j0
            · rw [if_pos hj] at hv
              obtain rfl := (Option.some.inj hv).symm
              subst hj
              have hold := hdisj j0 _ c hsg0 hc
              rw [hmatch] at hold
              exact hold
            · rw [if_neg hj] at hv
              exact hdisj j v c hv hc
        · intro x
          rw [mem_toListH_mk, mem_toListH_mk]
          constructor
          · rintro (h | ⟨c, hcm, hxc⟩)
            · rcases (hmemset x).1 h with rfl | ⟨hm, hk⟩
              · exact Or.inl rfl
              · exact Or.inr ⟨Or.inl hm, hk⟩
            · -- x in an unchanged child: its key differs from keyf item
              refine Or.inr ⟨Or.inr ⟨c, hcm, hxc⟩, ?_⟩
              obtain ⟨j, hj⟩ := (mem_iff_slotGet hbp hlp c).1 hcm
              by_cases hjj : j = j0
              · subst hjj
                have hold := hdisj j0 _ c hsg0 hj
                rw [hmatch] at hold
                intro hkx
                exact hold (hkx ▸ List.mem_map_of_mem keyf hxc)
              · have hsl := toListH_child_slot (hchild j c hj) x hxc
                intro hkx
                rw [hkx] at hsl
                exact hjj (by rw [← hsl])
          · rintro (rfl | ⟨hm | ⟨c, hcm, hxc⟩, hk⟩)
            · exact Or.inl ((hmemset _).2 (Or.inl rfl))
            · exact Or.inl ((hmemset x).2 (Or.inr ⟨hm, hk⟩))
            · exact Or.inr ⟨c, hcm, hxc⟩
      · -- inline slot holds a different key
        rw [if_neg hmatch]
        rw [hiv] at hmatch
        rw [List.getElem?_eq_getElem hivlt] at hmatch
        simp only [Option.any_some, decide_eq_true_eq] at hmatch
        by_cases hbp0 : bp &&& hamtBit (hashf (keyf item)) shift ≠ 0
        · -- existing child: recurse into it
          rw [if_pos hbp0]
          have htbp : bp.testBit j0 = true := by
            rw [hbit] at hbp0
            exact and_two_pow_ne_zero_iff.1 hbp0
          have hiplt : cnt bp j0 < ps.length := by
            rw [hlp, onesCount32_eq_cnt]
            exact cnt_lt_of_testBit bp (by omega) htbp
          rw [hip, List.getElem?_eq_getElem hiplt]
          have hsgp : slotGet bp ps j0 = some ps[cnt bp j0] := by
            unfold slotGet
            rw [if_pos htbp, List.getElem?_eq_getElem hiplt]
          obtain ⟨ihwf, ihmem⟩ := ihc j0 _ hsgp (by exact ⟨hP, rfl⟩)
          have hsgset := fun i => slotGet_set
            (x := withH keyf gen item (keyf item) (hashf (keyf item)) (shift + 5)
              ps[cnt bp j0]) hj0 htbp hbp hlp i
          constructor
          · refine Wf.node hs hbv hbp hlv (by rw [List.length_set, hlp]) hslot hpv
              ?_ ?_ ?_
            · intro j c hc
              rw [hsgset j] at hc
              by_cases hj : j = j0
              · rw [if_pos hj] at hc
                obtain rfl := (Option.some.inj hc).symm
                subst hj
                exact ihwf
              · rw [if_neg hj] at hc
                exact hchild j c hc
            · intro j c hc
              rw [hsgset j] at hc
              by_cases hj : j = j0
              · rw [if_pos hj] at hc
                obtain rfl := (Option.some.inj hc).symm
                intro he
                have := (ihmem item).2 (Or.inl rfl)
                rw [he] at this
                simp at this
              · rw [if_neg hj] at hc
                exact hcne j c hc
            · intro j v c hv hc
              rw [hsgset j] at hc
              by_cases hj : j = j0
              · rw [if_pos hj] at hc
                obtain rfl := (Option.some.inj hc).symm
                subst hj
                intro hmem
                obtain ⟨y, hy, hky⟩ := List.mem_map.1 hmem
                rcases (ihmem y).1 hy with rfl | ⟨hm, hk⟩
                · -- v's key equals item's key, but v is the inline value at j0
                  rw [hsg0] at hv
                  obtain rfl := (Option.some.inj hv).symm
                  exact hmatch hky.symm
                · exact hdisj j0 v _ hv hsgp (hky ▸ List.mem_map_of_mem keyf hm)
              · rw [if_neg hj] at hc
                exact hdisj j v c hv hc
          · intro x
            rw [mem_toListH_mk, mem_toListH_mk]
            constructor
            · rintro (h | ⟨c, hcm, hxc⟩)
              · refine Or.inr ⟨Or.inl h, ?_⟩
                obtain ⟨j, hj⟩ := (mem_iff_slotGet hbv hlv x).1 h
                intro hkx
                have hsl := (hslot j x hj).2
                rw [hkx] at hsl
                rw [← hsl] at hj
                rw [hsg0] at hj
                obtain rfl := (Option.some.inj hj).symm
                exact hmatch hkx
              · -- membership in the updated ptr list
                obtain ⟨n, hn⟩ := List.mem_iff_getElem?.1 hcm
                rw [List.getElem?_set] at hn
                by_cases hni : cnt bp j0 = n
                · rw [if_pos hni, if_pos (hni ▸ hiplt)] at hn
                  obtain rfl := Option.some.inj hn
                  rcases (ihmem x).1 hxc with rfl | ⟨hm, hk⟩
                  · exact Or.inl rfl
                  · exact Or.inr ⟨Or.inr ⟨_, ps.getElem_mem hiplt, hm⟩, hk⟩
                · rw [if_neg hni] at hn
                  obtain ⟨hnlt, hxn⟩ := List.getElem?_eq_some_iff.1 hn
                  refine Or.inr ⟨Or.inr ⟨c, List.mem_iff_getElem?.2 ⟨n, hn⟩, hxc⟩, ?_⟩
                  obtain ⟨j1, hb1, hc1, hs1⟩ := slotGet_getElem hbp hlp hnlt
                  rw [hxn] at hs1
                  have hsl := toListH_child_slot (hchild j1 c hs1) x hxc
                  intro hkx
                  rw [hkx] at hsl
                  have : j1 = j0 := by rw [← hsl]
                  subst this
                  exact hni (by rw [← hc1])
            · rintro (rfl | ⟨hm | ⟨c, hcm, hxc⟩, hk⟩)
              · refine Or.inr ⟨_, ?_, (ihmem _).2 (Or.inl rfl)⟩
                refine List.mem_iff_getElem?.2 ⟨cnt bp j0, ?_⟩
                rw [List.getElem?_set]
                simp [hiplt]
              · exact Or.inl hm
              · obtain ⟨n, hn⟩ := List.mem_iff_getElem?.1 hcm
                obtain ⟨hnlt, hxn⟩ := List.getElem?_eq_some_iff.1 hn
                by_cases hni : n = cnt bp j0
                · subst hni
                  have hxc' : x ∈ toListH (ps.get ⟨cnt bp j0, hiplt⟩) := by
                    rw [show (ps.get ⟨cnt bp j0, hiplt⟩) = c from hxn]
                    exact hxc
                  refine Or.inr ⟨_, ?_, (ihmem x).2 (Or.inr ⟨hxc', hk⟩)⟩
                  refine List.mem_iff_getElem?.2 ⟨cnt bp j0, ?_⟩
                  rw [List.getElem?_set]
                  simp [hiplt]
                · refine Or.inr ⟨c, ?_, hxc⟩
                  refine List.mem_iff_getElem?.2 ⟨n, ?_⟩
                  rw [List.getElem?_set, if_neg (fun he => hni he.symm)]
                  exact hn
        · -- no child: push the new item into a fresh child node
          rw [if_neg hbp0]
          push_neg at hbp0
          have htbp : bp.testBit j0 = false := by
            rw [hbit] at hbp0
            by_contra hb
            rw [Bool.not_eq_false] at hb
            exact (and_two_pow_ne_zero_iff.2 hb) hbp0
          obtain ⟨hcwf, hctl⟩ := @withH_empty _ _ _ keyf hashf (shift + 5)
            (fun h => P h ∧ slotOf h shift = j0) item gen gen ⟨hP, rfl⟩
          have hcple : cnt bp j0 ≤ ps.length := by
            rw [hlp, onesCount32_eq_cnt]
            exact cnt_mono bp (by omega)
          rw [hip, hbit]
          have hsgp := fun i => slotGet_insert
            (x := withH keyf gen item (keyf item) (hashf (keyf item)) (shift + 5)
              (.mk gen 0 0 [] [])) hj0 htbp hbp hlp i
          have hplen : (ps.insertIdx (cnt bp j0)
              (withH keyf gen item (keyf item) (hashf (keyf item)) (shift + 5)
                (.mk gen 0 0 [] []))).length = onesCount32 (bp ||| 2 ^ j0) := by
            rw [List.length_insertIdx _ _ hcple, hlp, onesCount32_or hj0 htbp]
          constructor
          · refine Wf.node hs hbv (or_two_pow_lt hj0 hbp) hlv hplen hslot ?_ ?_ ?_ ?_
            · intro j hb
              rw [Nat.testBit_or, Nat.testBit_two_pow] at hb
              rcases Bool.or_eq_true_iff.1 hb with h | h
              · exact hpv j h
              · rw [decide_eq_true_eq] at h
                rw [← h]
                exact htb
            · intro j c hc
              rw [hsgp j] at hc
              by_cases hj : j = j0
              · rw [if_pos hj] at hc
                obtain rfl := (Option.some.inj hc).symm
                subst hj
                exact hcwf
              · rw [if_neg hj] at hc
                exact hchild j c hc
            · intro j c hc
              rw [hsgp j] at hc
              by_cases hj : j = j0
              · rw [if_pos hj] at hc
                obtain rfl := (Option.some.inj hc).symm
                rw [hctl]
                simp
              · rw [if_neg hj] at hc
                exact hcne j c hc
            · intro j v c hv hc
              rw [hsgp j] at hc
              by_cases hj : j = j0
              · rw [if_pos hj] at hc
                obtain rfl := (Option.some.inj hc).symm
                subst hj
                rw [hctl]
                rw [hsg0] at hv
                obtain rfl := (Option.some.inj hv).symm
                intro hmem
                simp at hmem
                exact hmatch hmem
              · rw [if_neg hj] at hc
                exact hdisj j v c hv hc
          · intro x
            rw [mem_toListH_mk, mem_toListH_mk]
            constructor
            · rintro (h | ⟨c, hcm, hxc⟩)
              · refine Or.inr ⟨Or.inl h, ?_⟩
                obtain ⟨j, hj⟩ := (mem_iff_slotGet hbv hlv x).1 h
                intro hkx
                have hsl := (hslot j x hj).2
                rw [hkx] at hsl
                rw [← hsl] at hj
                rw [hsg0] at hj
                obtain rfl := (Option.some.inj hj).symm
                exact hmatch hkx
              · rw [List.mem_insertIdx hcple] at hcm
                rcases hcm with rfl | hcm
                · rw [hctl] at hxc
                  simp at hxc
                  exact Or.inl hxc
                · refine Or.inr ⟨Or.inr ⟨c, hcm, hxc⟩, ?_⟩
                  obtain ⟨j, hj⟩ := (mem_iff_slotGet hbp hlp c).1 hcm
                  have hsl := toListH_child_slot (hchild j c hj) x hxc
                  intro hkx
                  rw [hkx] at hsl
                  have htbpj : bp.testBit j = true := by
                    unfold slotGet at hj
                    by_contra hb
                    rw [if_neg hb] at hj
                    exact Option.noConfusion hj
                  rw [← hsl, ← hj0def, htbp] at htbpj
                  exact Bool.noConfusion htbpj
            · rintro (rfl | ⟨hm | ⟨c, hcm, hxc⟩, hk⟩)
              · refine Or.inr ⟨_, (List.mem_insertIdx hcple).2 (Or.inl rfl), ?_⟩
                rw [hctl]
                simp
              · exact Or.inl hm
              · exact Or.inr ⟨c, (List.mem_insertIdx hcple).2 (Or.inr hcm), hxc⟩

theorem testBit_log2 {n : Nat} (h : n ≠ 0) : n.testBit (Nat.log2 n) = true := by
  have h1 : 2 ^ Nat.log2 n ≤ n := Nat.log2_self_le h
  have h2 : n < 2 ^ (Nat.log2 n + 1) := Nat.lt_log2_self
  have hpos : 0 < 2 ^ Nat.log2 n := Nat.pos_pow_of_pos _ (by omega)
  have hd1 : 1 ≤ n / 2 ^ Nat.log2 n := by
    rw [Nat.le_div_iff_mul_le hpos]
    omega
  have hd2 : n / 2 ^ Nat.log2 n < 2 := by
    rw [Nat.div_lt_iff_lt_mul hpos]
    rw [Nat.pow_succ] at h2
    omega
  rw [Nat.testBit_to_div_mod]
  have : n / 2 ^ Nat.log2 n = 1 := by omega
  rw [this]
  decide

theorem log2_lt_32 {n : Nat} (h0 : n ≠ 0) (h32 : n < 2 ^ 32) :
    Nat.log2 n < 32 := (Nat.log2_lt h0).2 h32

theorem onesCount32_pos {n : Nat} (h0 : n ≠ 0) (h32 : n < 2 ^ 32) :
    0 < onesCount32 n := by
  have hb := testBit_log2 h0
  have hlt := log2_lt_32 h0 h32
  have h1 : cnt n (Nat.log2 n) < cnt n 32 := cnt_lt_of_testBit n hlt hb
  rw [onesCount32_eq_cnt]
  omega

theorem cnt_log2 {n : Nat} (h0 : n ≠ 0) (h32 : n < 2 ^ 32) :
    cnt n (Nat.log2 n) = onesCount32 n - 1 := by
  have hlt := log2_lt_32 h0 h32
  have hhigh : ∀ x, Nat.log2 n + 1 ≤ x → n.testBit x = false := by
    intro x hx
    apply Nat.testBit_lt_two_pow
    calc n < 2 ^ (Nat.log2 n + 1) := Nat.lt_log2_self
    _ ≤ 2 ^ x := Nat.pow_le_pow_right (by omega) hx
  have he : cnt n 32 = cnt n (Nat.log2 n + 1) := cnt_eq_of_high_false (by omega) hhigh
  have hs : cnt n (Nat.log2 n + 1) = cnt n (Nat.log2 n) + 1 := by
    rw [cnt_succ, testBit_log2 h0]
    simp
  rw [onesCount32_eq_cnt]
  omega

/-- Membership through `dropLast` for lists with no duplicate items. -/
theorem mem_dropLast_of_nodup {β : Type} {l : List β} (hnd : l.Nodup) {it : β}
    (hl : l.getLast? = some it) (x : β) :
    x ∈ l.dropLast ↔ x ∈ l ∧ x ≠ it := by
  have hne : l ≠ [] := by
    intro he
    rw [he] at hl
    exact Option.noConfusion hl
  have hit : l.getLast hne = it := by
    have := List.getLast?_eq_getLast l hne
    rw [hl] at this
    exact (Option.some.inj this).symm
  have hsplit : l.dropLast ++ [l.getLast hne] = l := List.dropLast_append_getLast hne
  constructor
  · intro hx
    constructor
    · exact List.mem_of_mem_dropLast hx
    · intro he
      rw [← hsplit] at hnd
      rw [List.nodup_append] at hnd
      exact hnd.2.2 hx (by rw [he, hit]; simp)
  · rintro ⟨hx, hxne⟩
    rw [← hsplit] at hx
    rcases List.mem_append.1 hx with h | h
    · exact h
    · simp [hit] at h
      exact absurd h hxne

theorem slotGet_getLast {β : Type} {bm : Nat} {l : List β} (h0 : bm ≠ 0)
    (hbm : bm < 2 ^ 32) (hlen : l.length = onesCount32 bm) :
    slotGet bm l (Nat.log2 bm) = l.getLast? := by
  rw [slotGet_eq_getElem? l (testBit_log2 h0), List.getLast?_eq_getElem?, hlen,
    cnt_log2 h0 hbm]

theorem pullUpH_eq_vals {gen g bv : Nat} {vs : List α} {ps : List (HNode α)}
    {item : α} (hv : vs.getLast? = some item) :
    pullUpH gen (.mk g bv 0 vs ps) =
      if vs.length = 1 then ((none : Option (HNode α)), some item)
      else (some (.mk gen (if bv ≠ 0 then clearHighestOneBit bv else bv) 0
        vs.dropLast ps), some item) := by
  rw [pullUpH, if_neg (by simp), hv]

theorem pullUpH_eq_child_some {gen g bv bp : Nat} {vs : List α}
    {ps : List (HNode α)} (hbp : bp ≠ 0) {c child : HNode α}
    (hc : ps.getLast? = some c) (h1 : (pullUpH gen c).1 = some child) :
    pullUpH gen (.mk g bv bp vs ps) =
      (some (.mk gen bv bp vs (ps.set (ps.length - 1) child)),
        (pullUpH gen c).2) := by
  rw [pullUpH, if_pos hbp]
  split
  · rename_i heq
    rw [hc] at heq
    exact Option.noConfusion heq
  · rename_i c2 heq
    rw [hc] at heq
    injection heq with heq
    subst heq
    show (match (pullUpH gen c).1 with
      | some child => (some (HNode.mk gen bv bp vs (ps.set (ps.length - 1) child)),
          (pullUpH gen c).2)
      | none => (some (HNode.mk gen bv (clearHighestOneBit bp) vs ps.dropLast),
          (pullUpH gen c).2)) = _
    rw [h1]

theorem pullUpH_eq_child_none {gen g bv bp : Nat} {vs : List α}
    {ps : List (HNode α)} (hbp : bp ≠ 0) {c : HNode α}
    (hc : ps.getLast? = some c) (h1 : (pullUpH gen c).1 = none) :
    pullUpH gen (.mk g bv bp vs ps) =
      (some (.mk gen bv (clearHighestOneBit bp) vs ps.dropLast),
        (pullUpH gen c).2) := by
  rw [pullUpH, if_pos hbp]
  split
  · rename_i heq
    rw [hc] at heq
    exact Option.noConfusion heq
  · rename_i c2 heq
    rw [hc] at heq
    injection heq with heq
    subst heq
    show (match (pullUpH gen c).1 with
      | some child => (some (HNode.mk gen bv bp vs (ps.set (ps.length - 1) child)),
          (pullUpH gen c).2)
      | none => (some (HNode.mk gen bv (clearHighestOneBit bp) vs ps.dropLast),
          (pullUpH gen c).2)) = _
    rw [h1]

/-- Go `pullUp` extracts one item of a non-empty well-formed subtree: the second
component is an item of the subtree, and the first component is either a
well-formed non-empty subtree holding exactly the remaining items, or `none`
when the subtree held only that item. -/
theorem pullUpH_spec {shift : Nat} {P : Nat → Prop} {nd : HNode α} (gen : Nat)
    (hwf : Wf keyf hashf shift P nd) :
    toListH nd ≠ [] →
    ∃ it, (pullUpH gen nd).2 = some it ∧ it ∈ toListH nd ∧
      ((∃ r, (pullUpH gen nd).1 = some r ∧ Wf keyf hashf shift P r ∧
          toListH r ≠ [] ∧ (∀ x, x ∈ toListH r ↔ x ∈ toListH nd ∧ x ≠ it)) ∨
       ((pullUpH gen nd).1 = none ∧ ∀ x, x ∈ toListH nd ↔ x = it)) := by
  induction hwf with
  | over h32 hne hP hnd =>
    rename_i shift P g vs
    intro hnel
    have htl : toListH (HNode.mk g 0 0 vs ([] : List (HNode α))) = vs := by
      rw [toListH_mk]
      simp
    have hvne : vs ≠ [] := by
      rw [htl] at hnel
      exact hnel
    obtain ⟨item, hlast⟩ : ∃ item, vs.getLast? = some item := by
      cases hvv : vs.getLast?
      · rw [List.getLast?_eq_none_iff] at hvv
        exact absurd hvv hvne
      · exact ⟨_, rfl⟩
    rw [pullUpH_eq_vals hlast]
    by_cases h1 : vs.length = 1
    · rw [if_pos h1]
      obtain ⟨a, ha⟩ := List.length_eq_one.1 h1
      subst ha
      have haitem : a = item := by simpa using hlast
      subst haitem
      refine ⟨a, rfl, by rw [htl]; simp, Or.inr ⟨rfl, ?_⟩⟩
      intro x
      rw [htl]
      simp
    · rw [if_neg h1, if_neg (by simp)]
      have hnodup : vs.Nodup := (List.Nodup.of_map keyf) hnd
      have hmemdl := mem_dropLast_of_nodup hnodup hlast
      have hlpos : 0 < vs.length := List.length_pos.2 hvne
      refine ⟨item, rfl, by rw [htl]; exact List.mem_of_mem_getLast? hlast,
        Or.inl ⟨_, rfl, ?_, ?_, ?_⟩⟩
      · refine Wf.over h32 ?_ ?_ ?_
        · intro h
          have := congrArg List.length h
          rw [List.length_dropLast] at this
          simp at this
          omega
        · intro v hv
          exact hP v (List.mem_of_mem_dropLast hv)
        · exact List.Nodup.sublist ((List.dropLast_sublist vs).map keyf) hnd
      · rw [toListH_mk]
        simp only [List.map_nil, List.join_nil, List.append_nil]
        intro h
        have := congrArg List.length h
        rw [List.length_dropLast] at this
        simp at this
        omega
      · intro x
        rw [toListH_mk]
        simp only [List.map_nil, List.join_nil, List.append_nil]
        rw [htl]
        exact hmemdl x
  | node hs hbv hbp hlv hlp hslot hpv hchild hcne hdisj ihc =>
    rename_i shift P g bv bp vs ps
    intro hnel
    by_cases hbp0 : bp = 0
    · subst hbp0
      have hps : ps = [] :=
        List.eq_nil_of_length_eq_zero (by rw [hlp, onesCount32_zero])
      subst hps
      have htl : toListH (HNode.mk g bv 0 vs ([] : List (HNode α))) = vs := by
        rw [toListH_mk]
        simp
      have hvne : vs ≠ [] := by
        rw [htl] at hnel
        exact hnel
      obtain ⟨item, hlast⟩ : ∃ item, vs.getLast? = some item := by
        cases hvv : vs.getLast?
        · rw [List.getLast?_eq_none_iff] at hvv
          exact absurd hvv hvne
        · exact ⟨_, rfl⟩
      have hbv0 : bv ≠ 0 := by
        intro h
        subst h
        rw [onesCount32_zero] at hlv
        exact hvne (List.eq_nil_of_length_eq_zero hlv)
      rw [pullUpH_eq_vals hlast]
      by_cases h1 : vs.length = 1
      · rw [if_pos h1]
        obtain ⟨a, ha⟩ := List.length_eq_one.1 h1
        subst ha
        have haitem : a = item := by simpa using hlast
        subst haitem
        refine ⟨a, rfl, by rw [htl]; simp, Or.inr ⟨rfl, ?_⟩⟩
        intro x
        rw [htl]
        simp
      · rw [if_neg h1, if_pos hbv0]
        have htb0 : bv.testBit (Nat.log2 bv) = true := testBit_log2 hbv0
        have hj0lt : Nat.log2 bv < 32 := log2_lt_32 hbv0 hbv
        have hch : clearHighestOneBit bv = Nat.ldiff bv (2 ^ Nat.log2 bv) :=
          clearHighestOneBit_eq hbv0 hbv
        have hcnt : cnt bv (Nat.log2 bv) = onesCount32 bv - 1 := cnt_log2 hbv0 hbv
        have hlpos : 0 < vs.length := List.length_pos.2 hvne
        have hdl : vs.dropLast = vs.eraseIdx (cnt bv (Nat.log2 bv)) :=
          List.dropLast_eq_eraseIdx (by rw [hcnt, ← hlv]; omega)
        have hoc : onesCount32 bv = onesCount32 (Nat.ldiff bv (2 ^ Nat.log2 bv)) + 1 :=
          onesCount32_ldiff hj0lt htb0
        have hsg2 := @slotGet_erase _ bv _ vs hj0lt htb0 hbv hlv
        have hnodup : vs.Nodup :=
          (List.Nodup.of_map keyf) (vals_map_nodup hbv hlv hslot)
        have hmemdl := mem_dropLast_of_nodup hnodup hlast
        have hlvd : vs.dropLast.length = onesCount32 (Nat.ldiff bv (2 ^ Nat.log2 bv)) := by
          rw [List.length_dropLast, hlv]
          omega
        refine ⟨item, rfl, by rw [htl]; exact List.mem_of_mem_getLast? hlast,
          Or.inl ⟨_, rfl, ?_, ?_, ?_⟩⟩
        · rw [hch]
          refine Wf.node hs (ldiff_lt hbv) hbp hlvd hlp ?_ ?_ ?_ ?_ ?_
          · intro j v hv
            rw [hdl, hsg2] at hv
            by_cases hje : j = Nat.log2 bv
            · rw [if_pos hje] at hv
              exact Option.noConfusion hv
            · rw [if_neg hje] at hv
              exact hslot j v hv
          · intro j hj
            rw [Nat.zero_testBit] at hj
            exact Bool.noConfusion hj
          · intro j c hc
            unfold slotGet at hc
            rw [Nat.zero_testBit] at hc
            simp at hc
          · intro j c hc
            unfold slotGet at hc
            rw [Nat.zero_testBit] at hc
            simp at hc
          · intro j v c hv hc
            unfold slotGet at hc
            rw [Nat.zero_testBit] at hc
            simp at hc
        · rw [toListH_mk]
          simp only [List.map_nil, List.join_nil, List.append_nil]
          intro h
          have := congrArg List.length h
          rw [List.length_dropLast] at this
          simp at this
          omega
        · intro x
          rw [toListH_mk]
          simp only [List.map_nil, List.join_nil, List.append_nil]
          rw [htl]
          exact hmemdl x
    · have htbp0 : bp.testBit (Nat.log2 bp) = true := testBit_log2 hbp0
      have hj0lt : Nat.log2 bp < 32 := log2_lt_32 hbp0 hbp
      have hpsne : ps ≠ [] := by
        intro h
        have hocp := onesCount32_pos hbp0 hbp
        rw [h] at hlp
        simp at hlp
        omega
      obtain ⟨c, hc⟩ : ∃ c, ps.getLast? = some c := by
        cases hvv : ps.getLast?
        · rw [List.getLast?_eq_none_iff] at hvv
          exact absurd hvv hpsne
        · exact ⟨_, rfl⟩
      have hsg : slotGet bp ps (Nat.log2 bp) = some c := by
        rw [slotGet_getLast hbp0 hbp hlp]
        exact hc
      have hcnt : cnt bp (Nat.log2 bp) = onesCount32 bp - 1 := cnt_log2 hbp0 hbp
      have hlen1 : ps.length - 1 = cnt bp (Nat.log2 bp) := by
        rw [hlp, hcnt]
      have hcwf := hchild (Nat.log2 bp) c hsg
      obtain ⟨it, h2, hitm, hrest⟩ :=
        ihc (Nat.log2 bp) c hsg (hcne (Nat.log2 bp) c hsg)
      have hitslot : slotOf (hashf (keyf it)) shift = Nat.log2 bp :=
        toListH_child_slot hcwf it hitm
      have hit_not_inline : ∀ j v, slotGet bv vs j = some v → v ≠ it := by
        intro j v hv he
        subst he
        have hsl := (hslot j v hv).2
        rw [hitslot] at hsl
        subst hsl
        exact hdisj (Nat.log2 bp) v c hv hsg (List.mem_map_of_mem keyf hitm)
      have hit_not_other : ∀ j c2, j ≠ Nat.log2 bp → slotGet bp ps j = some c2 →
          ∀ x ∈ toListH c2, x ≠ it := by
        intro j c2 hj hc2 x hx he
        subst he
        have hxs := toListH_child_slot (hchild j c2 hc2) x hx
        rw [hitslot] at hxs
        exact hj hxs.symm
      have hvne : vs ≠ [] := by
        have htbv := hpv (Nat.log2 bp) htbp0
        have hcl : cnt bv (Nat.log2 bp) < cnt bv 32 :=
          cnt_lt_of_testBit bv (by omega) htbv
        intro h
        rw [h, onesCount32_eq_cnt] at hlv
        simp at hlv
        omega
      rcases hrest with ⟨child, h1, hcwf2, hcne2, hcmem⟩ | ⟨h1, hallit⟩
      · rw [pullUpH_eq_child_some hbp0 hc h1, hlen1]
        have hsg2 := @slotGet_set _ bp _ ps child
          hj0lt htbp0 hbp hlp
        have hlps : (ps.set (cnt bp (Nat.log2 bp)) child).length = onesCount32 bp := by
          rw [List.length_set]
          exact hlp
        refine ⟨it, h2, (mem_toListH_slots hbv hbp hlv hlp).2
          (Or.inr ⟨Nat.log2 bp, c, hsg, hitm⟩), Or.inl ⟨_, rfl, ?_, ?_, ?_⟩⟩
        · refine Wf.node hs hbv hbp hlv hlps hslot hpv ?_ ?_ ?_
          · intro j c2 hc2
            rw [hsg2] at hc2
            by_cases hje : j = Nat.log2 bp
            · rw [if_pos hje] at hc2
              injection hc2 with hc2
              subst hc2
              rw [hje]
              exact hcwf2
            · rw [if_neg hje] at hc2
              exact hchild j c2 hc2
          · intro j c2 hc2
            rw [hsg2] at hc2
            by_cases hje : j = Nat.log2 bp
            · rw [if_pos hje] at hc2
              injection hc2 with hc2
              subst hc2
              exact hcne2
            · rw [if_neg hje] at hc2
              exact hcne j c2 hc2
          · intro j v c2 hv hc2
            rw [hsg2] at hc2
            by_cases hje : j = Nat.log2 bp
            · rw [if_pos hje] at hc2
              injection hc2 with hc2
              subst hc2
              subst hje
              intro hk
              obtain ⟨x, hx, hkx⟩ := List.mem_map.1 hk
              have hx2 := ((hcmem x).1 hx).1
              exact hdisj (Nat.log2 bp) v c hv hsg
                (hkx ▸ List.mem_map_of_mem keyf hx2)
            · rw [if_neg hje] at hc2
              exact hdisj j v c2 hv hc2
        · rw [toListH_mk]
          intro h
          exact hvne (List.append_eq_nil.1 h).1
        · intro x
          rw [mem_toListH_slots hbv hbp hlv hlps,
            mem_toListH_slots hbv hbp hlv hlp]
          constructor
          · rintro (⟨j, hj⟩ | ⟨j, c2, hc2, hx⟩)
            · exact ⟨Or.inl ⟨j, hj⟩, hit_not_inline j x hj⟩
            · rw [hsg2] at hc2
              by_cases hje : j = Nat.log2 bp
              · rw [if_pos hje] at hc2
                injection hc2 with hc2
                subst hc2
                obtain ⟨hxc, hxne⟩ := (hcmem x).1 hx
                exact ⟨Or.inr ⟨Nat.log2 bp, c, hsg, hxc⟩, hxne⟩
              · rw [if_neg hje] at hc2
                exact ⟨Or.inr ⟨j, c2, hc2, hx⟩, hit_not_other j c2 hje hc2 x hx⟩
          · rintro ⟨(⟨j, hj⟩ | ⟨j, c2, hc2, hx⟩), hxne⟩
            · exact Or.inl ⟨j, hj⟩
            · by_cases hje : j = Nat.log2 bp
              · subst hje
                rw [hsg] at hc2
                injection hc2 with hc2
                rw [← hc2] at hx
                refine Or.inr ⟨Nat.log2 bp, child, ?_, (hcmem x).2 ⟨hx, hxne⟩⟩
                rw [hsg2, if_pos rfl]
              · refine Or.inr ⟨j, c2, ?_, hx⟩
                rw [hsg2, if_neg hje]
                exact hc2
      · rw [pullUpH_eq_child_none hbp0 hc h1]
        have hch : clearHighestOneBit bp = Nat.ldiff bp (2 ^ Nat.log2 bp) :=
          clearHighestOneBit_eq hbp0 hbp
        have hocp := onesCount32_pos hbp0 hbp
        have hdl : ps.dropLast = ps.eraseIdx (cnt bp (Nat.log2 bp)) :=
          List.dropLast_eq_eraseIdx (by rw [hcnt, ← hlp]; rw [hlp]; omega)
        have hsg2 := @slotGet_erase _ bp _ ps hj0lt htbp0 hbp hlp
        have hoc : onesCount32 bp = onesCount32 (Nat.ldiff bp (2 ^ Nat.log2 bp)) + 1 :=
          onesCount32_ldiff hj0lt htbp0
        have hlpd : ps.dropLast.length = onesCount32 (Nat.ldiff bp (2 ^ Nat.log2 bp)) := by
          rw [List.length_dropLast, hlp]
          omega
        refine ⟨it, h2, (mem_toListH_slots hbv hbp hlv hlp).2
          (Or.inr ⟨Nat.log2 bp, c, hsg, hitm⟩), Or.inl ⟨_, rfl, ?_, ?_, ?_⟩⟩
        · rw [hch]
          refine Wf.node hs hbv (ldiff_lt hbp) hlv hlpd hslot ?_ ?_ ?_ ?_
          · intro j hj
            rw [Nat.testBit_ldiff] at hj
            exact hpv j (Bool.and_eq_true_iff.1 hj).1
          · intro j c2 hc2
            rw [hdl, hsg2] at hc2
            by_cases hje : j = Nat.log2 bp
            · rw [if_pos hje] at hc2
              exact Option.noConfusion hc2
            · rw [if_neg hje] at hc2
              exact hchild j c2 hc2
          · intro j c2 hc2
            rw [hdl, hsg2] at hc2
            by_cases hje : j = Nat.log2 bp
            · rw [if_pos hje] at hc2
              exact Option.noConfusion hc2
            · rw [if_neg hje] at hc2
              exact hcne j c2 hc2
          · intro j v c2 hv hc2
            rw [hdl, hsg2] at hc2
            by_cases hje : j = Nat.log2 bp
            · rw [if_pos hje] at hc2
              exact Option.noConfusion hc2
            · rw [if_neg hje] at hc2
              exact hdisj j v c2 hv hc2
        · rw [toListH_mk]
          intro h
          exact hvne (List.append_eq_nil.1 h).1
        · intro x
          rw [hch, mem_toListH_slots hbv (ldiff_lt hbp) hlv hlpd,
            mem_toListH_slots hbv hbp hlv hlp]
          constructor
          · rintro (⟨j, hj⟩ | ⟨j, c2, hc2, hx⟩)
            · exact ⟨Or.inl ⟨j, hj⟩, hit_not_inline j x hj⟩
            · rw [hdl, hsg2] at hc2
              by_cases hje : j = Nat.log2 bp
              · rw [if_pos hje] at hc2
                exact Option.noConfusion hc2
              · rw [if_neg hje] at hc2
                exact ⟨Or.inr ⟨j, c2, hc2, hx⟩, hit_not_other j c2 hje hc2 x hx⟩
          · rintro ⟨(⟨j, hj⟩ | ⟨j, c2, hc2, hx⟩), hxne⟩
            · exact Or.inl ⟨j, hj⟩
            · by_cases hje : j = Nat.log2 bp
              · subst hje
                rw [hsg] at hc2
                injection hc2 with hc2
                rw [← hc2] at hx
                exact absurd ((hallit x).1 hx) hxne
              · refine Or.inr ⟨j, c2, ?_, hx⟩
                rw [hdl, hsg2, if_neg hje]
                exact hc2

theorem toListO_some {nd : HNode α} : toListO (some nd) = toListH nd := rfl

theorem toListO_none : toListO (none : Option (HNode α)) = [] := rfl

/-- An item carrying key `k` can only sit at the hash slot of `k`: inline, or
inside that slot's child. -/
theorem key_slot_cases {shift : Nat} {P : Nat → Prop} {g bv bp : Nat}
    {vs : List α} {ps : List (HNode α)}
    (hbv : bv < 2 ^ 32) (hbp : bp < 2 ^ 32)
    (hlv : vs.length = onesCount32 bv) (hlp : ps.length = onesCount32 bp)
    (hslot : ∀ j v, slotGet bv vs j = some v →
      P (hashf (keyf v)) ∧ slotOf (hashf (keyf v)) shift = j)
    (hchild : ∀ j c, slotGet bp ps j = some c →
      Wf keyf hashf (shift + 5) (fun h => P h ∧ slotOf h shift = j) c)
    (k : κ) (x : α) (hx : x ∈ toListH (.mk g bv bp vs ps)) (hkx : keyf x = k) :
    slotGet bv vs (slotOf (hashf k) shift) = some x ∨
    ∃ c, slotGet bp ps (slotOf (hashf k) shift) = some c ∧ x ∈ toListH c := by
  rcases (mem_toListH_slots hbv hbp hlv hlp).1 hx with ⟨j, hj⟩ | ⟨j, c, hj, hxc⟩
  · have hsl := (hslot j x hj).2
    rw [hkx] at hsl
    rw [← hsl] at hj
    exact Or.inl hj
  · have hsl := toListH_child_slot (hchild j c hj) x hxc
    rw [hkx] at hsl
    rw [← hsl] at hj
    exact Or.inr ⟨c, hj, hxc⟩

/-- The swap-remove used by `without` on overflow nodes: copy the last item
over index `i`, then drop the last slot; with no duplicates this removes
exactly `l[i]`. -/
theorem mem_set_dropLast {β : Type} {l : List β} (hnd : l.Nodup) {i : Nat}
    (hi : i < l.length) {lastv : β} (hlast : l.getLast? = some lastv) (x : β) :
    x ∈ (l.set i lastv).dropLast ↔ x ∈ l ∧ x ≠ l[i] := by
  have hlpos : 0 < l.length := by omega
  have hlastel : l[l.length - 1]? = some lastv := by
    rw [← List.getLast?_eq_getElem?]
    exact hlast
  by_cases hil : i = l.length - 1
  · have hieq : lastv = l[i] := by
      subst hil
      rw [List.getElem?_eq_getElem hi] at hlastel
      exact (Option.some.inj hlastel).symm
    rw [hieq, set_getElem_self]
    rw [mem_dropLast_of_nodup hnd hlast x, hieq]
  · have hslen : (l.set i lastv).length = l.length := List.length_set l i lastv
    constructor
    · intro hx
      obtain ⟨n, hn⟩ := List.mem_iff_getElem?.1 hx
      rw [List.getElem?_dropLast, hslen] at hn
      by_cases hnl : n < l.length - 1
      · rw [if_pos hnl] at hn
        rw [List.getElem?_set] at hn
        by_cases hni : i = n
        · rw [if_pos hni, if_pos (hni ▸ hi)] at hn
          have hxl : x = lastv := (Option.some.inj hn).symm
          subst hxl
          have hxmem : x ∈ l := by
            have := List.getElem?_eq_some_iff.1 hlastel
            exact this.2 ▸ l.getElem_mem this.1
          refine ⟨hxmem, ?_⟩
          intro he
          obtain ⟨hl1, hl2⟩ := List.getElem?_eq_some_iff.1 hlastel
          have hee : l[i] = l[l.length - 1] := by rw [hl2, ← he]
          rw [hnd.getElem_inj_iff] at hee
          omega
        · rw [if_neg hni] at hn
          obtain ⟨hnlt, hxn⟩ := List.getElem?_eq_some_iff.1 hn
          refine ⟨hxn ▸ l.getElem_mem hnlt, ?_⟩
          rw [← hxn]
          intro he
          rw [hnd.getElem_inj_iff] at he
          exact hni he.symm
      · rw [if_neg hnl] at hn
        exact Option.noConfusion hn
    · rintro ⟨hx, hxne⟩
      obtain ⟨n, hn⟩ := List.mem_iff_getElem?.1 hx
      obtain ⟨hnlt, hxn⟩ := List.getElem?_eq_some_iff.1 hn
      have hni : n ≠ i := by
        intro he
        subst he
        exact hxne hxn.symm
      rw [List.mem_iff_getElem?]
      by_cases hnl : n < l.length - 1
      · refine ⟨n, ?_⟩
        rw [List.getElem?_dropLast, hslen, if_pos hnl, List.getElem?_set,
          if_neg (fun h => hni h.symm)]
        exact hn
      · have hn1 : n = l.length - 1 := by omega
        refine ⟨i, ?_⟩
        rw [List.getElem?_dropLast, hslen, if_pos (by omega), List.getElem?_set,
          if_pos rfl, if_pos hi]
        subst hn1
        rw [List.getElem?_eq_getElem hnlt] at hlastel
        rw [← hxn, (Option.some.inj hlastel)]

/-- Keys stay pairwise distinct through the swap-remove of `without` on
overflow nodes. -/
theorem map_set_dropLast_nodup {β γ : Type} {f : β → γ} {l : List β}
    (hnd : (l.map f).Nodup) {i : Nat} (hi : i < l.length) {lastv : β}
    (hlast : l.getLast? = some lastv) :
    (((l.set i lastv).dropLast).map f).Nodup := by
  have hfne : ∀ a b (ha : a < l.length) (hb : b < l.length), a ≠ b →
      f (l.get ⟨a, ha⟩) ≠ f (l.get ⟨b, hb⟩) := by
    have hp := List.pairwise_iff_getElem.1 hnd
    intro a b ha hb hab
    rcases Nat.lt_or_ge a b with h | h
    · have := hp a b (by simpa using ha) (by simpa using hb) h
      simpa using this
    · have hba : b < a := by omega
      have := hp b a (by simpa using hb) (by simpa using ha) hba
      intro he
      exact this (by simpa using he.symm)
  obtain ⟨hl1, hl2⟩ := List.getElem?_eq_some_iff.1
    (by rw [← List.getLast?_eq_getElem?]; exact hlast)
  show List.Pairwise _ _
  rw [List.pairwise_iff_getElem]
  intro n m hn hm hnm
  have hsl : (l.set i lastv).length = l.length := List.length_set l i lastv
  have hn2 : n < l.length - 1 := by
    simpa [List.length_dropLast, hsl] using hn
  have hm2 : m < l.length - 1 := by
    simpa [List.length_dropLast, hsl] using hm
  rw [List.getElem_map, List.getElem_map, List.getElem_dropLast,
    List.getElem_dropLast, List.getElem_set, List.getElem_set]
  have he : f lastv = f (l.get ⟨l.length - 1, hl1⟩) := congrArg f hl2.symm
  by_cases hni : i = n
  · rw [if_pos hni, if_neg (show ¬i = m by omega), he]
    exact hfne _ _ hl1 (by omega) (by omega)
  · rw [if_neg hni]
    by_cases hmi : i = m
    · rw [if_pos hmi, he]
      exact hfne _ _ (by omega) hl1 (by omega)
    · rw [if_neg hmi]
      exact hfne _ _ (by omega) (by omega) (by omega)

/-- Go `without` removes the (unique) item keyed `k`: the boolean reports whether
a removal happened, the resulting optional node holds exactly the other items,
stays well-formed, and only empties to `nil` when nothing remains. -/
theorem withoutH_spec {shift : Nat} {P : Nat → Prop} {nd : HNode α} (gen : Nat)
    (hwf : Wf keyf hashf shift P nd) (k : κ) :
    ((withoutH keyf gen k (hashf k) shift nd).2 = true ↔
      ∃ v ∈ toListH nd, keyf v = k) ∧
    (∀ x, x ∈ toListO (withoutH keyf gen k (hashf k) shift nd).1 ↔
      x ∈ toListH nd ∧ keyf x ≠ k) ∧
    (∀ r1, (withoutH keyf gen k (hashf k) shift nd).1 = some r1 →
      Wf keyf hashf shift P r1 ∧ (toListH nd ≠ [] → toListH r1 ≠ [])) := by
  induction hwf with
  | over h32 hne hP hnd =>
    rename_i shift P g vs
    rw [withoutH, if_pos h32]
    have htl : toListH (HNode.mk g 0 0 vs ([] : List (HNode α))) = vs := by
      rw [toListH_mk]
      simp
    cases hf : vs.findIdx? (fun v => decide (keyf v = k)) with
    | none =>
      have habs : ∀ v ∈ vs, keyf v ≠ k := by
        intro v hv he
        rw [List.findIdx?_eq_none_iff] at hf
        have := hf v hv
        simp [he] at this
      refine ⟨?_, ?_, ?_⟩
      · constructor
        · intro h
          exact Bool.noConfusion h
        · rintro ⟨v, hv, hkv⟩
          rw [htl] at hv
          exact absurd hkv (habs v hv)
      · intro x
        rw [toListO_some, toListH_mk, htl]
        simp only [List.map_nil, List.flatten_nil, List.append_nil]
        exact ⟨fun h => ⟨h, habs x h⟩, fun h => h.1⟩
      · intro r1 hr1
        injection hr1 with hr1
        subst hr1
        refine ⟨Wf.over h32 hne hP hnd, fun _ => ?_⟩
        rw [toListH_mk]
        simp only [List.map_nil, List.flatten_nil, List.append_nil]
        exact hne
    | some i =>
      obtain ⟨hilt, hfi⟩ := List.findIdx?_eq_some_iff_findIdx_eq.1 hf
      have hki : keyf vs[i] = k := by
        have := @List.findIdx_getElem _ (fun v => decide (keyf v = k))
          vs (hfi ▸ hilt)
        simpa [hfi] using this
      obtain ⟨lastv, hlast⟩ : ∃ lastv, vs.getLast? = some lastv := by
        cases hvv : vs.getLast?
        · rw [List.getLast?_eq_none_iff] at hvv
          exact absurd hvv hne
        · exact ⟨_, rfl⟩
      rw [hlast]
      have hnodup : vs.Nodup := (List.Nodup.of_map keyf) hnd
      have hmemsd := mem_set_dropLast hnodup hilt hlast
      have hkinj := List.inj_on_of_nodup_map hnd
      have hiffk : ∀ x, x ∈ vs ∧ x ≠ vs[i] ↔ x ∈ vs ∧ keyf x ≠ k := by
        intro x
        constructor
        · rintro ⟨hx, hxne⟩
          refine ⟨hx, fun hkx => hxne ?_⟩
          exact hkinj hx (vs.getElem_mem hilt) (by rw [hkx, hki])
        · rintro ⟨hx, hkx⟩
          exact ⟨hx, fun he => hkx (he ▸ hki)⟩
      have hvim : vs[i] ∈ toListH (HNode.mk g 0 0 vs ([] : List (HNode α))) := by
        rw [htl]
        exact vs.getElem_mem hilt
      dsimp only
      by_cases hlen0 : ((vs.set i lastv).dropLast).length = 0
      · rw [if_pos hlen0]
        have hv1 : vs.length = 1 := by
          rw [List.length_dropLast, List.length_set] at hlen0
          have : 0 < vs.length := by omega
          omega
        refine ⟨⟨fun _ => ⟨vs[i], hvim, hki⟩, fun _ => rfl⟩, ?_, ?_⟩
        · intro x
          rw [toListO_none, htl]
          constructor
          · intro h
            simp at h
          · rintro ⟨hx, hkx⟩
            exfalso
            obtain ⟨a, ha⟩ := List.length_eq_one.1 hv1
            have hi0 : i = 0 := by omega
            subst ha hi0
            simp at hx
            subst hx
            exact hkx hki
        · intro r1 hr1
          exact Option.noConfusion hr1
      · rw [if_neg hlen0]
        refine ⟨⟨fun _ => ⟨vs[i], hvim, hki⟩, fun _ => rfl⟩, ?_, ?_⟩
        · intro x
          rw [toListO_some, toListH_mk, htl]
          simp only [List.map_nil, List.flatten_nil, List.append_nil]
          exact (hmemsd x).trans (hiffk x)
        · intro r1 hr1
          injection hr1 with hr1
          subst hr1
          have hdlne : (vs.set i lastv).dropLast ≠ [] := by
            intro h
            rw [h] at hlen0
            simp at hlen0
          refine ⟨?_, fun _ => ?_⟩
          · refine Wf.over h32 hdlne ?_ ?_
            · intro v hv
              exact hP v ((hmemsd v).1 hv).1
            · exact map_set_dropLast_nodup hnd hilt hlast
          · rw [toListH_mk]
            simp only [List.map_nil, List.flatten_nil, List.append_nil]
            exact hdlne
  | node hs hbv hbp hlv hlp hslot hpv hchild hcne hdisj ihc =>
    rename_i shift P g bv bp vs ps
    rw [withoutH, if_neg (by omega)]
    have hbit : hamtBit (hashf k) shift = 2 ^ slotOf (hashf k) shift :=
      hamtBit_eq _ _
    have hkeyslot := key_slot_cases (g := g) hbv hbp hlv hlp hslot hchild k
    set j0 := slotOf (hashf k) shift with hj0def
    have hj0 : j0 < 32 := slotOf_lt _ _
    rw [hbit]
    dsimp only
    rw [@onesCount32_and_sub_one bv _ (show j0 ≤ 32 by omega),
      @onesCount32_and_sub_one bp _ (show j0 ≤ 32 by omega)]
    have hvals_ne : ∀ j v, j ≠ j0 → slotGet bv vs j = some v → keyf v ≠ k := by
      intro j v hj hv he
      have hsl := (hslot j v hv).2
      rw [he, ← hj0def] at hsl
      exact hj hsl.symm
    have hchild_ne : ∀ j c2, j ≠ j0 → slotGet bp ps j = some c2 →
        ∀ x ∈ toListH c2, keyf x ≠ k := by
      intro j c2 hj hc2 x hx he
      have hsl := toListH_child_slot (hchild j c2 hc2) x hx
      rw [he, ← hj0def] at hsl
      exact hj hsl.symm
    by_cases hcond : bv &&& 2 ^ j0 ≠ 0 ∧
        ((vs[cnt bv j0]?.any fun v => decide (keyf v = k)) = true)
    · rw [if_pos hcond]
      obtain ⟨hne0, hany⟩ := hcond
      have htbv : bv.testBit j0 = true := and_two_pow_ne_zero_iff.1 hne0
      have hivlt : cnt bv j0 < vs.length := by
        rw [hlv, onesCount32_eq_cnt]
        exact cnt_lt_of_testBit bv (by omega) htbv
      obtain ⟨vi, hviel⟩ : ∃ v, vs[cnt bv j0]? = some v :=
        ⟨_, List.getElem?_eq_getElem hivlt⟩
      have hkvi : keyf vi = k := by
        rw [hviel] at hany
        simpa using hany
      have hsgv : slotGet bv vs j0 = some vi := by
        rw [slotGet_eq_getElem? vs htbv]
        exact hviel
      have hvim : vi ∈ toListH (HNode.mk g bv bp vs ps) :=
        (mem_toListH_slots hbv hbp hlv hlp).2 (Or.inl ⟨j0, hsgv⟩)
      by_cases hbpb : bp &&& 2 ^ j0 = 0
      · rw [if_pos hbpb]
        have htbp : bp.testBit j0 = false := by
          cases h : bp.testBit j0
          · rfl
          · exact absurd hbpb (and_two_pow_ne_zero_iff.2 h)
        have hsgpnone : slotGet bp ps j0 = none := by
          unfold slotGet
          rw [htbp]
          simp
        have hsg2 := @slotGet_erase _ bv _ vs hj0 htbv hbv hlv
        by_cases hz : Nat.ldiff bv (2 ^ j0) = 0 ∧ bp = 0
        · rw [if_pos hz]
          obtain ⟨hz1, hz2⟩ := hz
          have hallk : ∀ x ∈ toListH (HNode.mk g bv bp vs ps), keyf x = k := by
            intro x hx
            rcases (mem_toListH_slots hbv hbp hlv hlp).1 hx with
              ⟨j, hj⟩ | ⟨j, c, hc, _⟩
            · have htbj : bv.testBit j = true := by
                unfold slotGet at hj
                by_contra hb
                rw [if_neg hb] at hj
                exact Option.noConfusion hj
              have hjj0 : j = j0 := by
                by_contra hne
                have hldm : (Nat.ldiff bv (2 ^ j0)).testBit j = true := by
                  rw [Nat.testBit_ldiff, htbj, Nat.testBit_two_pow]
                  simp
                  omega
                rw [hz1, Nat.zero_testBit] at hldm
                exact Bool.noConfusion hldm
              subst hjj0
              rw [hsgv] at hj
              exact (Option.some.inj hj) ▸ hkvi
            · rw [hz2] at hc
              unfold slotGet at hc
              rw [Nat.zero_testBit] at hc
              simp at hc
          refine ⟨⟨fun _ => ⟨_, hvim, hkvi⟩, fun _ => rfl⟩, ?_, ?_⟩
          · intro x
            rw [toListO_none]
            constructor
            · intro h
              simp at h
            · rintro ⟨hx, hkx⟩
              exact absurd (hallk x hx) hkx
          · intro r1 hr1
            exact Option.noConfusion hr1
        · rw [if_neg hz]
          have hoc := onesCount32_ldiff hj0 htbv
          have hlv2 : (vs.eraseIdx (cnt bv j0)).length =
              onesCount32 (Nat.ldiff bv (2 ^ j0)) := by
            rw [List.length_eraseIdx, if_pos hivlt, hlv]
            omega
          refine ⟨⟨fun _ => ⟨_, hvim, hkvi⟩, fun _ => rfl⟩, ?_, ?_⟩
          · intro x
            rw [toListO_some, mem_toListH_slots (ldiff_lt hbv) hbp hlv2 hlp,
              mem_toListH_slots hbv hbp hlv hlp]
            constructor
            · rintro (⟨j, hj⟩ | ⟨j, c2, hc2, hx⟩)
              · rw [hsg2] at hj
                by_cases hje : j = j0
                · rw [if_pos hje] at hj
                  exact Option.noConfusion hj
                · rw [if_neg hje] at hj
                  exact ⟨Or.inl ⟨j, hj⟩, hvals_ne j x hje hj⟩
              · have hjne : j ≠ j0 := by
                  intro he
                  rw [he, hsgpnone] at hc2
                  exact Option.noConfusion hc2
                exact ⟨Or.inr ⟨j, c2, hc2, hx⟩, hchild_ne j c2 hjne hc2 x hx⟩
            · rintro ⟨(⟨j, hj⟩ | ⟨j, c2, hc2, hx⟩), hkx⟩
              · by_cases hje : j = j0
                · subst hje
                  rw [hsgv] at hj
                  exact absurd ((Option.some.inj hj) ▸ hkvi) hkx
                · refine Or.inl ⟨j, ?_⟩
                  rw [hsg2, if_neg hje]
                  exact hj
              · exact Or.inr ⟨j, c2, hc2, hx⟩
          · intro r1 hr1
            injection hr1 with hr1
            subst hr1
            refine ⟨?_, fun _ => ?_⟩
            · refine Wf.node hs (ldiff_lt hbv) hbp hlv2 hlp ?_ ?_ hchild hcne ?_
              · intro j v hv
                rw [hsg2] at hv
                by_cases hje : j = j0
                · rw [if_pos hje] at hv
                  exact Option.noConfusion hv
                · rw [if_neg hje] at hv
                  exact hslot j v hv
              · intro j hj
                have htbvj := hpv j hj
                have hjne : j ≠ j0 := by
                  intro he
                  rw [he, htbp] at hj
                  exact Bool.noConfusion hj
                rw [Nat.testBit_ldiff, htbvj, Nat.testBit_two_pow]
                simp
                omega
              · intro j v c2 hv hc2
                rw [hsg2] at hv
                by_cases hje : j = j0
                · rw [if_pos hje] at hv
                  exact Option.noConfusion hv
                · rw [if_neg hje] at hv
                  exact hdisj j v c2 hv hc2
            · push_neg at hz
              by_cases hbv2 : Nat.ldiff bv (2 ^ j0) = 0
              · have hbp2 := hz hbv2
                have htbplog : bp.testBit (Nat.log2 bp) = true := testBit_log2 hbp2
                have hiplt2 : cnt bp (Nat.log2 bp) < ps.length := by
                  rw [hlp, onesCount32_eq_cnt]
                  exact cnt_lt_of_testBit bp (log2_lt_32 hbp2 hbp) htbplog
                obtain ⟨c2, hc2el⟩ : ∃ c2, ps[cnt bp (Nat.log2 bp)]? = some c2 :=
                  ⟨_, List.getElem?_eq_getElem hiplt2⟩
                have hsgp2 : slotGet bp ps (Nat.log2 bp) = some c2 := by
                  rw [slotGet_eq_getElem? ps htbplog]
                  exact hc2el
                obtain ⟨y, hy⟩ := List.exists_mem_of_ne_nil _ (hcne _ _ hsgp2)
                exact List.ne_nil_of_mem
                  ((mem_toListH_slots (ldiff_lt hbv) hbp hlv2 hlp).2
                    (Or.inr ⟨_, _, hsgp2, hy⟩))
              · rw [toListH_mk]
                intro he
                have h0 := (List.append_eq_nil.1 he).1
                have hpos := onesCount32_pos hbv2 (ldiff_lt hbv)
                rw [h0] at hlv2
                simp at hlv2
                omega
      · rw [if_neg hbpb]
        have htbp : bp.testBit j0 = true := and_two_pow_ne_zero_iff.1 hbpb
        have hiplt : cnt bp j0 < ps.length := by
          rw [hlp, onesCount32_eq_cnt]
          exact cnt_lt_of_testBit bp (by omega) htbp
        obtain ⟨c, hcel⟩ : ∃ c, ps[cnt bp j0]? = some c :=
          ⟨_, List.getElem?_eq_getElem hiplt⟩
        have hsgp : slotGet bp ps j0 = some c := by
          rw [slotGet_eq_getElem? ps htbp]
          exact hcel
        rw [hcel]
        dsimp only
        have hcw := hchild j0 c hsgp
        obtain ⟨it, h2, hitm, hrest⟩ := pullUpH_spec gen hcw (hcne j0 c hsgp)
        rw [h2]
        dsimp only
        have hitP := toListH_pred hcw it hitm
        have hnok_c : ∀ x ∈ toListH c, keyf x ≠ k := by
          intro x hx he
          apply hdisj j0 vi c hsgv hsgp
          rw [hkvi, ← he]
          exact List.mem_map_of_mem keyf hx
        have hkit := hnok_c it hitm
        have hcinj := List.inj_on_of_nodup_map (toListH_keys_nodup hcw)
        have hlv3 : (vs.set (cnt bv j0) it).length = onesCount32 bv := by
          rw [List.length_set]
          exact hlv
        have hsgv2 := @slotGet_set _ bv _ vs it hj0 htbv hbv hlv
        have hvsetne : ∀ bv2 bp2 ps2, toListH (HNode.mk gen bv2 bp2
            (vs.set (cnt bv j0) it) ps2) ≠ [] := by
          intro bv2 bp2 ps2
          rw [toListH_mk]
          intro he
          have h0 := (List.append_eq_nil.1 he).1
          have hl0 := congrArg List.length h0
          rw [List.length_set] at hl0
          simp only [List.length_nil] at hl0
          omega
        rcases hrest with ⟨child, h1, hcwf2, hcne2, hcmem⟩ | ⟨h1, hallit⟩
        · rw [h1]
          dsimp only
          have hsgp3 := @slotGet_set _ bp _ ps child
            hj0 htbp hbp hlp
          have hlp3 : (ps.set (cnt bp j0) child).length = onesCount32 bp := by
            rw [List.length_set]
            exact hlp
          refine ⟨⟨fun _ => ⟨_, hvim, hkvi⟩, fun _ => rfl⟩, ?_, ?_⟩
          · intro x
            rw [toListO_some, mem_toListH_slots hbv hbp hlv3 hlp3,
              mem_toListH_slots hbv hbp hlv hlp]
            constructor
            · rintro (⟨j, hj⟩ | ⟨j, c2, hc2, hx⟩)
              · rw [hsgv2] at hj
                by_cases hje : j = j0
                · rw [if_pos hje] at hj
                  have hxit : x = it := (Option.some.inj hj).symm
                  subst hxit
                  exact ⟨Or.inr ⟨j0, c, hsgp, hitm⟩, hkit⟩
                · rw [if_neg hje] at hj
                  exact ⟨Or.inl ⟨j, hj⟩, hvals_ne j x hje hj⟩
              · rw [hsgp3] at hc2
                by_cases hje : j = j0
                · rw [if_pos hje] at hc2
                  have hc2e : c2 = child := (Option.some.inj hc2).symm
                  subst hc2e
                  obtain ⟨hxc, _⟩ := (hcmem x).1 hx
                  exact ⟨Or.inr ⟨j0, c, hsgp, hxc⟩, hnok_c x hxc⟩
                · rw [if_neg hje] at hc2
                  exact ⟨Or.inr ⟨j, c2, hc2, hx⟩, hchild_ne j c2 hje hc2 x hx⟩
            · rintro ⟨(⟨j, hj⟩ | ⟨j, c2, hc2, hx⟩), hkx⟩
              · by_cases hje : j = j0
                · subst hje
                  rw [hsgv] at hj
                  exact absurd ((Option.some.inj hj) ▸ hkvi) hkx
                · refine Or.inl ⟨j, ?_⟩
                  rw [hsgv2, if_neg hje]
                  exact hj
              · by_cases hje : j = j0
                · subst hje
                  rw [hsgp] at hc2
                  have hc2e : c2 = c := (Option.some.inj hc2).symm
                  subst hc2e
                  by_cases hxit : x = it
                  · refine Or.inl ⟨j0, ?_⟩
                    rw [hsgv2, if_pos rfl, hxit]
                  · refine Or.inr ⟨j0, child, ?_, (hcmem x).2 ⟨hx, hxit⟩⟩
                    rw [hsgp3, if_pos rfl]
                · refine Or.inr ⟨j, c2, ?_, hx⟩
                  rw [hsgp3, if_neg hje]
                  exact hc2
          · intro r1 hr1
            injection hr1 with hr1
            subst hr1
            refine ⟨?_, fun _ => hvsetne _ _ _⟩
            refine Wf.node hs hbv hbp hlv3 hlp3 ?_ hpv ?_ ?_ ?_
            · intro j v hv
              rw [hsgv2] at hv
              by_cases hje : j = j0
              · rw [if_pos hje] at hv
                have hvit : v = it := (Option.some.inj hv).symm
                subst hvit hje
                exact hitP
              · rw [if_neg hje] at hv
                exact hslot j v hv
            · intro j c2 hc2
              rw [hsgp3] at hc2
              by_cases hje : j = j0
              · rw [if_pos hje] at hc2
                have hc2e : c2 = child := (Option.some.inj hc2).symm
                subst hc2e
                rw [hje]
                exact hcwf2
              · rw [if_neg hje] at hc2
                exact hchild j c2 hc2
            · intro j c2 hc2
              rw [hsgp3] at hc2
              by_cases hje : j = j0
              · rw [if_pos hje] at hc2
                have hc2e : c2 = child := (Option.some.inj hc2).symm
                subst hc2e
                exact hcne2
              · rw [if_neg hje] at hc2
                exact hcne j c2 hc2
            · intro j v c2 hv hc2
              rw [hsgv2] at hv
              rw [hsgp3] at hc2
              by_cases hje : j = j0
              · rw [if_pos hje] at hv hc2
                have hvit : v = it := (Option.some.inj hv).symm
                have hc2e : c2 = child := (Option.some.inj hc2).symm
                subst hvit hc2e
                intro hk
                obtain ⟨x, hx, hkx⟩ := List.mem_map.1 hk
                obtain ⟨hxc, hxne⟩ := (hcmem x).1 hx
                exact hxne (hcinj hxc hitm hkx)
              · rw [if_neg hje] at hv hc2
                exact hdisj j v c2 hv hc2
        · rw [h1]
          dsimp only
          have hsgp3 := @slotGet_erase _ bp _ ps hj0 htbp hbp hlp
          have hocp := onesCount32_ldiff hj0 htbp
          have hlp3 : (ps.eraseIdx (cnt bp j0)).length =
              onesCount32 (Nat.ldiff bp (2 ^ j0)) := by
            rw [List.length_eraseIdx, if_pos hiplt, hlp]
            omega
          refine ⟨⟨fun _ => ⟨_, hvim, hkvi⟩, fun _ => rfl⟩, ?_, ?_⟩
          · intro x
            rw [toListO_some, mem_toListH_slots hbv (ldiff_lt hbp) hlv3 hlp3,
              mem_toListH_slots hbv hbp hlv hlp]
            constructor
            · rintro (⟨j, hj⟩ | ⟨j, c2, hc2, hx⟩)
              · rw [hsgv2] at hj
                by_cases hje : j = j0
                · rw [if_pos hje] at hj
                  have hxit : x = it := (Option.some.inj hj).symm
                  subst hxit
                  exact ⟨Or.inr ⟨j0, c, hsgp, hitm⟩, hkit⟩
                · rw [if_neg hje] at hj
                  exact ⟨Or.inl ⟨j, hj⟩, hvals_ne j x hje hj⟩
              · rw [hsgp3] at hc2
                by_cases hje : j = j0
                · rw [if_pos hje] at hc2
                  exact Option.noConfusion hc2
                · rw [if_neg hje] at hc2
                  exact ⟨Or.inr ⟨j, c2, hc2, hx⟩, hchild_ne j c2 hje hc2 x hx⟩
            · rintro ⟨(⟨j, hj⟩ | ⟨j, c2, hc2, hx⟩), hkx⟩
              · by_cases hje : j = j0
                · subst hje
                  rw [hsgv] at hj
                  exact absurd ((Option.some.inj hj) ▸ hkvi) hkx
                · refine Or.inl ⟨j, ?_⟩
                  rw [hsgv2, if_neg hje]
                  exact hj
              · by_cases hje : j = j0
                · subst hje
                  rw [hsgp] at hc2
                  have hc2e : c2 = c := (Option.some.inj hc2).symm
                  subst hc2e
                  have hxit := (hallit x).1 hx
                  refine Or.inl ⟨j0, ?_⟩
                  rw [hsgv2, if_pos rfl, hxit]
                · refine Or.inr ⟨j, c2, ?_, hx⟩
                  rw [hsgp3, if_neg hje]
                  exact hc2
          · intro r1 hr1
            injection hr1 with hr1
            subst hr1
            refine ⟨?_, fun _ => hvsetne _ _ _⟩
            refine Wf.node hs hbv (ldiff_lt hbp) hlv3 hlp3 ?_ ?_ ?_ ?_ ?_
            · intro j v hv
              rw [hsgv2] at hv
              by_cases hje : j = j0
              · rw [if_pos hje] at hv
                have hvit : v = it := (Option.some.inj hv).symm
                subst hvit hje
                exact hitP
              · rw [if_neg hje] at hv
                exact hslot j v hv
            · intro j hj
              rw [Nat.testBit_ldiff] at hj
              exact hpv j (Bool.and_eq_true_iff.1 hj).1
            · intro j c2 hc2
              rw [hsgp3] at hc2
              by_cases hje : j = j0
              · rw [if_pos hje] at hc2
                exact Option.noConfusion hc2
              · rw [if_neg hje] at hc2
                exact hchild j c2 hc2
            · intro j c2 hc2
              rw [hsgp3] at hc2
              by_cases hje : j = j0
              · rw [if_pos hje] at hc2
                exact Option.noConfusion hc2
              · rw [if_neg hje] at hc2
                exact hcne j c2 hc2
            · intro j v c2 hv hc2
              rw [hsgp3] at hc2
              by_cases hje : j = j0
              · rw [if_pos hje] at hc2
                exact Option.noConfusion hc2
              · rw [if_neg hje] at hc2
                rw [hsgv2, if_neg hje] at hv
                exact hdisj j v c2 hv hc2
    · rw [if_neg hcond]
      push_neg at hcond
      have hnoinline : ∀ v, slotGet bv vs j0 = some v → keyf v ≠ k := by
        intro v hv he
        have htbv : bv.testBit j0 = true := by
          unfold slotGet at hv
          by_contra hb
          rw [if_neg hb] at hv
          exact Option.noConfusion hv
        have hany := hcond (and_two_pow_ne_zero_iff.2 htbv)
        unfold slotGet at hv
        rw [if_pos htbv] at hv
        rw [hv] at hany
        simp at hany
        exact hany he
      have hvals_ne_all : ∀ j v, slotGet bv vs j = some v → keyf v ≠ k := by
        intro j v hv
        by_cases hje : j = j0
        · subst hje
          exact hnoinline v hv
        · exact hvals_ne j v hje hv
      by_cases hbpb : bp &&& 2 ^ j0 = 0
      · rw [if_pos hbpb]
        have htbp : bp.testBit j0 = false := by
          cases h : bp.testBit j0
          · rfl
          · exact absurd hbpb (and_two_pow_ne_zero_iff.2 h)
        have hsgpnone : slotGet bp ps j0 = none := by
          unfold slotGet
          rw [htbp]
          simp
        have habs : ∀ x ∈ toListH (HNode.mk g bv bp vs ps), keyf x ≠ k := by
          intro x hx he
          rcases hkeyslot x hx he with h | ⟨c, hc, _⟩
          · exact hnoinline x h he
          · rw [hsgpnone] at hc
            exact Option.noConfusion hc
        refine ⟨?_, ?_, ?_⟩
        · constructor
          · intro h
            exact Bool.noConfusion h
          · rintro ⟨v, hv, hkv⟩
            exact absurd hkv (habs v hv)
        · intro x
          rw [toListO_some, toListH_mk, toListH_mk]
          refine ⟨fun h => ⟨h, ?_⟩, fun h => h.1⟩
          apply habs
          rw [toListH_mk]
          exact h
        · intro r1 hr1
          injection hr1 with hr1
          subst hr1
          refine ⟨Wf.node hs hbv hbp hlv hlp hslot hpv hchild hcne hdisj,
            fun hne2 => ?_⟩
          rw [toListH_mk]
          rw [toListH_mk] at hne2
          exact hne2
      · rw [if_neg hbpb]
        have htbp : bp.testBit j0 = true := and_two_pow_ne_zero_iff.1 hbpb
        have htbv2 := hpv j0 htbp
        have hvne2 : vs ≠ [] := by
          have hcl : cnt bv j0 < cnt bv 32 := cnt_lt_of_testBit bv (by omega) htbv2
          intro h
          rw [h, onesCount32_eq_cnt] at hlv
          simp at hlv
          omega
        have hiplt : cnt bp j0 < ps.length := by
          rw [hlp, onesCount32_eq_cnt]
          exact cnt_lt_of_testBit bp (by omega) htbp
        obtain ⟨c, hcel⟩ : ∃ c, ps[cnt bp j0]? = some c :=
          ⟨_, List.getElem?_eq_getElem hiplt⟩
        have hsgp : slotGet bp ps j0 = some c := by
          rw [slotGet_eq_getElem? ps htbp]
          exact hcel
        rw [hcel]
        dsimp only
        obtain ⟨ih2, ihmem, ihwf⟩ := ihc j0 c hsgp
        have hexk : (∃ v ∈ toListH c, keyf v = k) ↔
            ∃ v ∈ toListH (HNode.mk g bv bp vs ps), keyf v = k := by
          constructor
          · rintro ⟨v, hv, hkv⟩
            exact ⟨v, (mem_toListH_slots hbv hbp hlv hlp).2
              (Or.inr ⟨j0, c, hsgp, hv⟩), hkv⟩
          · rintro ⟨v, hv, hkv⟩
            rcases hkeyslot v hv hkv with h | ⟨c2, hc2, hvc⟩
            · exact absurd hkv (hnoinline v h)
            · rw [hsgp] at hc2
              have hc2e : c = c2 := Option.some.inj hc2
              subst hc2e
              exact ⟨v, hvc, hkv⟩
        have hvsne : ∀ bv2 bp2 ps2,
            toListH (HNode.mk gen bv2 bp2 vs ps2) ≠ [] := by
          intro bv2 bp2 ps2
          rw [toListH_mk]
          intro he
          exact hvne2 (List.append_eq_nil.1 he).1
        cases h1 : (withoutH keyf gen k (hashf k) (shift + 5) c).1 with
        | some child =>
          dsimp only
          rw [h1] at ihmem
          rw [toListO_some] at ihmem  -- hmm toListO (some child): rw lemma usable at hyp
          obtain ⟨hcwf2, hcne2p⟩ := ihwf child h1
          have hcne2 : toListH child ≠ [] := hcne2p (hcne j0 c hsgp)
          have hsgp3 := @slotGet_set _ bp _ ps child
            hj0 htbp hbp hlp
          have hlp3 : (ps.set (cnt bp j0) child).length = onesCount32 bp := by
            rw [List.length_set]
            exact hlp
          refine ⟨ih2.trans hexk, ?_, ?_⟩
          · intro x
            rw [toListO_some, mem_toListH_slots hbv hbp hlv hlp3,
              mem_toListH_slots hbv hbp hlv hlp]
            constructor
            · rintro (⟨j, hj⟩ | ⟨j, c2, hc2, hx⟩)
              · exact ⟨Or.inl ⟨j, hj⟩, hvals_ne_all j x hj⟩
              · rw [hsgp3] at hc2
                by_cases hje : j = j0
                · rw [if_pos hje] at hc2
                  have hc2e : c2 = child := (Option.some.inj hc2).symm
                  subst hc2e
                  obtain ⟨hxc, hkx⟩ := (ihmem x).1 hx
                  exact ⟨Or.inr ⟨j0, c, hsgp, hxc⟩, hkx⟩
                · rw [if_neg hje] at hc2
                  exact ⟨Or.inr ⟨j, c2, hc2, hx⟩, hchild_ne j c2 hje hc2 x hx⟩
            · rintro ⟨(⟨j, hj⟩ | ⟨j, c2, hc2, hx⟩), hkx⟩
              · exact Or.inl ⟨j, hj⟩
              · by_cases hje : j = j0
                · subst hje
                  rw [hsgp] at hc2
                  have hc2e : c2 = c := (Option.some.inj hc2).symm
                  subst hc2e
                  refine Or.inr ⟨j0, child, ?_, (ihmem x).2 ⟨hx, hkx⟩⟩
                  rw [hsgp3, if_pos rfl]
                · refine Or.inr ⟨j, c2, ?_, hx⟩
                  rw [hsgp3, if_neg hje]
                  exact hc2
          · intro r1 hr1
            injection hr1 with hr1
            subst hr1
            refine ⟨?_, fun _ => hvsne _ _ _⟩
            refine Wf.node hs hbv hbp hlv hlp3 hslot hpv ?_ ?_ ?_
            · intro j c2 hc2
              rw [hsgp3] at hc2
              by_cases hje : j = j0
              · rw [if_pos hje] at hc2
                have hc2e : c2 = child := (Option.some.inj hc2).symm
                subst hc2e
                rw [hje]
                exact hcwf2
              · rw [if_neg hje] at hc2
                exact hchild j c2 hc2
            · intro j c2 hc2
              rw [hsgp3] at hc2
              by_cases hje : j = j0
              · rw [if_pos hje] at hc2
                have hc2e : c2 = child := (Option.some.inj hc2).symm
                subst hc2e
                exact hcne2
              · rw [if_neg hje] at hc2
                exact hcne j c2 hc2
            · intro j v c2 hv hc2
              rw [hsgp3] at hc2
              by_cases hje : j = j0
              · rw [if_pos hje] at hc2
                have hc2e : c2 = child := (Option.some.inj hc2).symm
                subst hc2e
                subst hje
                intro hk
                obtain ⟨x, hx, hkx⟩ := List.mem_map.1 hk
                have hxc := ((ihmem x).1 hx).1
                exact hdisj j0 v c hv hsgp (hkx ▸ List.mem_map_of_mem keyf hxc)
              · rw [if_neg hje] at hc2
                exact hdisj j v c2 hv hc2
        | none =>
          dsimp only
          rw [h1] at ihmem
          rw [toListO_none] at ihmem
          have hck : ∀ x ∈ toListH c, keyf x = k := by
            intro x hx
            by_contra hkx
            have := (ihmem x).2 ⟨hx, hkx⟩
            simp at this
          have hsgp3 := @slotGet_erase _ bp _ ps hj0 htbp hbp hlp
          have hocp := onesCount32_ldiff hj0 htbp
          have hlp3 : (ps.eraseIdx (cnt bp j0)).length =
              onesCount32 (Nat.ldiff bp (2 ^ j0)) := by
            rw [List.length_eraseIdx, if_pos hiplt, hlp]
            omega
          refine ⟨ih2.trans hexk, ?_, ?_⟩
          · intro x
            rw [toListO_some, mem_toListH_slots hbv (ldiff_lt hbp) hlv hlp3,
              mem_toListH_slots hbv hbp hlv hlp]
            constructor
            · rintro (⟨j, hj⟩ | ⟨j, c2, hc2, hx⟩)
              · exact ⟨Or.inl ⟨j, hj⟩, hvals_ne_all j x hj⟩
              · rw [hsgp3] at hc2
                by_cases hje : j = j0
                · rw [if_pos hje] at hc2
                  exact Option.noConfusion hc2
                · rw [if_neg hje] at hc2
                  exact ⟨Or.inr ⟨j, c2, hc2, hx⟩, hchild_ne j c2 hje hc2 x hx⟩
            · rintro ⟨(⟨j, hj⟩ | ⟨j, c2, hc2, hx⟩), hkx⟩
              · exact Or.inl ⟨j, hj⟩
              · by_cases hje : j = j0
                · subst hje
                  rw [hsgp] at hc2
                  have hc2e : c2 = c := (Option.some.inj hc2).symm
                  subst hc2e
                  exact absurd (hck x hx) hkx
                · refine Or.inr ⟨j, c2, ?_, hx⟩
                  rw [hsgp3, if_neg hje]
                  exact hc2
          · intro r1 hr1
            injection hr1 with hr1
            subst hr1
            refine ⟨?_, fun _ => hvsne _ _ _⟩
            refine Wf.node hs hbv (ldiff_lt hbp) hlv hlp3 hslot ?_ ?_ ?_ ?_
            · intro j hj
              rw [Nat.testBit_ldiff] at hj
              exact hpv j (Bool.and_eq_true_iff.1 hj).1
            · intro j c2 hc2
              rw [hsgp3] at hc2
              by_cases hje : j = j0
              · rw [if_pos hje] at hc2
                exact Option.noConfusion hc2
              · rw [if_neg hje] at hc2
                exact hchild j c2 hc2
            · intro j c2 hc2
              rw [hsgp3] at hc2
              by_cases hje : j = j0
              · rw [if_pos hje] at hc2
                exact Option.noConfusion hc2
              · rw [if_neg hje] at hc2
                exact hcne j c2 hc2
            · intro j v c2 hv hc2
              rw [hsgp3] at hc2
              by_cases hje : j = j0
              · rw [if_pos hje] at hc2
                exact Option.noConfusion hc2
              · rw [if_neg hje] at hc2
                exact hdisj j v c2 hv hc2

end WfSection

section Handle

variable {α κ : Type} [DecidableEq κ]

theorem lastKeyOp_nil {keyf : α → κ} {k : κ} :
    lastKeyOp keyf k [] = none := rfl

theorem lastKeyOp_cons {keyf : α → κ} {k : κ} {op : HOp α κ}
    {rest : List (HOp α κ)} :
    lastKeyOp keyf k (op :: rest) =
      if opTouches keyf k op then some ((lastKeyOp keyf k rest).getD op)
      else lastKeyOp keyf k rest := by
  unfold lastKeyOp
  rw [List.filter_cons]
  by_cases h : opTouches keyf k op
  · rw [if_pos h, if_pos h, List.getLast?_cons]
  · rw [if_neg h, if_neg h]

/-- The empty interior node is well-formed at any interior level. -/
theorem wf_empty {keyf : α → κ} {hashf : κ → Nat} {g s : Nat} {P : Nat → Prop}
    (hs : s < 32) :
    Wf keyf hashf s P (.mk g 0 0 ([] : List α) []) := by
  refine Wf.node hs (Nat.pos_pow_of_pos 32 (by omega))
    (Nat.pos_pow_of_pos 32 (by omega)) (by simp [onesCount32_zero])
    (by simp [onesCount32_zero]) ?_ ?_ ?_ ?_ ?_
  · intro j v hv
    unfold slotGet at hv
    rw [Nat.zero_testBit] at hv
    simp at hv
  · intro j hj
    rw [Nat.zero_testBit] at hj
    exact Bool.noConfusion hj
  · intro j c hc
    unfold slotGet at hc
    rw [Nat.zero_testBit] at hc
    simp at hc
  · intro j c hc
    unfold slotGet at hc
    rw [Nat.zero_testBit] at hc
    simp at hc
  · intro j v c hv hc
    unfold slotGet at hc
    rw [Nat.zero_testBit] at hc
    simp at hc

/-- Running a sequence of operations on a mutable well-formed handle: each
step succeeds, well-formedness is preserved and the final contents are
determined by the most recent operation per key. -/
theorem applyOps_invariant {keyf : α → κ} {hashf : κ → Nat}
    (ops : List (HOp α κ)) :
    ∀ (ht : ItemHamt α) (r : HNode α), ht.mutable = true → ht.root = some r →
    Wf keyf hashf 0 (fun _ => True) r →
    ∃ ht2 r2, applyOps keyf hashf ht ops = some ht2 ∧ ht2.root = some r2 ∧
      Wf keyf hashf 0 (fun _ => True) r2 ∧
      ∀ x, x ∈ toListH r2 ↔
        (lastKeyOp keyf (keyf x) ops = some (.put x) ∨
         (lastKeyOp keyf (keyf x) ops = none ∧ x ∈ toListH r)) := by
  induction ops with
  | nil =>
    intro ht r hm hr hwf
    exact ⟨ht, r, rfl, hr, hwf, fun x => by simp [lastKeyOp_nil]⟩
  | cons op rest ih =>
    intro ht r hm hr hwf
    cases op with
    | put item =>
      obtain ⟨hwf2, hmem2⟩ := @withH_spec _ _ _ _ _ _ _ _ ht.generation _ hwf trivial
      have hput : ht.Put keyf hashf item =
          some ⟨some (withH keyf ht.generation item (keyf item)
            (hashf (keyf item)) 0 r), ht.mutable, ht.generation⟩ := by
        unfold ItemHamt.Put
        rw [hm, hr]
        simp
      have happ : applyOps keyf hashf ht (.put item :: rest) =
          applyOps keyf hashf ⟨some (withH keyf ht.generation item (keyf item)
            (hashf (keyf item)) 0 r), ht.mutable, ht.generation⟩ rest := by
        rw [applyOps, hput]
        rfl
      obtain ⟨ht2, r2, happ2, hroot2, hwf3, hmem3⟩ :=
        ih ⟨some (withH keyf ht.generation item (keyf item)
          (hashf (keyf item)) 0 r), ht.mutable, ht.generation⟩ _ hm rfl hwf2
      refine ⟨ht2, r2, by rw [happ]; exact happ2, hroot2, hwf3, ?_⟩
      intro x
      rw [hmem3 x, lastKeyOp_cons]
      by_cases hkeq : keyf item = keyf x
      · have hto : opTouches keyf (keyf x) (HOp.put item) = true := by
          simp [opTouches, hkeq]
        rw [hto, if_pos rfl]
        cases hrest : lastKeyOp keyf (keyf x) rest with
        | none =>
          rw [Option.getD_none]
          constructor
          · rintro (h | ⟨_, h⟩)
            · exact Option.noConfusion h
            · rcases (hmem2 x).1 h with rfl | ⟨_, hkx⟩
              · exact Or.inl rfl
              · exact absurd hkeq.symm hkx
          · rintro (h | ⟨h, _⟩)
            · have hx : HOp.put (α := α) (κ := κ) item = .put x :=
                Option.some.inj h
              have hxi : item = x := by
                cases hx
                rfl
              exact Or.inr ⟨rfl, (hmem2 x).2 (Or.inl hxi.symm)⟩
            · exact Option.noConfusion h
        | some o =>
          rw [Option.getD_some]
          constructor
          · rintro (h | ⟨h, _⟩)
            · exact Or.inl h
            · exact Option.noConfusion h
          · rintro (h | ⟨h, _⟩)
            · exact Or.inl h
            · exact Option.noConfusion h
      · have hto : opTouches keyf (keyf x) (HOp.put item) = false := by
          simp [opTouches, hkeq]
        rw [hto, if_neg (by simp)]
        have hxni : x ≠ item := by
          intro he
          rw [he] at hkeq
          exact hkeq rfl
        have hkne : keyf x ≠ keyf item := fun h => hkeq h.symm
        constructor
        · rintro (h | ⟨hn, hmm⟩)
          · exact Or.inl h
          · refine Or.inr ⟨hn, ?_⟩
            rcases (hmem2 x).1 hmm with rfl | ⟨hxr, _⟩
            · exact absurd rfl hxni
            · exact hxr
        · rintro (h | ⟨hn, hxr⟩)
          · exact Or.inl h
          · exact Or.inr ⟨hn, (hmem2 x).2 (Or.inr ⟨hxr, hkne⟩)⟩
    | del k2 =>
      obtain ⟨hb2, hmem2, hwfp⟩ := withoutH_spec ht.generation hwf k2
      have hdel : ht.Delete keyf hashf k2 =
          some (⟨some (match (withoutH keyf ht.generation k2 (hashf k2) 0 r).1 with
              | some nd => nd
              | none => HNode.mk ht.generation 0 0 ([] : List α) []),
            ht.mutable, ht.generation⟩,
            (withoutH keyf ht.generation k2 (hashf k2) 0 r).2) := by
        unfold ItemHamt.Delete
        rw [hm, hr]
        simp
      -- the effective new root
      have hroot3 : ∃ r3, (match (withoutH keyf ht.generation k2 (hashf k2) 0 r).1 with
            | some nd => nd
            | none => HNode.mk ht.generation 0 0 ([] : List α) []) = r3 ∧
          Wf keyf hashf 0 (fun _ => True) r3 ∧
          ∀ x, x ∈ toListH r3 ↔ x ∈ toListH r ∧ keyf x ≠ k2 := by
        cases h1 : (withoutH keyf ht.generation k2 (hashf k2) 0 r).1 with
        | some nd =>
          refine ⟨nd, rfl, (hwfp nd h1).1, ?_⟩
          intro x
          rw [← @toListO_some _ nd, ← h1]
          exact hmem2 x
        | none =>
          refine ⟨_, rfl, wf_empty (by omega), ?_⟩
          intro x
          rw [← hmem2 x, h1, toListO_none, toListH_mk]
          simp
      obtain ⟨r3, hr3e, hwf3, hmem3⟩ := hroot3
      have happ : applyOps keyf hashf ht (.del k2 :: rest) =
          applyOps keyf hashf ⟨some r3, ht.mutable, ht.generation⟩ rest := by
        rw [applyOps, hdel]
        show applyOps keyf hashf _ rest = _
        rw [hr3e]
      obtain ⟨ht2, r2, happ2, hroot2, hwf4, hmem4⟩ :=
        ih ⟨some r3, ht.mutable, ht.generation⟩ _ hm rfl hwf3
      refine ⟨ht2, r2, by rw [happ]; exact happ2, hroot2, hwf4, ?_⟩
      intro x
      rw [hmem4 x, lastKeyOp_cons]
      by_cases hkeq : k2 = keyf x
      · have hto : opTouches keyf (keyf x) (HOp.del k2) = true := by
          simp [opTouches, hkeq]
        rw [hto, if_pos rfl]
        cases hrest : lastKeyOp keyf (keyf x) rest with
        | none =>
          rw [Option.getD_none]
          constructor
          · rintro (h | ⟨_, h⟩)
            · exact Option.noConfusion h
            · obtain ⟨_, hkx⟩ := (hmem3 x).1 h
              exact absurd hkeq.symm hkx
          · rintro (h | ⟨h, _⟩)
            · exact HOp.noConfusion (Option.some.inj h)
            · exact Option.noConfusion h
        | some o =>
          rw [Option.getD_some]
          constructor
          · rintro (h | ⟨h, _⟩)
            · exact Or.inl h
            · exact Option.noConfusion h
          · rintro (h | ⟨h, _⟩)
            · exact Or.inl h
            · exact Option.noConfusion h
      · have hto : opTouches keyf (keyf x) (HOp.del k2) = false := by
          simp [opTouches, hkeq]
        rw [hto, if_neg (by simp)]
        have hkne : keyf x ≠ k2 := fun h => hkeq h.symm
        constructor
        · rintro (h | ⟨hn, hmm⟩)
          · exact Or.inl h
          · exact Or.inr ⟨hn, ((hmem3 x).1 hmm).1⟩
        · rintro (h | ⟨hn, hxr⟩)
          · exact Or.inl h
          · exact Or.inr ⟨hn, (hmem3 x).2 ⟨hxr, hkne⟩⟩

/-- Reading one chunk preserves the invariant that the tree holds exactly the
first-seen item per key. -/
theorem readChunk_invariant {keyf : α → κ} {hashf : κ → Nat}
    (items : List α) :
    ∀ (ht : ItemHamt α) (r : HNode α) (done : List α),
    ht.mutable = true → ht.root = some r →
    Wf keyf hashf 0 (fun _ => True) r →
    (∀ x, x ∈ toListH r ↔
      done.find? (fun y => decide (keyf y = keyf x)) = some x) →
    ∃ ht2 r2, readChunk keyf hashf ht items = some ht2 ∧
      ht2.root = some r2 ∧ ht2.mutable = true ∧
      Wf keyf hashf 0 (fun _ => True) r2 ∧
      ∀ x, x ∈ toListH r2 ↔
        (done ++ items).find? (fun y => decide (keyf y = keyf x)) = some x := by
  induction items with
  | nil =>
    intro ht r done hm hr hwf hinv
    exact ⟨ht, r, rfl, hr, hm, hwf, fun x => by
      rw [List.append_nil]
      exact hinv x⟩
  | cons it rest ih =>
    intro ht r done hm hr hwf hinv
    have hGet : ht.Get keyf hashf (keyf it) =
        getH keyf (keyf it) (hashf (keyf it)) 0 r := by
      unfold ItemHamt.Get
      rw [hr]
    cases hf : done.find? (fun y => decide (keyf y = keyf it)) with
    | some v =>
      have hkv : keyf v = keyf it := by
        have := List.find?_some hf
        simpa using this
      have hvr : v ∈ toListH r := by
        rw [hinv v, hkv]
        exact hf
      have hGs : getH keyf (keyf it) (hashf (keyf it)) 0 r = some v :=
        (getH_spec hwf (keyf it) v).2 ⟨hvr, hkv⟩
      have hstep : readChunkStep keyf hashf ht it = some ht := by
        unfold readChunkStep
        rw [hGet, hGs]
      have hrc : readChunk keyf hashf ht (it :: rest) =
          readChunk keyf hashf ht rest := by
        unfold readChunk
        rw [List.foldlM_cons, hstep]
        rfl
      have hinv2 : ∀ x, x ∈ toListH r ↔
          (done ++ [it]).find? (fun y => decide (keyf y = keyf x)) = some x := by
        intro x
        rw [hinv x, List.find?_append]
        cases hfx : done.find? (fun y => decide (keyf y = keyf x)) with
        | some w =>
          exact Iff.rfl
        | none =>
          by_cases hkx : keyf it = keyf x
          · rw [hkx] at hf
            rw [hfx] at hf
            exact Option.noConfusion hf
          · have hone : ([it].find? (fun y => decide (keyf y = keyf x))) = none := by
              simp [hkx]
            rw [hone]
            exact Iff.rfl
      obtain ⟨ht2, r2, happ2, hroot2, hm2, hwf2, hmem2⟩ :=
        ih ht r (done ++ [it]) hm hr hwf hinv2
      refine ⟨ht2, r2, by rw [hrc]; exact happ2, hroot2, hm2, hwf2, ?_⟩
      intro x
      rw [hmem2 x, List.append_assoc, List.singleton_append]
    | none =>
      have hGn : getH keyf (keyf it) (hashf (keyf it)) 0 r = none := by
        cases hg : getH keyf (keyf it) (hashf (keyf it)) 0 r with
        | none => rfl
        | some v =>
          obtain ⟨hvr, hkv⟩ := (getH_spec hwf (keyf it) v).1 hg
          have hiv := (hinv v).1 hvr
          rw [hkv, hf] at hiv
          exact Option.noConfusion hiv
      obtain ⟨hwf2, hmem2⟩ := @withH_spec _ _ _ _ _ _ _ _ ht.generation _ hwf trivial
      have hput : ht.Put keyf hashf it =
          some ⟨some (withH keyf ht.generation it (keyf it)
            (hashf (keyf it)) 0 r), ht.mutable, ht.generation⟩ := by
        unfold ItemHamt.Put
        rw [hm, hr]
        simp
      have hstep : readChunkStep keyf hashf ht it =
          some ⟨some (withH keyf ht.generation it (keyf it)
            (hashf (keyf it)) 0 r), ht.mutable, ht.generation⟩ := by
        unfold readChunkStep
        rw [hGet, hGn, hput]
      have hrc : readChunk keyf hashf ht (it :: rest) =
          readChunk keyf hashf ⟨some (withH keyf ht.generation it (keyf it)
            (hashf (keyf it)) 0 r), ht.mutable, ht.generation⟩ rest := by
        unfold readChunk
        rw [List.foldlM_cons, hstep]
        rfl
      have hinv2 : ∀ x, x ∈ toListH (withH keyf ht.generation it (keyf it)
          (hashf (keyf it)) 0 r) ↔
          (done ++ [it]).find? (fun y => decide (keyf y = keyf x)) = some x := by
        intro x
        rw [hmem2 x, List.find?_append]
        cases hfx : done.find? (fun y => decide (keyf y = keyf x)) with
        | some w =>
          show _ ↔ some w = some x
          constructor
          · rintro (rfl | ⟨hxr, _⟩)
            · rw [hfx] at hf
              exact Option.noConfusion hf
            · have hix := (hinv x).1 hxr
              rw [hfx] at hix
              exact hix
          · intro h
            have hwx : w = x := Option.some.inj h
            subst hwx
            have hxr := (hinv w).2 hfx
            refine Or.inr ⟨hxr, ?_⟩
            intro hke
            rw [hke, hf] at hfx
            exact Option.noConfusion hfx
        | none =>
          by_cases hkx : keyf it = keyf x
          · have hone : ([it].find? (fun y => decide (keyf y = keyf x))) =
                some it := by
              simp [hkx]
            rw [hone]
            constructor
            · rintro (rfl | ⟨hxr, _⟩)
              · rfl
              · have hiv := (hinv x).1 hxr
                rw [hfx] at hiv
                exact Option.noConfusion hiv
            · intro h
              exact Or.inl (Option.some.inj h).symm
          · have hone : ([it].find? (fun y => decide (keyf y = keyf x))) =
                none := by
              simp [hkx]
            rw [hone]
            constructor
            · rintro (rfl | ⟨hxr, _⟩)
              · exact absurd rfl hkx
              · have hiv := (hinv x).1 hxr
                rw [hfx] at hiv
                exact Option.noConfusion hiv
            · intro h
              exact Option.noConfusion h
      obtain ⟨ht2, r2, happ2, hroot2, hm2, hwf2, hmem3⟩ :=
        ih ⟨some (withH keyf ht.generation it (keyf it)
          (hashf (keyf it)) 0 r), ht.mutable, ht.generation⟩ _ (done ++ [it])
          hm rfl hwf2 hinv2
      refine ⟨ht2, r2, by rw [hrc]; exact happ2, hroot2, hm2, hwf2, ?_⟩
      intro x
      rw [hmem3 x, List.append_assoc, List.singleton_append]

/-- Reading a whole chain accumulates the first-seen item per key across the
flattened chunks. -/
theorem chainFold_invariant {keyf : α → κ} {hashf : κ → Nat}
    (chain : List (List α)) :
    ∀ (ht : ItemHamt α) (r : HNode α) (done : List α),
    ht.mutable = true → ht.root = some r →
    Wf keyf hashf 0 (fun _ => True) r →
    (∀ x, x ∈ toListH r ↔
      done.find? (fun y => decide (keyf y = keyf x)) = some x) →
    ∃ ht2 r2, chain.foldlM (readChunk keyf hashf) ht = some ht2 ∧
      ht2.root = some r2 ∧ ht2.mutable = true ∧
      Wf keyf hashf 0 (fun _ => True) r2 ∧
      ∀ x, x ∈ toListH r2 ↔
        (done ++ chain.flatten).find?
          (fun y => decide (keyf y = keyf x)) = some x := by
  induction chain with
  | nil =>
    intro ht r done hm hr hwf hinv
    exact ⟨ht, r, rfl, hr, hm, hwf, fun x => by
      rw [List.flatten_nil, List.append_nil]
      exact hinv x⟩
  | cons c rest ih =>
    intro ht r done hm hr hwf hinv
    obtain ⟨ht2, r2, happ2, hroot2, hm2, hwf2, hmem2⟩ :=
      readChunk_invariant c ht r done hm hr hwf hinv
    obtain ⟨ht3, r3, happ3, hroot3, hm3, hwf3, hmem3⟩ :=
      ih ht2 r2 (done ++ c) hm2 hroot2 hwf2 hmem2
    refine ⟨ht3, r3, ?_, hroot3, hm3, hwf3, ?_⟩
    · rw [List.foldlM_cons]
      show (readChunk keyf hashf ht c).bind _ = _
      rw [happ2]
      exact happ3
    · intro x
      rw [hmem3 x, List.flatten_cons, List.append_assoc]

end Handle

end Hamt

/-- C7: reading an item chain walks the chunks newest-first and inserts an
item only when its key is not yet present, so `Get` returns the first record
for each key in chain order and reports keys never written as absent. -/
theorem C7_read_item_chain {α κ : Type} [DecidableEq κ] (keyf : α → κ)
    (hashf : κ → Nat) (chain : List (List α)) :
    ∃ ht, Hamt.ReadItemChain keyf hashf chain = some ht ∧
      ∀ k, ht.Get keyf hashf k =
        chain.flatten.find? (fun x => decide (keyf x = k)) := by
  have hwfe : Hamt.Wf keyf hashf 0 (fun _ => True)
      (.mk 1 0 0 ([] : List α) []) := Hamt.wf_empty (by omega)
  have hte : Hamt.toListH (Hamt.HNode.mk 1 0 0 ([] : List α) []) = [] := by
    rw [Hamt.toListH_mk]
    simp
  obtain ⟨ht2, r2, happ, hroot2, hm2, hwf2, hmem⟩ :=
    Hamt.chainFold_invariant chain ((Hamt.zeroHamt (α := α)).Mutable)
      (.mk 1 0 0 ([] : List α) []) [] rfl rfl hwfe
      (fun x => by rw [hte]; simp)
  refine ⟨ht2.Freeze, ?_, ?_⟩
  · unfold Hamt.ReadItemChain
    rw [happ]
    rfl
  · intro k
    have hGet : ht2.Freeze.Get keyf hashf k =
        Hamt.getH keyf k (hashf k) 0 r2 := by
      unfold Hamt.ItemHamt.Get Hamt.ItemHamt.Freeze
      rw [hroot2]
    rw [hGet]
    have hmem2 : ∀ x, x ∈ Hamt.toListH r2 ↔
        chain.flatten.find? (fun y => decide (keyf y = keyf x)) = some x := by
      intro x
      rw [hmem x]
      rfl
    cases hfk : chain.flatten.find? (fun x => decide (keyf x = k)) with
    | none =>
      cases hg : Hamt.getH keyf k (hashf k) 0 r2 with
      | none => rfl
      | some v =>
        obtain ⟨hvr, hkv⟩ := (Hamt.getH_spec hwf2 k v).1 hg
        have hiv := (hmem2 v).1 hvr
        rw [hkv, hfk] at hiv
        exact Option.noConfusion hiv
    | some v =>
      have hkv : keyf v = k := by
        have := List.find?_some hfk
        simpa using this
      refine (Hamt.getH_spec hwf2 k v).2 ⟨?_, hkv⟩
      rw [hmem2 v, hkv]
      exact hfk

/-- C3: starting from an empty mutable HAMT, any finite sequence of `Put` and
`Delete` operations succeeds, and `ForEach` then enumerates, without
duplicates, exactly the items whose most recent key-touching operation was a
`Put` of that item. -/
theorem C3_hamt_put_delete_forEach {α κ : Type} [DecidableEq κ]
    (keyf : α → κ) (hashf : κ → Nat) (ops : List (Hamt.HOp α κ)) :
    ∃ ht2, Hamt.applyOps keyf hashf ((Hamt.zeroHamt (α := α)).Mutable) ops =
        some ht2 ∧
      ((ht2.ForEach).map keyf).Nodup ∧
      ∀ x, x ∈ ht2.ForEach ↔
        Hamt.lastKeyOp keyf (keyf x) ops = some (Hamt.HOp.put x) := by
  have hwfe : Hamt.Wf keyf hashf 0 (fun _ => True)
      (.mk 1 0 0 ([] : List α) []) := Hamt.wf_empty (by omega)
  obtain ⟨ht2, r2, happ, hroot2, hwf2, hmem⟩ :=
    Hamt.applyOps_invariant ops ((Hamt.zeroHamt (α := α)).Mutable)
      (.mk 1 0 0 ([] : List α) []) rfl rfl hwfe
  have hfe : ht2.ForEach = Hamt.toListH r2 := by
    unfold Hamt.ItemHamt.ForEach
    rw [hroot2]
  have hte : Hamt.toListH (Hamt.HNode.mk 1 0 0 ([] : List α) []) = [] := by
    rw [Hamt.toListH_mk]
    simp
  refine ⟨ht2, happ, ?_, ?_⟩
  · rw [hfe]
    exact Hamt.toListH_keys_nodup hwf2
  · intro x
    rw [hfe, hmem x, hte]
    simp

namespace Btree

theorem resolve_append {store : FStor} {redirs : List (Nat × FNode)}
    {off : Nat} {nd : FNode} (ext : FStor)
    (h : resolve store redirs off = some nd) :
    resolve (store ++ ext) redirs off = some nd := by
  unfold resolve at h ⊢
  cases hl : redirs.lookup off with
  | some nd2 =>
    rw [hl] at h
    rw [h]
  | none =>
    rw [hl] at h
    have hlt : off < store.length := by
      have hh : store[off]? = some nd := h
      exact (List.getElem?_eq_some_iff.1 hh).1
    rw [List.getElem?_append, if_pos hlt]
    exact h

theorem okTree_append {store : FStor} {redirs : List (Nat × FNode)}
    (ext : FStor) :
    ∀ {l off : Nat}, okTree store redirs l off = true →
      okTree (store ++ ext) redirs l off = true := by
  intro l
  induction l with
  | zero =>
    intro off h
    rw [okTree] at h ⊢
    obtain ⟨nd, hnd⟩ := Option.isSome_iff_exists.1 h
    rw [resolve_append ext hnd]
    rfl
  | succ l ih =>
    intro off h
    rw [okTree] at h ⊢
    cases hr : resolve store redirs off with
    | none =>
      rw [hr] at h
      exact Bool.noConfusion h
    | some nd =>
      rw [hr] at h
      rw [resolve_append ext hr]
      rw [List.all_eq_true] at h ⊢
      intro e he
      exact ih (h e he)

theorem iterL_append {store : FStor} {redirs : List (Nat × FNode)}
    (ext : FStor) :
    ∀ {l off : Nat}, okTree store redirs l off = true →
      iterL (store ++ ext) redirs l off = iterL store redirs l off := by
  intro l
  induction l with
  | zero =>
    intro off h
    rw [okTree] at h
    obtain ⟨nd, hnd⟩ := Option.isSome_iff_exists.1 h
    rw [iterL, iterL, hnd, resolve_append ext hnd]
  | succ l ih =>
    intro off h
    rw [okTree] at h
    cases hr : resolve store redirs off with
    | none =>
      rw [hr] at h
      exact Bool.noConfusion h
    | some nd =>
      rw [hr] at h
      rw [List.all_eq_true] at h
      rw [iterL, iterL, hr, resolve_append ext hr]
      congr 1
      apply List.map_congr_left
      intro e he
      exact ih (h e he)

theorem resolve_nil {store : FStor} {off : Nat} :
    resolve store [] off = store[off]? := rfl

theorem saveKids_correct {redirs : List (Nat × FNode)} {l : Nat}
    (hstep : ∀ st o, okTree st redirs l o = true →
      (∃ ext, (saveR redirs l st o).1 = st ++ ext) ∧
      okTree (saveR redirs l st o).1 [] l (saveR redirs l st o).2 = true ∧
      iterL (saveR redirs l st o).1 [] l (saveR redirs l st o).2 =
        iterL st redirs l o) :
    ∀ (entries : FNode) (store : FStor) (acc : FNode),
    (∀ e ∈ entries, okTree store redirs l e.2 = true) →
    (∀ e ∈ acc, okTree store [] l e.2 = true) →
    (∃ ext,
      (saveKids (fun st o => saveR redirs l st o) entries store acc).1 =
        store ++ ext) ∧
    (∀ e ∈ (saveKids (fun st o => saveR redirs l st o) entries store acc).2,
      okTree (saveKids (fun st o => saveR redirs l st o) entries store acc).1
        [] l e.2 = true) ∧
    ((saveKids (fun st o => saveR redirs l st o) entries store acc).2.map
        fun e => iterL
          (saveKids (fun st o => saveR redirs l st o) entries store acc).1
          [] l e.2).flatten =
      (acc.map fun e => iterL store [] l e.2).flatten ++
      (entries.map fun e => iterL store redirs l e.2).flatten := by
  intro entries
  induction entries with
  | nil =>
    intro store acc hok hacc
    rw [saveKids]
    exact ⟨⟨[], by rw [List.append_nil]⟩, hacc, by
      rw [List.map_nil, List.flatten_nil, List.append_nil]⟩
  | cons e rest ih =>
    intro store acc hok hacc
    obtain ⟨⟨ext1, hext1⟩, hok1, hit1⟩ :=
      hstep store e.2 (hok e (List.mem_cons_self e rest))
    have hokrest : ∀ e2 ∈ rest, okTree (saveR redirs l store e.2).1 redirs l
        e2.2 = true := by
      intro e2 he2
      rw [hext1]
      exact okTree_append ext1 (hok e2 (List.mem_cons_of_mem e he2))
    have hacc2 : ∀ e2 ∈ acc ++ [(e.1, (saveR redirs l store e.2).2)],
        okTree (saveR redirs l store e.2).1 [] l e2.2 = true := by
      intro e2 he2
      rcases List.mem_append.1 he2 with h | h
      · rw [hext1]
        exact okTree_append ext1 (hacc e2 h)
      · simp only [List.mem_singleton] at h
        rw [h]
        exact hok1
    obtain ⟨⟨ext2, hext2⟩, hok2, hit2⟩ :=
      ih (saveR redirs l store e.2).1 (acc ++ [(e.1, (saveR redirs l store e.2).2)])
        hokrest hacc2
    rw [saveKids]
    refine ⟨⟨ext1 ++ ext2, by rw [hext2, hext1, List.append_assoc]⟩, hok2, ?_⟩
    rw [hit2]
    -- massage the accumulator part and the remaining-entries part
    have haccstable : (acc ++ [(e.1, (saveR redirs l store e.2).2)]).map
        (fun e2 => iterL (saveR redirs l store e.2).1 [] l e2.2) =
        acc.map (fun e2 => iterL store [] l e2.2) ++
          [iterL store redirs l e.2] := by
      rw [List.map_append]
      congr 1
      · apply List.map_congr_left
        intro e2 he2
        rw [hext1]
        exact iterL_append ext1 (hacc e2 he2)
      · rw [List.map_singleton, hit1]
    have hreststable : rest.map
        (fun e2 => iterL (saveR redirs l store e.2).1 redirs l e2.2) =
        rest.map (fun e2 => iterL store redirs l e2.2) := by
      apply List.map_congr_left
      intro e2 he2
      rw [hext1]
      exact iterL_append ext1 (hok e2 (List.mem_cons_of_mem e he2))
    rw [haccstable, hreststable, List.flatten_append, List.flatten_cons]
    rw [List.map_cons, List.flatten_cons, List.append_assoc]
    simp

theorem saveR_correct {redirs : List (Nat × FNode)} :
    ∀ (l : Nat) (store : FStor) (off : Nat),
    okTree store redirs l off = true →
    (∃ ext, (saveR redirs l store off).1 = store ++ ext) ∧
    okTree (saveR redirs l store off).1 [] l (saveR redirs l store off).2 = true ∧
    iterL (saveR redirs l store off).1 [] l (saveR redirs l store off).2 =
      iterL store redirs l off := by
  intro l
  induction l with
  | zero =>
    intro store off hok
    rw [okTree] at hok
    obtain ⟨nd, hnd⟩ := Option.isSome_iff_exists.1 hok
    rw [saveR]
    cases hl : redirs.lookup off with
    | none =>
      have hst : store[off]? = some nd := by
        unfold resolve at hnd
        rw [hl] at hnd
        exact hnd
      refine ⟨⟨[], by rw [List.append_nil]⟩, ?_, ?_⟩
      · rw [okTree, resolve_nil, hst]
        rfl
      · rw [iterL, iterL, resolve_nil, hst, hnd]
    | some nd2 =>
      have hnd2 : nd2 = nd := by
        unfold resolve at hnd
        rw [hl] at hnd
        exact Option.some.inj hnd
      subst hnd2
      refine ⟨⟨[nd2], rfl⟩, ?_, ?_⟩
      · rw [okTree, resolve_nil, List.getElem?_concat_length]
        rfl
      · rw [iterL, iterL, resolve_nil, List.getElem?_concat_length, hnd]
  | succ l ih =>
    intro store off hok
    rw [okTree] at hok
    cases hr : resolve store redirs off with
    | none =>
      rw [hr] at hok
      exact Bool.noConfusion hok
    | some nd =>
      rw [hr] at hok
      rw [List.all_eq_true] at hok
      have hks := saveKids_correct (fun st o h => ih st o h) nd store []
        hok (by intro e2 h; simp at h)
      obtain ⟨⟨ext, hext⟩, hok2, hit2⟩ := hks
      rw [saveR]
      rw [hr]
      simp only [Option.getD_some]
      by_cases hkeep : (saveKids (fun st o => saveR redirs l st o) nd store []).2
          = nd ∧ redirs.lookup off = none
      · rw [if_pos hkeep]
        obtain ⟨hsc2, hlk⟩ := hkeep
        have hst : store[off]? = some nd := by
          unfold resolve at hr
          rw [hlk] at hr
          exact hr
        have hlt : off < store.length := (List.getElem?_eq_some_iff.1 hst).1
        have hsc1 : (saveKids (fun st o => saveR redirs l st o) nd store []).1[off]? =
            some nd := by
          rw [hext, List.getElem?_append, if_pos hlt]
          exact hst
        refine ⟨⟨ext, hext⟩, ?_, ?_⟩
        · rw [okTree, resolve_nil, hsc1]
          rw [List.all_eq_true]
          intro e he
          rw [← hsc2] at he
          exact hok2 e he
        · rw [iterL, iterL, resolve_nil, hsc1, hr]
          simp only [Option.getD_some]
          rw [show (nd.map fun e =>
              iterL (saveKids (fun st o => saveR redirs l st o) nd store []).1
                [] l e.2) = ((saveKids (fun st o => saveR redirs l st o)
                  nd store []).2.map fun e =>
                iterL (saveKids (fun st o => saveR redirs l st o) nd store []).1
                  [] l e.2) from by rw [hsc2]]
          rw [hit2]
          simp
      · rw [if_neg hkeep]
        refine ⟨⟨ext ++ [(saveKids (fun st o => saveR redirs l st o) nd store []).2],
          by rw [hext, List.append_assoc]⟩, ?_, ?_⟩
        · rw [okTree, resolve_nil, List.getElem?_concat_length]
          rw [List.all_eq_true]
          intro e he
          exact okTree_append _ (hok2 e he)
        · rw [iterL, iterL, resolve_nil, List.getElem?_concat_length, hr]
          simp only [Option.getD_some]
          have hmapstable : ((saveKids (fun st o => saveR redirs l st o)
                nd store []).2.map fun e =>
              iterL ((saveKids (fun st o => saveR redirs l st o) nd store []).1 ++
                [(saveKids (fun st o => saveR redirs l st o) nd store []).2])
                [] l e.2) =
              ((saveKids (fun st o => saveR redirs l st o) nd store []).2.map
                fun e =>
                iterL (saveKids (fun st o => saveR redirs l st o) nd store []).1
                  [] l e.2) := by
            apply List.map_congr_left
            intro e he
            exact iterL_append _ (hok2 e he)
          rw [hmapstable, hit2]
          simp

theorem chunks_length_le {β : Type} {c : Nat} :
    ∀ (l : List β), (chunks c l).length ≤ l.length := by
  intro l
  induction l using chunks.induct (c := c) with
  | case1 => rw [chunks]; rfl
  | case2 x xs ih =>
    rw [chunks]
    simp only [List.length_cons]
    have hd : (xs.drop (c + 1)).length = xs.length - (c + 1) :=
      List.length_drop _ _
    omega

theorem chunks_length_lt {β : Type} {c : Nat} {l : List β}
    (h : 2 ≤ l.length) : (chunks c l).length < l.length := by
  cases l with
  | nil => simp at h
  | cons x xs =>
    rw [chunks]
    simp only [List.length_cons] at h ⊢
    have hle := chunks_length_le (c := c) (xs.drop (c + 1))
    have hd : (xs.drop (c + 1)).length = xs.length - (c + 1) :=
      List.length_drop _ _
    omega

theorem writeAll_snd_length : ∀ (gs : List FNode) (store : FStor),
    (writeAll store gs).2.length = gs.length := by
  intro gs
  induction gs with
  | nil =>
    intro store
    rfl
  | cons g gs ih =>
    intro store
    rw [writeAll]
    simp only [List.length_cons]
    rw [ih]

theorem chunks_flatten {β : Type} {c : Nat} :
    ∀ (l : List β), (chunks c l).flatten = l := by
  intro l
  induction l using chunks.induct (c := c) with
  | case1 => rw [chunks]; rfl
  | case2 x xs ih =>
    rw [chunks, List.flatten_cons, ih]
    rw [List.cons_append, List.take_append_drop]

theorem mem_of_mem_chunks {β : Type} {c : Nat} {l : List β} {g : List β}
    {e : β} (hg : g ∈ chunks c l) (he : e ∈ g) : e ∈ l := by
  rw [← chunks_flatten (c := c) l]
  exact List.mem_flatten.2 ⟨g, hg, he⟩

theorem writeAll_fst : ∀ (gs : List FNode) (store : FStor),
    (writeAll store gs).1 = store ++ gs := by
  intro gs
  induction gs with
  | nil =>
    intro store
    rw [writeAll]
    rw [List.append_nil]
  | cons g gs ih =>
    intro store
    rw [writeAll]
    show (writeAll (store ++ [g]) gs).1 = _
    rw [ih, List.append_assoc]
    rfl

theorem writeAll_leaf : ∀ (gs : List FNode) (store : FStor),
    (∀ e ∈ (writeAll store gs).2,
      okTree (writeAll store gs).1 [] 0 e.2 = true) ∧
    ((writeAll store gs).2.map
      fun e => iterL (writeAll store gs).1 [] 0 e.2) = gs := by
  intro gs
  induction gs with
  | nil =>
    intro store
    exact ⟨by intro e he; simp [writeAll] at he, rfl⟩
  | cons g gs ih =>
    intro store
    obtain ⟨ihok, ihit⟩ := ih (store ++ [g])
    have hres : (writeAll (store ++ [g]) gs).1[store.length]? = some g := by
      rw [writeAll_fst, List.getElem?_append,
        if_pos (show store.length < (store ++ [g]).length by simp)]
      exact List.getElem?_concat_length store g
    constructor
    · intro e he
      rw [writeAll] at he ⊢
      rcases List.mem_cons.1 he with h | h
      · rw [h]
        show okTree (writeAll (store ++ [g]) gs).1 [] 0 store.length = true
        rw [okTree, resolve_nil, hres]
        rfl
      · exact ihok e h
    · rw [writeAll]
      show (((g.head?.map Prod.fst).getD [], store.length) ::
        (writeAll (store ++ [g]) gs).2).map _ = _
      rw [List.map_cons, ihit]
      congr 1
      show iterL (writeAll (store ++ [g]) gs).1 [] 0 store.length = g
      rw [iterL, resolve_nil, hres]
      rfl

theorem writeAll_node (lv : Nat) : ∀ (gs : List FNode) (store : FStor),
    (∀ g ∈ gs, ∀ e ∈ g, okTree store [] lv e.2 = true) →
    (∀ e ∈ (writeAll store gs).2,
      okTree (writeAll store gs).1 [] (lv + 1) e.2 = true) ∧
    ((writeAll store gs).2.map
      fun e => iterL (writeAll store gs).1 [] (lv + 1) e.2) =
      gs.map fun g => (g.map fun e => iterL store [] lv e.2).flatten := by
  intro gs
  induction gs with
  | nil =>
    intro store hok
    exact ⟨by intro e he; simp [writeAll] at he, rfl⟩
  | cons g gs ih =>
    intro store hok
    have hok2 : ∀ g2 ∈ gs, ∀ e ∈ g2,
        okTree (store ++ [g]) [] lv e.2 = true := by
      intro g2 hg2 e he
      exact okTree_append [g]
        (hok g2 (List.mem_cons_of_mem g hg2) e he)
    obtain ⟨ihok, ihit⟩ := ih (store ++ [g]) hok2
    have hext : (writeAll (store ++ [g]) gs).1 = (store ++ [g]) ++ gs :=
      writeAll_fst gs (store ++ [g])
    have hres : (writeAll (store ++ [g]) gs).1[store.length]? = some g := by
      rw [hext, List.getElem?_append,
        if_pos (show store.length < (store ++ [g]).length by simp)]
      exact List.getElem?_concat_length store g
    have hgok : ∀ e ∈ g, okTree (writeAll (store ++ [g]) gs).1 [] lv e.2
        = true := by
      intro e he
      rw [hext, List.append_assoc]
      exact okTree_append ([g] ++ gs) (hok g (List.mem_cons_self g gs) e he)
    constructor
    · intro e he
      rw [writeAll] at he ⊢
      rcases List.mem_cons.1 he with h | h
      · rw [h]
        show okTree (writeAll (store ++ [g]) gs).1 [] (lv + 1)
          store.length = true
        rw [okTree, resolve_nil, hres]
        rw [List.all_eq_true]
        intro e2 he2
        exact hgok e2 he2
      · exact ihok e h
    · rw [writeAll]
      show (((g.head?.map Prod.fst).getD [], store.length) ::
        (writeAll (store ++ [g]) gs).2).map _ = _
      rw [List.map_cons, ihit, List.map_cons]
      congr 1
      · show iterL (writeAll (store ++ [g]) gs).1 [] (lv + 1) store.length = _
        rw [iterL, resolve_nil, hres]
        show (g.map fun e =>
          iterL (writeAll (store ++ [g]) gs).1 [] lv e.2).flatten = _
        congr 1
        apply List.map_congr_left
        intro e he
        rw [hext, List.append_assoc]
        exact iterL_append ([g] ++ gs) (hok g (List.mem_cons_self g gs) e he)
      · apply List.map_congr_left
        intro g2 hg2
        congr 1
        apply List.map_congr_left
        intro e he
        exact iterL_append [g] (hok g2 (List.mem_cons_of_mem g hg2) e he)

theorem flatten_map_flatten {β γ : Type} (f : β → List γ) :
    ∀ (gs : List (List β)),
    (gs.map fun g => (g.map f).flatten).flatten = (gs.flatten.map f).flatten := by
  intro gs
  induction gs with
  | nil => rfl
  | cons g gs ih =>
    rw [List.map_cons, List.flatten_cons, ih, List.flatten_cons,
      List.map_append, List.flatten_append]

theorem buildUp_correct {c : Nat} :
    ∀ (n : Nat) (refs : List (BKey × Nat)) (store : FStor) (lv : Nat),
    refs.length ≤ n →
    (∀ e ∈ refs, okTree store [] lv e.2 = true) →
    okTree (buildUp c store refs lv).1 [] (buildUp c store refs lv).2.2
      (buildUp c store refs lv).2.1 = true ∧
    iterL (buildUp c store refs lv).1 [] (buildUp c store refs lv).2.2
      (buildUp c store refs lv).2.1 =
      (refs.map fun e => iterL store [] lv e.2).flatten := by
  intro n
  induction n with
  | zero =>
    intro refs store lv hn hok
    have hrefs : refs = [] := List.eq_nil_of_length_eq_zero (by omega)
    subst hrefs
    rw [buildUp]
    rw [dif_pos (by simp)]
    have hres : (store ++ [([] : FNode)])[store.length]? = some [] :=
      List.getElem?_concat_length store []
    cases lv with
    | zero =>
      constructor
      · rw [okTree, resolve_nil, hres]
        rfl
      · rw [iterL, resolve_nil, hres]
        rfl
    | succ lv2 =>
      constructor
      · rw [okTree, resolve_nil, hres]
        rfl
      · rw [iterL, resolve_nil, hres]
        rfl
  | succ n ih =>
    intro refs store lv hn hok
    rw [buildUp]
    by_cases h1 : refs.length ≤ 1
    · rw [dif_pos h1]
      cases refs with
      | nil =>
        have hres : (store ++ [([] : FNode)])[store.length]? = some [] :=
          List.getElem?_concat_length store []
        cases lv with
        | zero =>
          constructor
          · rw [okTree, resolve_nil, hres]
            rfl
          · rw [iterL, resolve_nil, hres]
            rfl
        | succ lv2 =>
          constructor
          · rw [okTree, resolve_nil, hres]
            rfl
          · rw [iterL, resolve_nil, hres]
            rfl
      | cons r rest =>
        have hrest : rest = [] := by
          simp only [List.length_cons] at h1
          exact List.eq_nil_of_length_eq_zero (by omega)
        subst hrest
        refine ⟨hok r (List.mem_cons_self r []), ?_⟩
        simp
    · rw [dif_neg h1]
      have hgok : ∀ g ∈ chunks c refs, ∀ e ∈ g,
          okTree store [] lv e.2 = true := by
        intro g hg e he
        exact hok e (mem_of_mem_chunks hg he)
      obtain ⟨hok2, hit2⟩ := writeAll_node lv (chunks c refs) store hgok
      have hlen2 : (writeAll store (chunks c refs)).2.length ≤ n := by
        rw [writeAll_snd_length]
        have := chunks_length_lt (c := c) (l := refs) (by omega)
        omega
      obtain ⟨hfin, hitfin⟩ := ih (writeAll store (chunks c refs)).2
        (writeAll store (chunks c refs)).1 (lv + 1) hlen2 hok2
      refine ⟨hfin, ?_⟩
      rw [hitfin, hit2, flatten_map_flatten, chunks_flatten]

/-- Iterating the built tree yields exactly the shortened pairs. -/
theorem build_correct (c : Nat) (pairs : List (BKey × Nat)) :
    iterL (build c pairs).1 [] (build c pairs).2.2 (build c pairs).2.1 =
      shorten [] pairs := by
  obtain ⟨hok, hit⟩ := writeAll_leaf (chunks c (shorten [] pairs)) []
  obtain ⟨_, hitfin⟩ := buildUp_correct
    (writeAll [] (chunks c (shorten [] pairs))).2.length
    (writeAll [] (chunks c (shorten [] pairs))).2
    (writeAll [] (chunks c (shorten [] pairs))).1 0 (le_refl _) hok
  show iterL _ [] _ _ = _
  rw [show build c pairs = buildUp c
      (writeAll [] (chunks c (shorten [] pairs))).1
      (writeAll [] (chunks c (shorten [] pairs))).2 0 from rfl] at *
  rw [hitfin, hit, chunks_flatten]

theorem shorten_snd : ∀ (prev : BKey) (pairs : List (BKey × Nat)),
    (shorten prev pairs).map Prod.snd = pairs.map Prod.snd := by
  intro prev pairs
  induction pairs generalizing prev with
  | nil => rfl
  | cons p rest ih =>
    cases p with
    | mk k o =>
      rw [shorten, List.map_cons, List.map_cons, ih]

theorem shorten_short : ∀ (prev : BKey) (pairs : List (BKey × Nat)),
    List.Forall₂ (fun sp p => sp.2 = p.2 ∧ ∃ t, sp.1 = p.1.take t)
      (shorten prev pairs) pairs := by
  intro prev pairs
  induction pairs generalizing prev with
  | nil => exact List.Forall₂.nil
  | cons p rest ih =>
    cases p with
    | mk k o =>
      rw [shorten]
      exact List.Forall₂.cons ⟨rfl, ⟨commonLen prev k + 1, rfl⟩⟩ (ih k)

end Btree

/-- C5: saving a B-tree with flatten=false and reopening from the saved root
and levels preserves the iteration sequence; concretely, a fresh mutable tree
holding "1" and "2" has one redirect (the root), and after save and reopen —
with no redirects left — iteration yields offsets 1 then 2 in order. -/
theorem C5_btree_save_reopen :
    (∀ fb : Btree.Fbtree,
      Btree.okTree fb.store fb.redirs fb.treeLevels fb.root = true →
      Btree.iterL (Btree.saveAndReopen fb).store [] fb.treeLevels
          (Btree.saveAndReopen fb).root =
        Btree.iterL fb.store fb.redirs fb.treeLevels fb.root) ∧
    (∃ fb1 fb2, Btree.CreateFbtree.Insert [49] 1 = some fb1 ∧
      fb1.Insert [50] 2 = some fb2 ∧
      fb2.redirs.length = 1 ∧
      (Btree.saveAndReopen fb2).redirs.length = 0 ∧
      (Btree.iterL (Btree.saveAndReopen fb2).store [] fb2.treeLevels
        (Btree.saveAndReopen fb2).root).map Prod.snd = [1, 2]) := by
  constructor
  · intro fb h
    exact (Btree.saveR_correct fb.treeLevels fb.store fb.root h).2.2
  · exact ⟨_, _, rfl, rfl, rfl, rfl, by decide⟩

/-- Witness for the hypothesis of C5: a concrete redirected tree passes the
reachability check and the saved tree iterates identically. -/
theorem C5_btree_save_reopen_witness :
    Btree.okTree [[([49], 1)]] [(0, [([49], 1), ([50], 2)])] 0 0 = true ∧
    Btree.iterL (Btree.saveAndReopen ⟨[[([49], 1)]], 0, 0,
        [(0, [([49], 1), ([50], 2)])]⟩).store [] 0
      (Btree.saveAndReopen ⟨[[([49], 1)]], 0, 0,
        [(0, [([49], 1), ([50], 2)])]⟩).root =
      Btree.iterL [[([49], 1)]] [(0, [([49], 1), ([50], 2)])] 0 0 :=
  ⟨by decide, C5_btree_save_reopen.1 ⟨[[([49], 1)]], 0, 0,
    [(0, [([49], 1), ([50], 2)])]⟩ (by decide)⟩

/-- C9: for a tree bulk-built from sorted full keys, ascending iteration
returns, in order, each entry's offset paired with an embedded key that is a
(possibly proper) prefix of the full key inserted with that offset. -/
theorem C9_btree_iter_short_keys (c : Nat) (pairs : List (Btree.BKey × Nat))
    (hsorted : Btree.sortedStrict pairs = true) :
    Btree.iterL (Btree.build c pairs).1 [] (Btree.build c pairs).2.2
        (Btree.build c pairs).2.1 = Btree.shorten [] pairs ∧
    List.Forall₂ (fun sp p => sp.2 = p.2 ∧ ∃ t, sp.1 = p.1.take t)
      (Btree.shorten [] pairs) pairs ∧
    (Btree.shorten [] pairs).map Prod.snd = pairs.map Prod.snd :=
  ⟨Btree.build_correct c pairs, Btree.shorten_short [] pairs,
    Btree.shorten_snd [] pairs⟩

/-- Witness for C9 at a concrete sorted key list. -/
theorem C9_btree_iter_short_keys_witness :
    Btree.sortedStrict [([49, 48], 5), ([49, 50], 7), ([50, 48], 9)] = true ∧
    Btree.iterL (Btree.build 0 [([49, 48], 5), ([49, 50], 7), ([50, 48], 9)]).1
        [] (Btree.build 0 [([49, 48], 5), ([49, 50], 7), ([50, 48], 9)]).2.2
        (Btree.build 0 [([49, 48], 5), ([49, 50], 7), ([50, 48], 9)]).2.1 =
      Btree.shorten [] [([49, 48], 5), ([49, 50], 7), ([50, 48], 9)] :=
  ⟨by decide, (C9_btree_iter_short_keys 0
    [([49, 48], 5), ([49, 50], 7), ([50, 48], 9)] (by decide)).1⟩

namespace Hamt

variable {α κ : Type} [DecidableEq κ]

theorem HeapStep.refl (gen : Nat) (H : Heap α) : HeapStep gen H H :=
  ⟨le_refl _, fun _ _ h _ => h, fun _ _ h => Or.inl h⟩

theorem HeapStep.trans {gen : Nat} {H1 H2 H3 : Heap α}
    (h12 : HeapStep gen H1 H2) (h23 : HeapStep gen H2 H3) :
    HeapStep gen H1 H3 := by
  obtain ⟨hl12, hf12, hw12⟩ := h12
  obtain ⟨hl23, hf23, hw23⟩ := h23
  refine ⟨le_trans hl12 hl23, ?_, ?_⟩
  · intro a nd h hne
    exact hf23 a nd (hf12 a nd h hne) hne
  · intro a nd2 h
    rcases hw23 a nd2 h with h2 | h2
    · exact hw12 a nd2 h2
    · exact Or.inr h2

theorem hget_append {H : Heap α} {a : Nat} {nd : NodeR α} (ext : Heap α)
    (h : hget H a = some nd) : hget (H ++ ext) a = some nd := by
  unfold hget at h ⊢
  rw [List.getElem?_append, if_pos (List.getElem?_eq_some_iff.1 h).1]
  exact h

theorem HeapStep.append {gen : Nat} {H : Heap α} {ext : Heap α}
    (hext : ∀ nd ∈ ext, nd.generation = gen) :
    HeapStep gen H (H ++ ext) := by
  refine ⟨by simp, ?_, ?_⟩
  · intro a nd h _
    exact hget_append ext h
  · intro a nd2 h
    unfold hget at h
    rw [List.getElem?_append] at h
    by_cases hlt : a < H.length
    · rw [if_pos hlt] at h
      exact Or.inl h
    · rw [if_neg hlt] at h
      refine Or.inr (hext nd2 ?_)
      exact (List.getElem?_eq_some_iff.1 h).2 ▸
        ext.getElem_mem (List.getElem?_eq_some_iff.1 h).1

theorem HeapStep.set {gen : Nat} {H : Heap α} {b : Nat} {ndb x : NodeR α}
    (hb : hget H b = some ndb) (hgb : ndb.generation = gen)
    (hgx : x.generation = gen) :
    HeapStep gen H (H.set b x) := by
  have hlt : b < H.length := (List.getElem?_eq_some_iff.1 hb).1
  refine ⟨by rw [List.length_set], ?_, ?_⟩
  · intro a nd h hne
    have hab : a ≠ b := by
      intro he
      subst he
      rw [h] at hb
      rw [Option.some.inj hb] at hne
      exact hne hgb
    unfold hget at h ⊢
    rw [List.getElem?_set_ne (fun he => hab he.symm)]
    exact h
  · intro a nd2 h
    by_cases hab : a = b
    · subst hab
      unfold hget at h
      rw [List.getElem?_set_self hlt] at h
      rw [← Option.some.inj h]
      exact Or.inr hgx
    · unfold hget at h
      rw [List.getElem?_set_ne (fun he => hab he.symm)] at h
      exact Or.inl h

theorem dupFor_spec {gen : Nat} {H : Heap α} {a : Nat} {nd0 : NodeR α}
    (hh : hget H a = some nd0) :
    HeapStep gen H (dupFor gen H a nd0).1 ∧
    hget (dupFor gen H a nd0).1 (dupFor gen H a nd0).2.1 =
      some (dupFor gen H a nd0).2.2 ∧
    (dupFor gen H a nd0).2.2.generation = gen := by
  unfold dupFor
  by_cases hgen : nd0.generation ≠ gen
  · rw [if_pos hgen]
    refine ⟨HeapStep.append ?_, ?_, rfl⟩
    · intro nd hnd
      simp at hnd
      rw [hnd]
    · exact List.getElem?_concat_length H _
  · rw [if_neg hgen]
    rw [Ne, not_not] at hgen
    exact ⟨HeapStep.refl gen H, hh, hgen⟩

/-- After one transition, an address holding a current-generation node keeps
holding a current-generation node. -/
theorem gen_node_stable {gen : Nat} {H H2 : Heap α} {a : Nat} {nd : NodeR α}
    (hs : HeapStep gen H H2) (h : hget H a = some nd)
    (hg : nd.generation = gen) :
    ∃ nd2, hget H2 a = some nd2 ∧ nd2.generation = gen := by
  obtain ⟨hl, _, hw⟩ := hs
  have hlt : a < H2.length :=
    lt_of_lt_of_le (List.getElem?_eq_some_iff.1 h).1 hl
  obtain ⟨nd2, hnd2⟩ : ∃ nd2, hget H2 a = some nd2 :=
    ⟨H2[a], List.getElem?_eq_getElem hlt⟩
  refine ⟨nd2, hnd2, ?_⟩
  rcases hw a nd2 hnd2 with h2 | h2
  · rw [h] at h2
    rw [← Option.some.inj h2]
    exact hg
  · exact h2

/-- A set at the (current-generation) address `a1`, after further
current-generation work `hs`, is still one transition from `H1`. -/
theorem step_set_after {gen : Nat} {H1 HR : Heap α} {a1 : Nat}
    {nd x : NodeR α} (h1 : hget H1 a1 = some nd) (hg : nd.generation = gen)
    (hx : x.generation = gen) (hs : HeapStep gen H1 HR) :
    HeapStep gen H1 (HR.set a1 x) := by
  obtain ⟨nd2, hnd2, hgnd2⟩ := gen_node_stable hs h1 hg
  exact hs.trans (HeapStep.set hnd2 hgnd2 hx)

theorem withA_step (keyf : α → κ) (gen : Nat) (item : α) (k : κ)
    (hash : Nat) :
    ∀ (n shift : Nat), 32 - shift ≤ n → ∀ (H : Heap α) (a : Nat),
    HeapStep gen H (withA keyf gen item k hash shift H a).1 := by
  intro n
  induction n using Nat.strong_induction_on with
  | _ n ih =>
    intro shift hn H a
    rw [withA]
    cases hh : hget H a with
    | none => exact HeapStep.refl gen H
    | some nd0 =>
      obtain ⟨hd, hd1, hd2⟩ := @dupFor_spec _ gen _ _ _ hh
      dsimp only
      by_cases h32 : 32 ≤ shift
      · rw [if_pos h32]
        cases hf : (dupFor gen H a nd0).2.2.vals.findIdx?
            (fun v => decide (keyf v = k)) with
        | some i => exact hd.trans (step_set_after hd1 hd2 hd2 (HeapStep.refl _ _))
        | none => exact hd.trans (step_set_after hd1 hd2 hd2 (HeapStep.refl _ _))
      · rw [if_neg h32]
        by_cases hbv : (dupFor gen H a nd0).2.2.bmVal &&& hamtBit hash shift = 0
        · rw [if_pos hbv]
          exact hd.trans (step_set_after hd1 hd2 hd2 (HeapStep.refl _ _))
        · rw [if_neg hbv]
          by_cases hany : ((dupFor gen H a nd0).2.2.vals[onesCount32
              ((dupFor gen H a nd0).2.2.bmVal &&& (hamtBit hash shift - 1))]?.any
              fun v => decide (keyf v = k)) = true
          · rw [if_pos hany]
            exact hd.trans (step_set_after hd1 hd2 hd2 (HeapStep.refl _ _))
          · rw [if_neg hany]
            by_cases hbp : (dupFor gen H a nd0).2.2.bmPtr &&&
                hamtBit hash shift ≠ 0
            · rw [if_pos hbp]
              cases hp : (dupFor gen H a nd0).2.2.ptrs[onesCount32
                  ((dupFor gen H a nd0).2.2.bmPtr &&&
                    (hamtBit hash shift - 1))]? with
              | none => exact hd
              | some ca =>
                have hrec := ih (32 - (shift + 5)) (by omega) (shift + 5)
                  (le_refl _) (dupFor gen H a nd0).1 ca
                exact hd.trans (step_set_after hd1 hd2 hd2 hrec)
            · rw [if_neg hbp]
              have hstep2 : HeapStep gen (dupFor gen H a nd0).1
                  ((dupFor gen H a nd0).1 ++ [⟨gen, 0, 0, [], []⟩]) := by
                refine HeapStep.append ?_
                intro nd hnd
                simp at hnd
                rw [hnd]
              have hrec := ih (32 - (shift + 5)) (by omega) (shift + 5)
                (le_refl _) ((dupFor gen H a nd0).1 ++ [⟨gen, 0, 0, [], []⟩])
                (dupFor gen H a nd0).1.length
              exact hd.trans (step_set_after hd1 hd2 hd2 (hstep2.trans hrec))

theorem pullUpA_step (gen : Nat) :
    ∀ (fuel : Nat) (H : Heap α) (a : Nat),
    HeapStep gen H (pullUpA gen fuel H a).1 := by
  intro fuel
  induction fuel with
  | zero =>
    intro H a
    exact HeapStep.refl gen H
  | succ fuel ih =>
    intro H a
    rw [pullUpA]
    cases hh : hget H a with
    | none => exact HeapStep.refl gen H
    | some nd0 =>
      obtain ⟨hd, hd1, hd2⟩ := @dupFor_spec _ gen _ _ _ hh
      dsimp only
      by_cases hbp : (dupFor gen H a nd0).2.2.bmPtr ≠ 0
      · rw [if_pos hbp]
        cases hl : (dupFor gen H a nd0).2.2.ptrs.getLast? with
        | none => exact hd
        | some ca =>
          have hrec := ih (dupFor gen H a nd0).1 ca
          dsimp only
          cases hc : (pullUpA gen fuel (dupFor gen H a nd0).1 ca).2.1 with
          | some child => exact hd.trans (step_set_after hd1 hd2 hd2 hrec)
          | none => exact hd.trans (step_set_after hd1 hd2 hd2 hrec)
      · rw [if_neg hbp]
        cases hl : (dupFor gen H a nd0).2.2.vals.getLast? with
        | none => exact hd
        | some item =>
          dsimp only
          by_cases h1 : (dupFor gen H a nd0).2.2.vals.length = 1
          · rw [if_pos h1]
            exact hd
          · rw [if_neg h1]
            exact hd.trans (step_set_after hd1 hd2 hd2 (HeapStep.refl _ _))

theorem withoutA_step (keyf : α → κ) (gen : Nat) (k : κ) (hash fuel : Nat) :
    ∀ (n shift : Nat), 32 - shift ≤ n → ∀ (H : Heap α) (a : Nat),
    HeapStep gen H (withoutA keyf gen k hash fuel shift H a).1 := by
  intro n
  induction n using Nat.strong_induction_on with
  | _ n ih =>
    intro shift hn H a
    rw [withoutA]
    cases hh : hget H a with
    | none => exact HeapStep.refl gen H
    | some nd0 =>
      obtain ⟨hd, hd1, hd2⟩ := @dupFor_spec _ gen _ _ _ hh
      dsimp only
      by_cases h32 : 32 ≤ shift
      · rw [if_pos h32]
        cases hf : (dupFor gen H a nd0).2.2.vals.findIdx?
            (fun v => decide (keyf v = k)) with
        | none => exact hd
        | some i =>
          dsimp only
          cases hl : (dupFor gen H a nd0).2.2.vals.getLast? with
          | none => exact hd
          | some lastv =>
            dsimp only
            by_cases h0 : (((dupFor gen H a nd0).2.2.vals.set i
                lastv).dropLast).length = 0
            · rw [if_pos h0]
              exact hd
            · rw [if_neg h0]
              exact hd.trans (step_set_after hd1 hd2 hd2 (HeapStep.refl _ _))
      · rw [if_neg h32]
        by_cases hcond : (dupFor gen H a nd0).2.2.bmVal &&&
            hamtBit hash shift ≠ 0 ∧
            (((dupFor gen H a nd0).2.2.vals[onesCount32
              ((dupFor gen H a nd0).2.2.bmVal &&&
                (hamtBit hash shift - 1))]?.any
              fun v => decide (keyf v = k)) = true)
        · rw [if_pos hcond]
          by_cases hbp : (dupFor gen H a nd0).2.2.bmPtr &&&
              hamtBit hash shift = 0
          · rw [if_pos hbp]
            by_cases hz : Nat.ldiff (dupFor gen H a nd0).2.2.bmVal
                (hamtBit hash shift) = 0 ∧ (dupFor gen H a nd0).2.2.bmPtr = 0
            · rw [if_pos hz]
              exact hd
            · rw [if_neg hz]
              exact hd.trans (step_set_after hd1 hd2 hd2 (HeapStep.refl _ _))
          · rw [if_neg hbp]
            cases hp : (dupFor gen H a nd0).2.2.ptrs[onesCount32
                ((dupFor gen H a nd0).2.2.bmPtr &&&
                  (hamtBit hash shift - 1))]? with
            | none => exact hd
            | some ca =>
              have hrec := pullUpA_step (α := α) gen fuel
                (dupFor gen H a nd0).1 ca
              dsimp only
              cases h2 : (pullUpA gen fuel (dupFor gen H a nd0).1 ca).2.2 with
              | none => exact hd.trans hrec
              | some item =>
                dsimp only
                cases h3 : (pullUpA gen fuel (dupFor gen H a nd0).1 ca).2.1 with
                | some child =>
                  exact hd.trans (step_set_after hd1 hd2 hd2 hrec)
                | none =>
                  exact hd.trans (step_set_after hd1 hd2 hd2 hrec)
        · rw [if_neg hcond]
          by_cases hbp : (dupFor gen H a nd0).2.2.bmPtr &&&
              hamtBit hash shift = 0
          · rw [if_pos hbp]
            exact hd
          · rw [if_neg hbp]
            cases hp : (dupFor gen H a nd0).2.2.ptrs[onesCount32
                ((dupFor gen H a nd0).2.2.bmPtr &&&
                  (hamtBit hash shift - 1))]? with
            | none => exact hd
            | some ca =>
              have hrec := ih (32 - (shift + 5)) (by omega) (shift + 5)
                (le_refl _) (dupFor gen H a nd0).1 ca
              dsimp only
              cases h3 : (withoutA keyf gen k hash fuel (shift + 5)
                  (dupFor gen H a nd0).1 ca).2.1 with
              | some child =>
                exact hd.trans (step_set_after hd1 hd2 hd2 hrec)
              | none =>
                exact hd.trans (step_set_after hd1 hd2 hd2 hrec)

theorem goodT_of_reach {g : Nat} {H : Heap α} (hle : heapLe H g = true) :
    ∀ (fuel shift a : Nat),
    reachOK H fuel shift a = true → goodT (g + 1) H shift a = true := by
  intro fuel
  induction fuel with
  | zero =>
    intro shift a hr
    exact Bool.noConfusion hr
  | succ fuel ih =>
    intro shift a hr
    rw [reachOK] at hr
    rw [goodT]
    cases hh : hget H a with
    | none =>
      rw [hh] at hr
      exact Bool.noConfusion hr
    | some nd =>
      rw [hh] at hr
      dsimp only at hr
      have hgle : nd.generation ≤ g := by
        unfold heapLe at hle
        rw [List.all_eq_true] at hle
        have hmem : nd ∈ H := by
          unfold hget at hh
          exact (List.getElem?_eq_some_iff.1 hh).2 ▸
            H.getElem_mem (List.getElem?_eq_some_iff.1 hh).1
        simpa using hle nd hmem
      rw [Bool.and_eq_true]
      refine ⟨by simp; omega, ?_⟩
      by_cases h32 : 32 ≤ shift
      · rw [if_pos h32]
      · rw [if_neg h32]
        rw [if_neg h32] at hr
        rw [List.all_eq_true] at hr ⊢
        intro ca hca
        exact ih (shift + 5) ca (hr ca hca)

theorem goodT_frame {gen : Nat} {H H2 : Heap α}
    (hfr : ∀ a nd, hget H a = some nd → nd.generation ≠ gen →
      hget H2 a = some nd) :
    ∀ (n shift : Nat), 32 - shift ≤ n → ∀ a,
    goodT gen H shift a = true → goodT gen H2 shift a = true := by
  intro n
  induction n using Nat.strong_induction_on with
  | _ n ih =>
    intro shift hn a hg
    rw [goodT] at hg ⊢
    cases hh : hget H a with
    | none =>
      rw [hh] at hg
      exact Bool.noConfusion hg
    | some nd =>
      rw [hh] at hg
      dsimp only at hg
      rw [Bool.and_eq_true] at hg
      obtain ⟨hgen, hrest⟩ := hg
      have hgen2 : nd.generation ≠ gen := by simpa using hgen
      rw [hfr a nd hh hgen2]
      dsimp only
      rw [Bool.and_eq_true]
      refine ⟨hgen, ?_⟩
      by_cases h32 : 32 ≤ shift
      · rw [if_pos h32]
      · rw [if_neg h32]
        rw [if_neg h32, List.all_eq_true] at hrest
        rw [List.all_eq_true]
        intro ca hca
        exact ih (32 - (shift + 5)) (by omega) (shift + 5) (le_refl _) ca
          (hrest ca hca)

theorem getA_frame {keyf : α → κ} {k : κ} {hash : Nat} {gen : Nat}
    {H H2 : Heap α}
    (hfr : ∀ a nd, hget H a = some nd → nd.generation ≠ gen →
      hget H2 a = some nd) :
    ∀ (n shift : Nat), 32 - shift ≤ n → ∀ a,
    goodT gen H shift a = true →
    getA keyf k hash H2 shift a = getA keyf k hash H shift a := by
  intro n
  induction n using Nat.strong_induction_on with
  | _ n ih =>
    intro shift hn a hg
    rw [goodT] at hg
    cases hh : hget H a with
    | none =>
      rw [hh] at hg
      exact Bool.noConfusion hg
    | some nd =>
      rw [hh] at hg
      dsimp only at hg
      rw [Bool.and_eq_true] at hg
      obtain ⟨hgen, hrest⟩ := hg
      have hgen2 : nd.generation ≠ gen := by simpa using hgen
      have hh2 : hget H2 a = some nd := hfr a nd hh hgen2
      rw [getA, getA, hh, hh2]
      dsimp only
      by_cases h32 : 32 ≤ shift
      · rw [if_pos h32, if_pos h32]
      · rw [if_neg h32, if_neg h32]
        rw [if_neg h32, List.all_eq_true] at hrest
        by_cases hcond : nd.bmVal &&& hamtBit hash shift ≠ 0 ∧
            (nd.vals[onesCount32 (nd.bmVal &&& (hamtBit hash shift - 1))]?.any
              fun v => decide (keyf v = k)) = true
        · rw [if_pos hcond, if_pos hcond]
        · rw [if_neg hcond, if_neg hcond]
          by_cases hbp : nd.bmPtr &&& hamtBit hash shift = 0
          · rw [if_pos hbp, if_pos hbp]
          · rw [if_neg hbp, if_neg hbp]
            cases hp : nd.ptrs[onesCount32
                (nd.bmPtr &&& (hamtBit hash shift - 1))]? with
            | none => rfl
            | some ca =>
              have hca : ca ∈ nd.ptrs := by
                exact (List.getElem?_eq_some_iff.1 hp).2 ▸
                  nd.ptrs.getElem_mem (List.getElem?_eq_some_iff.1 hp).1
              exact ih (32 - (shift + 5)) (by omega) (shift + 5) (le_refl _)
                ca (hrest ca hca)

theorem applyOpsA_step {keyf : α → κ} {hashf : κ → Nat} (ops : List (AOp α κ)) :
    ∀ (H : Heap α) (m : AHamt),
    HeapStep m.generation H (applyOpsA keyf hashf H m ops) := by
  induction ops with
  | nil =>
    intro H m
    exact HeapStep.refl _ H
  | cons op rest ih =>
    intro H m
    cases op with
    | put item =>
      exact (withA_step keyf m.generation item (keyf item)
        (hashf (keyf item)) 32 0 (by omega) H m.root).trans
        (ih (PutA keyf hashf H m item) m)
    | del k =>
      exact (withoutA_step keyf m.generation k (hashf k) (H.length + 1)
        32 0 (by omega) H m.root).trans
        (ih (DeleteA keyf hashf H m k) m)

end Hamt

/-- C4: the contents of a frozen HAMT snapshot are unchanged by any sequence
of `Put`/`Delete` operations on a mutable handle derived from it via
`Mutable()` — `Get` on the snapshot root returns exactly what it returned at
the freeze. -/
theorem C4_hamt_snapshot_isolation {α κ : Type} [DecidableEq κ]
    (keyf : α → κ) (hashf : κ → Nat) (H : Hamt.Heap α) (g aS : Nat)
    (ops : List (Hamt.AOp α κ)) (k : κ) (fuel : Nat)
    (hle : Hamt.heapLe H g = true)
    (hreach : Hamt.reachOK H fuel 0 aS = true) :
    Hamt.getA keyf k (hashf k)
        (Hamt.applyOpsA keyf hashf (Hamt.MutableA H g aS).1
          (Hamt.MutableA H g aS).2 ops) 0 aS =
      Hamt.getA keyf k (hashf k) H 0 aS := by
  have hgood : Hamt.goodT (g + 1) H 0 aS = true :=
    Hamt.goodT_of_reach hle fuel 0 aS hreach
  have hm : Hamt.HeapStep (g + 1) H (Hamt.MutableA H g aS).1 := by
    unfold Hamt.MutableA
    cases hh : Hamt.hget H aS with
    | none =>
      refine Hamt.HeapStep.append ?_
      intro nd hnd
      simp at hnd
      rw [hnd]
    | some nd0 =>
      refine Hamt.HeapStep.append ?_
      intro nd hnd
      simp at hnd
      rw [hnd]
  have hgen : (Hamt.MutableA H g aS).2.generation = g + 1 := by
    unfold Hamt.MutableA
    cases hh : Hamt.hget H aS <;> rfl
  have hap := @Hamt.applyOpsA_step _ _ _ keyf hashf ops
    (Hamt.MutableA H g aS).1 (Hamt.MutableA H g aS).2
  rw [hgen] at hap
  have hfin := hm.trans hap
  exact Hamt.getA_frame hfin.2.1 32 0 (by omega) aS hgood

/-- Witness for C4 at a concrete one-node snapshot and one mutating put. -/
theorem C4_hamt_snapshot_isolation_witness :
    Hamt.heapLe [(⟨0, 32, 0, [5], []⟩ : Hamt.NodeR Nat)] 0 = true ∧
    Hamt.reachOK [(⟨0, 32, 0, [5], []⟩ : Hamt.NodeR Nat)] 8 0 0 = true ∧
    Hamt.getA (fun x : Nat => x) 5 5
        (Hamt.applyOpsA (fun x : Nat => x) (fun x : Nat => x)
          (Hamt.MutableA [(⟨0, 32, 0, [5], []⟩ : Hamt.NodeR Nat)] 0 0).1
          (Hamt.MutableA [(⟨0, 32, 0, [5], []⟩ : Hamt.NodeR Nat)] 0 0).2
          [Hamt.AOp.put 7]) 0 0 =
      Hamt.getA (fun x : Nat => x) 5 5
        [(⟨0, 32, 0, [5], []⟩ : Hamt.NodeR Nat)] 0 0 :=
  ⟨by decide, by decide,
    C4_hamt_snapshot_isolation (fun x => x) (fun x => x)
      [⟨0, 32, 0, [5], []⟩] 0 0 [Hamt.AOp.put 7] 5 8
      (by decide) (by decide)⟩

